import Mathlib

/-!
# MyCLI tokenizer (src/modules/tokenizer.c)

A shallow embedding of the functions tokenize, save_string and free_tok_list,
and what the tokenizer does on operators, quotes, escapes and characters
outside the printable range.

Conventions of the embedding.

* A char is a natural number, the value of the byte (0..255).  The only
  ordering test of the source is 32 <= ch && ch <= 127; it is false for the
  bytes 128..255 whether char is signed (they are negative) or unsigned (they
  exceed 127), so the byte value can be compared directly.
* The input string is the list of its bytes before the terminating NUL.
  The element input[length] is that NUL and reads as 0.
* The part token[0..j) of the buffer is the list tok: storing at token[j] and
  incrementing j appends, j = 0 empties, token[0] = ch with j = 1 is the
  one-element list.
* The linked list behind a ListHandler is the list of its nodes, in order;
  count is its length, head and tail its first and last node.
* What is written to stderr is recorded as a Diag.

Character codes used below: newline 10, blank 32, double quote 34, single
quote 39, digit zero 48, less-than 60, greater-than 62, backslash 92,
letters b 98, n 110, r 114, t 116, v 118, bar 124; the control bytes
backspace 8, tab 9, vertical tab 11, carriage return 13, NUL 0.
-/

namespace MyCLI

/-- The states of the scanner (`Token_Sys_State`). -/
inductive Token_Sys_State
  | Init_State
  | Blank_State
  | Letter_State
  | Redirect_State
  | Single_Quote_State
  | Double_Quote_State
  deriving DecidableEq, Repr

/-- A node of the token list (`tok_node`, without the `next` link): the
NUL-terminated string `token`, as the bytes before the NUL, and `special`. -/
structure tok_node where
  token : List Nat
  special : Bool
  deriving DecidableEq, Repr

/-- The messages `tokenize` prints on `stderr`. -/
inductive Diag
  /-- Line 37: the input did not end in a newline. -/
  | no_newline
  /-- Line 58: need input before redirect or pipe. -/
  | need_input
  /-- Lines 66, 96, 119, 170, 205, 264: unrecognized character. -/
  | unrecognized (ch : Nat)
  /-- Line 140: no redirect at the end of the input. -/
  | redirect_at_end
  /-- Line 144: this character is not valid after a redirect. -/
  | not_valid_after (ch : Nat)
  /-- Line 150: too many redirects in a row. -/
  | too_many_redirects
  /-- Line 157: no spaces between two greater-than signs. -/
  | spaces_between
  /-- Line 210: single quote never closed. -/
  | single_quote_never_closed
  /-- Line 269: double quote never closed. -/
  | double_quote_never_closed
  deriving DecidableEq, Repr

/-- What a call of `tokenize` leaves behind: the token list and the message
printed, if any. -/
structure Result where
  tlist : List tok_node
  err : Option Diag
  deriving DecidableEq, Repr

/-- The function `save_string`, called with `token[0..j) = tok` right after
`token[j] = '\0'`: `strlen` stops at the first NUL of the buffer, that many
bytes are copied into a new node, and the node goes to the end of the list. -/
def save_string (tok : List Nat) (tlist : List tok_node) (spec : Bool) : List tok_node :=
  tlist ++ [⟨tok.takeWhile (fun c => c ≠ 0), spec⟩]

/-- The function `free_tok_list`: every node is freed, the list is empty. -/
def free_tok_list (_tlist : List tok_node) : List tok_node := []

/-- The effect of one pass through the `switch`: either the loop goes on
(`cont`) with a new state, buffer and list, `skip` telling whether the body
advanced `i` itself to take a lookahead character, or the function returns
(`stop`). -/
inductive Step
  | cont (State : Token_Sys_State) (tok : List Nat) (tlist : List tok_node) (skip : Bool)
  | stop (tlist : List tok_node) (err : Option Diag)
  deriving DecidableEq, Repr

open Token_Sys_State

/-- The `case Init_State` of the switch. -/
def case_Init (ch : Nat) (tok : List Nat) (tlist : List tok_node) : Step :=
  if ch = 10 then .stop tlist none
  else if ch = 34 then .cont Double_Quote_State tok tlist false
  else if ch = 39 then .cont Single_Quote_State tok tlist false
  else if ch = 60 ∨ ch = 62 ∨ ch = 124 then .stop tlist (some .need_input)
  else if ch = 32 then .cont Init_State tok tlist false
  else if 32 ≤ ch ∧ ch ≤ 127 then .cont Letter_State (tok ++ [ch]) tlist false
  else .stop tlist (some (.unrecognized ch))

/-- The `case Letter_State` of the switch. -/
def case_Letter (ch : Nat) (tok : List Nat) (tlist : List tok_node) : Step :=
  if ch = 10 then .cont Letter_State tok (save_string tok tlist false) false
  else if ch = 34 then .cont Double_Quote_State tok tlist false
  else if ch = 39 then .cont Single_Quote_State tok tlist false
  else if ch = 60 ∨ ch = 62 ∨ ch = 124 then
    .cont Redirect_State [ch] (save_string tok tlist false) false
  else if ch = 32 then .cont Blank_State [] (save_string tok tlist false) false
  else if 32 ≤ ch ∧ ch ≤ 127 then .cont Letter_State (tok ++ [ch]) tlist false
  else .stop (free_tok_list tlist) (some (.unrecognized ch))

/-- The `case Blank_State` of the switch. -/
def case_Blank (ch : Nat) (tok : List Nat) (tlist : List tok_node) : Step :=
  if ch = 10 then .cont Blank_State tok tlist false
  else if ch = 34 then .cont Double_Quote_State tok tlist false
  else if ch = 39 then .cont Single_Quote_State tok tlist false
  else if ch = 60 ∨ ch = 62 ∨ ch = 124 then .cont Redirect_State (tok ++ [ch]) tlist false
  else if ch = 32 then .cont Blank_State tok tlist false
  else if 32 ≤ ch ∧ ch ≤ 127 then .cont Letter_State (tok ++ [ch]) tlist false
  else .stop (free_tok_list tlist) (some (.unrecognized ch))

/-- The `case Redirect_State` of the switch; `prev` is `input[i-1]` and `nxt`
is `input[i+1]`. -/
def case_Redirect (prev ch nxt : Nat) (tok : List Nat) (tlist : List tok_node) : Step :=
  if ch = 34 then .cont Double_Quote_State [] (save_string tok tlist true) false
  else if ch = 39 then .cont Single_Quote_State [] (save_string tok tlist true) false
  else if ch = 10 then .stop (free_tok_list tlist) (some .redirect_at_end)
  else if ch = 60 ∨ ch = 124 then .stop (free_tok_list tlist) (some (.not_valid_after ch))
  else if ch = 62 then
    if prev = 62 then
      if nxt = 62 then .stop (free_tok_list tlist) (some .too_many_redirects)
      else .cont Redirect_State (tok ++ [ch]) tlist false
    else .stop (free_tok_list tlist) (some .spaces_between)
  else if ch = 32 then .cont Redirect_State tok tlist false
  else if 32 ≤ ch ∧ ch ≤ 127 then .cont Letter_State [ch] (save_string tok tlist true) false
  else .stop (free_tok_list tlist) (some (.unrecognized ch))

/-- The `case Single_Quote_State` of the switch; `nxt` is `input[i+1]`, the
character the body reads after its own `i++`. -/
def case_Single_Quote (ch nxt : Nat) (tok : List Nat) (tlist : List tok_node) : Step :=
  if ch = 39 then
    if nxt = 34 then .cont Double_Quote_State tok tlist true
    else if nxt = 39 then .cont Single_Quote_State tok tlist true
    else if nxt = 60 ∨ nxt = 62 ∨ nxt = 124 then
      .cont Redirect_State [nxt] (save_string tok tlist false) true
    else if nxt = 32 then .cont Blank_State [] (save_string tok tlist false) true
    else if 32 ≤ nxt ∧ nxt ≤ 127 then .cont Letter_State (tok ++ [nxt]) tlist true
    else if nxt = 10 then .cont Single_Quote_State tok (save_string tok tlist false) true
    else .stop (free_tok_list tlist) (some (.unrecognized nxt))
  else if ch = 10 then .stop (free_tok_list tlist) (some .single_quote_never_closed)
  else if ch = 92 then
    if nxt = 110 then .cont Single_Quote_State (tok ++ [10]) tlist true
    else if nxt = 98 then .cont Single_Quote_State (tok ++ [8]) tlist true
    else if nxt = 114 then .cont Single_Quote_State (tok ++ [13]) tlist true
    else if nxt = 116 then .cont Single_Quote_State (tok ++ [9]) tlist true
    else if nxt = 118 then .cont Single_Quote_State (tok ++ [11]) tlist true
    else if nxt = 48 then .cont Single_Quote_State (tok ++ [0]) tlist true
    else .cont Single_Quote_State (tok ++ [ch, nxt]) tlist true
  else .cont Single_Quote_State (tok ++ [ch]) tlist false

/-- The `case Double_Quote_State` of the switch; `nxt` is `input[i+1]`. -/
def case_Double_Quote (ch nxt : Nat) (tok : List Nat) (tlist : List tok_node) : Step :=
  if ch = 34 then
    if nxt = 39 then .cont Single_Quote_State tok tlist true
    else if nxt = 34 then .cont Double_Quote_State tok tlist true
    else if nxt = 60 ∨ nxt = 62 ∨ nxt = 124 then
      .cont Redirect_State [nxt] (save_string tok tlist false) true
    else if nxt = 32 then .cont Blank_State [] (save_string tok tlist false) true
    else if 32 ≤ nxt ∧ nxt ≤ 127 then .cont Letter_State (tok ++ [nxt]) tlist true
    else if nxt = 10 then .cont Double_Quote_State tok (save_string tok tlist false) true
    else .stop (free_tok_list tlist) (some (.unrecognized nxt))
  else if ch = 10 then .stop (free_tok_list tlist) (some .double_quote_never_closed)
  else if ch = 92 then
    if nxt = 110 then .cont Double_Quote_State (tok ++ [10]) tlist true
    else if nxt = 98 then .cont Double_Quote_State (tok ++ [8]) tlist true
    else if nxt = 114 then .cont Double_Quote_State (tok ++ [13]) tlist true
    else if nxt = 116 then .cont Double_Quote_State (tok ++ [9]) tlist true
    else if nxt = 118 then .cont Double_Quote_State (tok ++ [11]) tlist true
    else if nxt = 48 then .cont Double_Quote_State (tok ++ [0]) tlist true
    else .cont Double_Quote_State (tok ++ [ch, nxt]) tlist true
  else .cont Double_Quote_State (tok ++ [ch]) tlist false

/-- The body of the `for` loop: `switch (State)` on `ch = input[i]`, with
`prev = input[i-1]` and `nxt = input[i+1]`. -/
def body (State : Token_Sys_State) (prev ch nxt : Nat) (tok : List Nat)
    (tlist : List tok_node) : Step :=
  match State with
  | Init_State => case_Init ch tok tlist
  | Letter_State => case_Letter ch tok tlist
  | Blank_State => case_Blank ch tok tlist
  | Redirect_State => case_Redirect prev ch nxt tok tlist
  | Single_Quote_State => case_Single_Quote ch nxt tok tlist
  | Double_Quote_State => case_Double_Quote ch nxt tok tlist

/-- The loop `for (i = 0, j = 0; i < length; i++)`, from the iteration at
index `i` on: the third argument is `input[i..length)`, `prev` is
`input[i-1]`.  The character after the last one is the terminating NUL.  When
the body has advanced `i` itself, the loop's `i++` steps over the lookahead
character as well. -/
def loop (State : Token_Sys_State) (prev : Nat) :
    List Nat → List Nat → List tok_node → Result
  | [], _, tlist => ⟨tlist, none⟩
  | ch :: rest, tok, tlist =>
    match body State prev ch (rest.headD 0) tok tlist with
    | .stop tl e => ⟨tl, e⟩
    | .cont st tok1 tl false => loop st ch rest tok1 tl
    | .cont st tok1 tl true =>
      match rest with
      | [] => ⟨tl, none⟩
      | nx :: rest1 => loop st nx rest1 tok1 tl

/-- The function `tokenize`.  `none` stands for the call on the empty string,
where `input[length-1]` is read outside the string; before the first
iteration no `input[i-1]` is read, its place is filled with `0`. -/
def tokenize (tlist : List tok_node) (input : List Nat) : Option Result :=
  match input.getLast? with
  | none => none
  | some c =>
    if c ≠ 10 then some ⟨tlist, some .no_newline⟩
    else some (loop Init_State 0 input [] tlist)

/-- The bytes of a string literal, for writing inputs readably. -/
def bytes (s : String) : List Nat := s.toList.map Char.toNat

/-- The variables of `tokenize` at the test `i < length` of the loop: the
state, `prev = input[i-1]`, `rest = input[i..length)`, the buffer and the
list. -/
structure Config where
  State : Token_Sys_State
  prev : Nat
  rest : List Nat
  tok : List Nat
  tlist : List tok_node
  deriving DecidableEq, Repr

/-- The variables when the loop is entered. -/
def Config.start (tlist : List tok_node) (input : List Nat) : Config :=
  ⟨Init_State, 0, input, [], tlist⟩

/-- What the loop computes from a configuration on. -/
def Config.run (c : Config) : Result := loop c.State c.prev c.rest c.tok c.tlist

/-- One iteration of the loop, when the loop comes back to its test after
it; `none` when the iteration returns or there is no iteration left. -/
def advance (c : Config) : Option Config :=
  match c.rest with
  | [] => none
  | ch :: rest =>
    match body c.State c.prev ch (rest.headD 0) c.tok c.tlist with
    | .stop _ _ => none
    | .cont st tok1 tl false => some ⟨st, ch, rest, tok1, tl⟩
    | .cont st tok1 tl true =>
      match rest with
      | [] => none
      | nx :: rest1 => some ⟨st, nx, rest1, tok1, tl⟩

/-- The configuration after `n` iterations, if the loop gets that far. -/
def configAfter : Nat → Config → Option Config
  | 0, c => some c
  | n + 1, c => (advance c).bind (configAfter n)

/-- The scanner takes the first character of the suffix `r` of `line` inside
a quote: at some iteration it is in a quote state and either stands at that
character, or stands at a backslash right before it and takes the character
as the escaped one.  (After a closing quote the lookahead character is
classified as outside the quote, and is not counted here.) -/
def quotedAt (line r : List Nat) : Bool :=
  (List.range (line.length + 1)).any fun n =>
    match configAfter n (Config.start [] line) with
    | none => false
    | some c =>
      decide ((c.State = Single_Quote_State ∨ c.State = Double_Quote_State)
        ∧ (c.rest = r ∨ c.rest = 92 :: r))

/-- A character that stands for itself inside a quote opened by `q`: not the
closing quote, not a backslash, not a line terminator (and, being a character
of a C string, not NUL). -/
def litChar (q c : Nat) : Prop := c ≠ q ∧ c ≠ 92 ∧ c ≠ 10 ∧ c ≠ 0

instance (q : Nat) : DecidablePred (litChar q) := fun c => by unfold litChar; infer_instance

/-- What a backslash followed by `ec` stores in the buffer inside a quote
(the `if (ec == 'n') ... else ...` chain, the same in both quote states). -/
def escaped (ec : Nat) : List Nat :=
  if ec = 110 then [10]
  else if ec = 98 then [8]
  else if ec = 114 then [13]
  else if ec = 116 then [9]
  else if ec = 118 then [11]
  else if ec = 48 then [0]
  else [92, ec]

/-- The quote state entered on the quote character `q`. -/
def quoteState (q : Nat) : Token_Sys_State :=
  if q = 39 then Single_Quote_State else Double_Quote_State

/-- An operator character: `<`, `>` or `|`. -/
def isOp (c : Nat) : Prop := c = 60 ∨ c = 62 ∨ c = 124

instance : DecidablePred isOp := fun c => by unfold isOp; infer_instance

/-- A plain word character: in the range 32..127 and not a blank, a quote or
an operator character. -/
def plainChar (c : Nat) : Prop :=
  32 ≤ c ∧ c ≤ 127 ∧ c ≠ 32 ∧ c ≠ 34 ∧ c ≠ 39 ∧ c ≠ 60 ∧ c ≠ 62 ∧ c ≠ 124

instance : DecidablePred plainChar := fun c => by unfold plainChar; infer_instance

/-- The list is still empty as long as the scanner is in `Init_State`. -/
def Config.clean (c : Config) : Prop := c.State = Init_State → c.tlist = []

/-- The text of an operator token: one of `|`, `<`, `>`, `>>`. -/
def isOperatorText (t : List Nat) : Prop := t = [124] ∨ t = [60] ∨ t = [62] ∨ t = [62, 62]

instance : DecidablePred isOperatorText := fun t => by unfold isOperatorText; infer_instance

/-- What holds of the operator buffer while scanning: every token flagged
special so far is an operator; the buffer is empty in `Blank_State`; in
`Redirect_State` the buffer is an operator, and when the character before is
`>` the buffer is the single `>` unless the next character is not `>`. -/
def Config.opInv (c : Config) : Prop :=
  (∀ t ∈ c.tlist, t.special = true → isOperatorText t.token)
    ∧ (c.State = Blank_State → c.tok = [])
    ∧ (c.State = Redirect_State →
        isOperatorText c.tok ∧ (c.prev = 62 → c.tok = [62] ∨ c.rest.headD 0 ≠ 62))

/-! ## The executor (src/modules/executor.c)

A pointer into the token list is the part of the list that starts at the node
it points to; `NULL` is the empty list, and `p->next` is the tail.  Two
pointers into the same list are equal when these parts have the same length.
-/

/-- A `ListHandler` as `get_next_subsection` fills it: `head` and `tail`
point into the token list, `tail` is `none` as long as it has not been
assigned, `count` is the number of nodes counted. -/
structure ListHandler where
  head : List tok_node
  tail : Option (List tok_node)
  count : Nat
  deriving DecidableEq, Repr

/-- The test `curr->special` and `!strcmp(curr->token, "|")`. -/
def is_pipe (t : tok_node) : Prop := t.special = true ∧ t.token = [124]

instance : DecidablePred is_pipe := fun t => by unfold is_pipe; infer_instance

/-- The function `count_pipes`. -/
def count_pipes : List tok_node → Nat
  | [] => 0
  | t :: next => (if is_pipe t then 1 else 0) + count_pipes next

/-- The `while` loop of `get_next_subsection`: the arguments are `curr`,
`prev`, `cmd.tail` and `count`; the result is `cmd.tail` and `count` when the
loop is left. -/
def get_next_subsection_loop :
    List tok_node → List tok_node → Option (List tok_node) → Nat
      → Option (List tok_node) × Nat
  | [], _, tail, count => (tail, count)
  | t :: next, prev, tail, count =>
    if is_pipe t then (some prev, count)
    else
      get_next_subsection_loop next (t :: next)
        (if next = [] then some (t :: next) else tail) (count + 1)

/-- The function `get_next_subsection`. -/
def get_next_subsection (curr : List tok_node) : ListHandler :=
  let r := get_next_subsection_loop curr [] none 0
  ⟨curr, r.1, r.2⟩

/-- The first loop of `execute`, from iteration `i` on, with `n = cmd_ct - i`
iterations left: the handlers `cmds[i..cmd_ct)`.  `none` when `cmds[i].tail`
is read without having been assigned, or is `NULL` and dereferenced. -/
def execute_split : Nat → List tok_node → Option (List ListHandler)
  | 0, _ => some []
  | n + 1, curr =>
    let cmd := get_next_subsection curr
    match cmd.tail with
    | none => none
    | some [] => none
    | some (t :: next) =>
      match next with
      | [] => (execute_split n (t :: next)).map (fun cmds => cmd :: cmds)
      | _ :: next2 => (execute_split n next2).map (fun cmds => cmd :: cmds)

/-- The array `cmds` that `execute` builds for the list at `head`. -/
def execute_cmds (head : List tok_node) : Option (List ListHandler) :=
  execute_split (count_pipes head + 1) head

/-- The nodes of a subsection: the `count` nodes from `head` on. -/
def ListHandler.nodes (cmd : ListHandler) : List tok_node := cmd.head.take cmd.count

/-- What the child does that can be seen from outside, in order. -/
inductive Event
  /-- The call `output_to_file(fname, append)` returned. -/
  | output_to_file (fname : List Nat) (append : Bool)
  /-- The call `file_to_input(fname)` returned. -/
  | file_to_input (fname : List Nat)
  /-- The call `bin_exists(bin)`. -/
  | bin_exists (bin : List Nat)
  /-- The call `execv(path, argv)`. -/
  | execv (path : List Nat) (argv : List (List Nat))
  /-- The call `execvp(file, argv)`. -/
  | execvp (file : List Nat) (argv : List (List Nat))
  /-- The call `exit(status)`. -/
  | exit (status : Int)
  deriving DecidableEq, Repr

/-- The parameter `rw` of `get_fd` (`enum Read_Write`). -/
inductive Read_Write
  | READ
  | WRITE
  deriving DecidableEq, Repr

/-- What `parse_cmd` needs from outside: whether `open` succeeds in `get_fd`
for a file name, a direction and the append flag; what `bin_exists` returns
(`none` when its behaviour is undefined); and whether replacing the process
image succeeds. -/
structure Env where
  open_ok : List Nat → Read_Write → Bool → Bool
  bin_exists : List Nat → Option Bool
  exec_ok : List Nat → Bool

/-- The function `get_fd`: true when a descriptor is returned, false when
`open` fails and the child exits with `exit(-1)`. -/
def get_fd (env : Env) (f : List Nat) (rw : Read_Write) (append : Bool) : Bool :=
  env.open_ok f rw append

/-- The function `output_to_file`: the events, and whether the child has
exited. -/
def output_to_file (env : Env) (fname : List Nat) (append : Bool) : List Event × Bool :=
  if get_fd env fname Read_Write.WRITE append then ([Event.output_to_file fname append], false)
  else ([Event.exit (-1)], true)

/-- The function `file_to_input`: the events, and whether the child has
exited. -/
def file_to_input (env : Env) (fname : List Nat) : List Event × Bool :=
  if get_fd env fname Read_Write.READ false then ([Event.file_to_input fname], false)
  else ([Event.exit (-1)], true)

/-- The first loop of `parse_cmd`: the strings `cmd[0..i)`; `cmd[i]` is
`NULL`. -/
def build_cmd : List tok_node → List (List Nat)
  | [] => []
  | t :: next => if t.special = true then [] else t.token :: build_cmd next

/-- The second loop of `parse_cmd`, `while (curr != tail->next)`, with `stop`
the length of the part of the list at `tail->next`.  The result is the events
and whether the child has exited; `none` when `curr` is `NULL` and
dereferenced, or `curr->next` is. -/
def redirect_loop (env : Env) (stop : Nat) : List tok_node → Option (List Event × Bool)
  | [] => if stop = 0 then some ([], false) else none
  | t :: next =>
    if (t :: next).length = stop then some ([], false)
    else
      let here : Option (List Event × Bool) :=
        if t.special = true then
          if t.token = [62] then
            match next with
            | [] => none
            | u :: _ => some (output_to_file env u.token false)
          else if t.token = [62, 62] then
            match next with
            | [] => none
            | u :: _ => some (output_to_file env u.token true)
          else if t.token = [60] then
            match next with
            | [] => none
            | u :: _ => some (file_to_input env u.token)
          else some ([], false)
        else some ([], false)
      match here with
      | none => none
      | some (ev, true) => some (ev, true)
      | some (ev, false) =>
        match redirect_loop env stop next with
        | none => none
        | some (ev1, x) => some (ev ++ ev1, x)

/-- The end of `parse_cmd`, from `if (cmd[0][0] == '/')` on.  `none` when
`cmd[0]` is `NULL`, or `bin_exists` has no defined behaviour.  After a call of
`execv` or `execvp` that fails, and when no call is made, `parse_cmd` goes on
to `exit(-1)`. -/
def launch (env : Env) (cmd : List (List Nat)) : Option (List Event) :=
  match cmd with
  | [] => none
  | c0 :: args =>
    if c0.headD 0 = 47 then
      some (Event.execv c0.tail (c0.tail :: args)
        :: if env.exec_ok c0.tail then [] else [Event.exit (-1)])
    else if c0.headD 0 = 46 then
      if c0.tail.headD 0 = 47 then
        some (Event.execv c0 (c0 :: args) :: if env.exec_ok c0 then [] else [Event.exit (-1)])
      else some [Event.exit (-1)]
    else
      match env.bin_exists c0 with
      | none => none
      | some true =>
        some (Event.bin_exists c0 :: Event.execvp c0 (c0 :: args)
          :: if env.exec_ok c0 then [] else [Event.exit (-1)])
      | some false => some [Event.bin_exists c0, Event.exit 127]

/-- The function `parse_cmd`.  `none` when more strings are stored in `cmd`
than it has room for, when `cmd_list.tail` is read unassigned or is `NULL`,
and where the loops or the end have no defined behaviour. -/
def parse_cmd (env : Env) (cmd_list : ListHandler) : Option (List Event) :=
  let cmd := build_cmd cmd_list.head
  if cmd_list.count < cmd.length then none
  else
    match cmd_list.tail with
    | none => none
    | some [] => none
    | some (_ :: after) =>
      match redirect_loop env after.length cmd_list.head with
      | none => none
      | some (ev, true) => some ev
      | some (ev, false) =>
        match launch env cmd with
        | none => none
        | some ev1 => some (ev ++ ev1)

/-- The function `save_path`: a node with the string in `path` (up to its
first NUL) goes to the end of the list. -/
def save_path (path : List Nat) (phead : List (List Nat)) : List (List Nat) :=
  phead ++ [path.takeWhile (fun c => c ≠ 0)]

/-- The loop of `get_path`: the arguments are `fpath[i..length)`,
`path[0..j)` and the list at `phead`. -/
def get_path_loop : List Nat → List Nat → List (List Nat) → List (List Nat)
  | [], _, phead => phead
  | c :: rest, path, phead =>
    if c = 58 then get_path_loop rest [] (save_path path phead)
    else get_path_loop rest (path ++ [c]) phead

/-- The function `get_path`, on the value of `PATH`; `none` when `PATH` is
not set and `strlen` is called on `NULL`. -/
def get_path (fpath : Option (List Nat)) : Option (List (List Nat)) :=
  match fpath with
  | none => none
  | some s => some (get_path_loop s [] [])

/-- The value of the variable `dir` of `bin_exists`. -/
inductive DirVar
  /-- Never assigned. -/
  | unassigned
  /-- The value `NULL`: the last `opendir` failed. -/
  | null
  /-- An open directory stream. -/
  | stream
  deriving DecidableEq, Repr

/-- The inner loop of `bin_exists` over the entries `readdir` returns. -/
def scan_entries (bin : List Nat) : List (List Nat) → Bool → Bool
  | [], found => found
  | d_name :: entries, found =>
    if found = false then scan_entries bin entries (if d_name = bin then true else found)
    else found

/-- The outer loop of `bin_exists`: `opendir` gives the names of the entries
of a directory, or `none` when the directory cannot be opened. -/
def search_path (opendir : List Nat → Option (List (List Nat))) (bin : List Nat) :
    List (List Nat) → Bool → DirVar → Bool × DirVar
  | [], found, dir => (found, dir)
  | path :: list, found, dir =>
    if found = false then
      match opendir path with
      | none => search_path opendir bin list found DirVar.null
      | some entries =>
        search_path opendir bin list (scan_entries bin entries found) DirVar.stream
    else (found, dir)

/-- The function `bin_exists`.  `none` when `PATH` is not set, and when
`closedir` is called on the variable `dir` that was never assigned. -/
def bin_exists (fpath : Option (List Nat)) (opendir : List Nat → Option (List (List Nat)))
    (bin : List Nat) : Option Bool :=
  match get_path fpath with
  | none => none
  | some phead =>
    match search_path opendir bin phead false DirVar.unassigned with
    | (_, DirVar.unassigned) => none
    | (found, _) => some found

/-- The node of a pipe operator. -/
def pipeTok : tok_node := ⟨[124], true⟩

/-- The token list of a pipeline: the subsections with a pipe node between
each two. -/
def join_pipes (segs : List (List tok_node)) : List tok_node :=
  List.intercalate [pipeTok] segs

/-- The handlers of the subsections of `join_pipes segs`, one after the
other: the head is the list from the subsection on, the tail its last node,
the count its length. -/
def segment_handlers : List (List tok_node) → List ListHandler
  | [] => []
  | s :: ss =>
    ⟨join_pipes (s :: ss),
      some (s.getLastD ⟨[], false⟩ :: (join_pipes (s :: ss)).drop s.length), s.length⟩
      :: segment_handlers ss

/-- What follows a subsection in the list: nothing, or a pipe node. -/
def PipeOrEnd (after : List tok_node) : Prop := after = [] ∨ ∃ r, after = pipeTok :: r

/-- Subsections as they occur in a pipeline: not empty, without pipe. -/
def Segments (segs : List (List tok_node)) : Prop :=
  ∀ s ∈ segs, s ≠ [] ∧ ∀ t ∈ s, ¬ is_pipe t

/-- No operator token at the start and no two operator tokens side by
side. -/
def Alt (tl : List tok_node) : Prop :=
  (∀ t, tl.head? = some t → t.special = false)
    ∧ tl.Chain' (fun a b => ¬ (a.special = true ∧ b.special = true))

/-- The last token is a word. -/
def EndsWord (tl : List tok_node) : Prop := ∃ t, tl.getLast? = some t ∧ t.special = false

/-- What holds of the token list while `line` is scanned: the configuration
is reached from the start; operators and words alternate so far; the list is
empty in `Init_State` and ends in a word in `Blank_State` and
`Redirect_State`; the input left ends in the line terminator, and once none
is left the list is empty or ends in a word. -/
def Config.altInv (line : List Nat) (c : Config) : Prop :=
  (∃ m, m + c.rest.length ≤ line.length ∧ configAfter m (Config.start [] line) = some c)
    ∧ Alt c.tlist
    ∧ c.clean
    ∧ (c.State = Blank_State ∨ c.State = Redirect_State → EndsWord c.tlist)
    ∧ (c.rest ≠ [] → c.rest.getLast? = some 10)
    ∧ (c.rest = [] → c.tlist = [] ∨ EndsWord c.tlist)

/-- The node of a word. -/
def wordTok (w : List Nat) : tok_node := ⟨w, false⟩

/-- A plain word: not empty, of plain characters. -/
def plainWord (w : List Nat) : Prop := w ≠ [] ∧ ∀ x ∈ w, plainChar x

instance : DecidablePred plainWord := fun w => by unfold plainWord; infer_instance

/-- The rest of a command after its first word: a blank before each word. -/
def tailWords (ws : List (List Nat)) : List Nat := ws.flatMap (fun w => [32] ++ w)

/-- The rest of a line after its first command: blank, `|`, blank before each
command. -/
def tailCmds (cs : List (List (List Nat))) : List Nat :=
  cs.flatMap (fun c => [32, 124, 32] ++ List.intercalate [32] c)

/-- The tokens after the first command: a pipe before each command. -/
def tailToks (cs : List (List (List Nat))) : List tok_node :=
  cs.flatMap (fun c => [pipeTok] ++ c.map wordTok)

/-- A simple command: not empty, of plain words. -/
def simpleCmd (c : List (List Nat)) : Prop := c ≠ [] ∧ ∀ w ∈ c, plainWord w

instance : DecidablePred simpleCmd := fun c => by unfold simpleCmd; infer_instance

/-- The line of a pipeline of simple commands, words joined by single blanks
and commands by blank, `|`, blank. -/
def pipeline_line (cs : List (List (List Nat))) : List Nat :=
  List.intercalate [32, 124, 32] (cs.map (List.intercalate [32])) ++ [10]

/-- A redirect operator node: special, with text `>`, `>>` or `<`. -/
def is_redirect (t : tok_node) : Prop :=
  t.special = true ∧ (t.token = [62] ∨ t.token = [62, 62] ∨ t.token = [60])

instance : DecidablePred is_redirect := fun t => by unfold is_redirect; infer_instance

/-- The redirect operators of the subsection `seg`, in order, each with the
node right after it in the list (`after` is what follows the subsection). -/
def redirection_pairs (seg after : List tok_node) : List (tok_node × tok_node) :=
  (seg.zip (seg ++ after).tail).filter (fun p => decide (is_redirect p.1))

/-- The redirection a redirect operator and its target stand for. -/
def redirection_event (p : tok_node × tok_node) : Event :=
  if p.1.token = [60] then Event.file_to_input p.2.token
  else Event.output_to_file p.2.token (decide (p.1.token = [62, 62]))

/-- Whether the target of a redirection can be opened the way the operator
asks for. -/
def redirection_opens (env : Env) (p : tok_node × tok_node) : Bool :=
  if p.1.token = [60] then env.open_ok p.2.token Read_Write.READ false
  else env.open_ok p.2.token Read_Write.WRITE (decide (p.1.token = [62, 62]))

/-- The leading words of a subsection: the texts of its nodes before the
first operator. -/
def leading_words (seg : List tok_node) : List (List Nat) :=
  (seg.takeWhile (fun t => !t.special)).map tok_node.token

/-- An environment in which every file opens, every name is found and no
program can be run. -/
def env_no_exec : Env := ⟨fun _ _ _ => true, fun _ => some true, fun _ => false⟩

/-- An environment in which every file opens, every name is found and every
program can be run. -/
def env_all_ok : Env := ⟨fun _ _ _ => true, fun _ => some true, fun _ => true⟩

/-- The maximal runs of non-blank characters of `l`, from left to right: the
pieces between the blanks, the empty ones left out. -/
def nonblank_runs (l : List Nat) : List (List Nat) :=
  (l.splitOn 32).filter (fun w => decide (w ≠ []))

/-! ## The internal commands (src/modules/internal.c)

The environment variables and the working directory of the process are a
state of some type `σ`, which only the calls `setenv`, `unsetenv` and `chdir`
change.  What is printed is not followed.
-/

/-- The library calls of `internal.c` on the state of the process: `setenv`
(with `overwrite` 1) and `unsetenv` give the new state and whether they
returned 0; `chdir` gives the new state (its result is not looked at);
`getenv` gives the value, or `none` for `NULL`. -/
structure Libc (σ : Type) where
  setenv : σ → List Nat → List Nat → σ × Bool
  unsetenv : σ → List Nat → σ × Bool
  chdir : σ → List Nat → σ
  getenv : σ → List Nat → Option (List Nat)

/-- How a call of `run_internal_cmd` ends: it returns a value, or the process
ends in `exit`. -/
inductive Outcome
  /-- The value of `return`. -/
  | returned (value : Int)
  /-- The status of `exit`. -/
  | exited (status : Int)
  deriving DecidableEq, Repr

/-- The `ListHandler` that `tokenize` has filled with the nodes `tl`, as it
is passed to `run_internal_cmd`: `head` is the list, `tail` points to the
last node (`NULL` when there is none), `count` is the number of nodes. -/
def tlist_handler (tl : List tok_node) : ListHandler :=
  ⟨tl, some (tl.drop (tl.length - 1)), tl.length⟩

/-- The function `env_var_set`: the value returned (true for an error) and
the state.  `none` when `head`, `head->next` or `tail` is `NULL` and
dereferenced: the two strings are read before `count` is looked at. -/
def env_var_set {σ : Type} (libc : Libc σ) (s : σ) (tlist : ListHandler) : Option (Bool × σ) :=
  match tlist.head with
  | [] => none
  | _ :: next =>
    match next with
    | [] => none
    | name :: _ =>
      match tlist.tail with
      | none => none
      | some [] => none
      | some (val :: _) =>
        if tlist.count = 3 then
          let r := libc.setenv s name.token val.token
          if r.2 = false then some (true, r.1) else some (false, r.1)
        else some (true, s)

/-- The function `env_var_delete`. -/
def env_var_delete {σ : Type} (libc : Libc σ) (s : σ) (tlist : ListHandler) :
    Option (Bool × σ) :=
  if tlist.count = 2 then
    match tlist.tail with
    | none => none
    | some [] => none
    | some (name :: _) =>
      let r := libc.unsetenv s name.token
      if r.2 = false then some (true, r.1) else some (false, r.1)
  else some (true, s)

/-- The function `change_directory`.  With a first character `~` the value
of `HOME` is copied into `tmpstr`, which has room for it and its NUL, and the
rest of the argument is appended there: `none` when `HOME` is not set, and
when that rest is not empty and is written past the end of `tmpstr`. -/
def change_directory {σ : Type} (libc : Libc σ) (s : σ) (tlist : ListHandler) :
    Option (Bool × σ) :=
  if tlist.count = 2 then
    match tlist.head with
    | [] => none
    | _ :: next =>
      match next with
      | [] => none
      | arg :: _ =>
        match tlist.tail with
        | none => none
        | some [] => none
        | some (last :: _) =>
          if arg.token.headD 0 = 126 then
            match libc.getenv s (bytes "HOME") with
            | none => none
            | some home =>
              match last.token with
              | [] => none
              | _ :: rest =>
                if rest = [] then some (false, libc.chdir s home) else none
          else some (false, libc.chdir s last.token)
  else some (true, s)

/-- The function `run_internal_cmd`: how it ends, and the state of the
process.  `none` when `head` is `NULL`, and where the function called has no
defined behaviour. -/
def run_internal_cmd {σ : Type} (libc : Libc σ) (s : σ) (tlist : ListHandler) :
    Option (Outcome × σ) :=
  match tlist.head with
  | [] => none
  | first :: _ =>
    let found (r : Option (Bool × σ)) : Option (Outcome × σ) :=
      r.map (fun e => (if e.1 = true then Outcome.returned (-1) else Outcome.returned 0, e.2))
    if first.token = bytes "setenv" then found (env_var_set libc s tlist)
    else if first.token = bytes "unsetenv" then found (env_var_delete libc s tlist)
    else if first.token = bytes "cd" then found (change_directory libc s tlist)
    else if first.token = bytes "pwd" then some (Outcome.returned 0, s)
    else if first.token = bytes "exit" then some (Outcome.exited 0, s)
    else some (Outcome.returned 1, s)

/-- A process state for examples: the list of variables with their values,
and the working directory. -/
structure Proc where
  environ : List (List Nat × List Nat)
  cwd : List Nat
  deriving DecidableEq, Repr

/-- Library calls for examples, on `Proc`: `setenv` and `unsetenv` refuse the
empty name and a name with `=` in it; `chdir` goes wherever it is told. -/
def libc_simple : Libc Proc where
  setenv := fun s name val =>
    if name = [] ∨ 61 ∈ name then (s, false)
    else (⟨(name, val) :: s.environ.filter (fun e => decide (e.1 ≠ name)), s.cwd⟩, true)
  unsetenv := fun s name =>
    if name = [] ∨ 61 ∈ name then (s, false)
    else (⟨s.environ.filter (fun e => decide (e.1 ≠ name)), s.cwd⟩, true)
  chdir := fun s path => ⟨s.environ, path⟩
  getenv := fun s name => (s.environ.find? (fun e => decide (e.1 = name))).map (fun e => e.2)

/-! ## The token list with its links (tokenizer.c, save_string and free_tok_list)

The scanner touches the list only through `save_string` and `free_tok_list`.
It is written once more below over any type `L` for the list with these two
operations as parameters, and then run on the `ListHandler` with its pointers:
memory is a list of cells, an address is an index into it, `malloc` gives the
index after the last one, and `free` marks the cell.  `count` is taken without
overflow: there are fewer nodes than characters in the line.
-/

/-- One pass through the `switch` over a list of type `L`, as `Step`. -/
inductive StepOn (L : Type)
  | cont (State : Token_Sys_State) (tok : List Nat) (tlist : L) (skip : Bool)
  | stop (tlist : L) (err : Option Diag)

/-- The `case Init_State` of the switch, over `L`. -/
def case_Init_on {L : Type} (_save : List Nat → L → Bool → L) (_free : L → L)
    (ch : Nat) (tok : List Nat) (tlist : L) : StepOn L :=
  if ch = 10 then .stop tlist none
  else if ch = 34 then .cont Double_Quote_State tok tlist false
  else if ch = 39 then .cont Single_Quote_State tok tlist false
  else if ch = 60 ∨ ch = 62 ∨ ch = 124 then .stop tlist (some .need_input)
  else if ch = 32 then .cont Init_State tok tlist false
  else if 32 ≤ ch ∧ ch ≤ 127 then .cont Letter_State (tok ++ [ch]) tlist false
  else .stop tlist (some (.unrecognized ch))

/-- The `case Letter_State` of the switch, over `L`. -/
def case_Letter_on {L : Type} (save : List Nat → L → Bool → L) (free : L → L)
    (ch : Nat) (tok : List Nat) (tlist : L) : StepOn L :=
  if ch = 10 then .cont Letter_State tok (save tok tlist false) false
  else if ch = 34 then .cont Double_Quote_State tok tlist false
  else if ch = 39 then .cont Single_Quote_State tok tlist false
  else if ch = 60 ∨ ch = 62 ∨ ch = 124 then
    .cont Redirect_State [ch] (save tok tlist false) false
  else if ch = 32 then .cont Blank_State [] (save tok tlist false) false
  else if 32 ≤ ch ∧ ch ≤ 127 then .cont Letter_State (tok ++ [ch]) tlist false
  else .stop (free tlist) (some (.unrecognized ch))

/-- The `case Blank_State` of the switch, over `L`. -/
def case_Blank_on {L : Type} (_save : List Nat → L → Bool → L) (free : L → L)
    (ch : Nat) (tok : List Nat) (tlist : L) : StepOn L :=
  if ch = 10 then .cont Blank_State tok tlist false
  else if ch = 34 then .cont Double_Quote_State tok tlist false
  else if ch = 39 then .cont Single_Quote_State tok tlist false
  else if ch = 60 ∨ ch = 62 ∨ ch = 124 then .cont Redirect_State (tok ++ [ch]) tlist false
  else if ch = 32 then .cont Blank_State tok tlist false
  else if 32 ≤ ch ∧ ch ≤ 127 then .cont Letter_State (tok ++ [ch]) tlist false
  else .stop (free tlist) (some (.unrecognized ch))

/-- The `case Redirect_State` of the switch, over `L`; `prev` is `input[i-1]`
and `nxt` is `input[i+1]`. -/
def case_Redirect_on {L : Type} (save : List Nat → L → Bool → L) (free : L → L)
    (prev ch nxt : Nat) (tok : List Nat) (tlist : L) : StepOn L :=
  if ch = 34 then .cont Double_Quote_State [] (save tok tlist true) false
  else if ch = 39 then .cont Single_Quote_State [] (save tok tlist true) false
  else if ch = 10 then .stop (free tlist) (some .redirect_at_end)
  else if ch = 60 ∨ ch = 124 then .stop (free tlist) (some (.not_valid_after ch))
  else if ch = 62 then
    if prev = 62 then
      if nxt = 62 then .stop (free tlist) (some .too_many_redirects)
      else .cont Redirect_State (tok ++ [ch]) tlist false
    else .stop (free tlist) (some .spaces_between)
  else if ch = 32 then .cont Redirect_State tok tlist false
  else if 32 ≤ ch ∧ ch ≤ 127 then .cont Letter_State [ch] (save tok tlist true) false
  else .stop (free tlist) (some (.unrecognized ch))

/-- The `case Single_Quote_State` of the switch, over `L`; `nxt` is
`input[i+1]`, the character the body reads after its own `i++`. -/
def case_Single_Quote_on {L : Type} (save : List Nat → L → Bool → L) (free : L → L)
    (ch nxt : Nat) (tok : List Nat) (tlist : L) : StepOn L :=
  if ch = 39 then
    if nxt = 34 then .cont Double_Quote_State tok tlist true
    else if nxt = 39 then .cont Single_Quote_State tok tlist true
    else if nxt = 60 ∨ nxt = 62 ∨ nxt = 124 then
      .cont Redirect_State [nxt] (save tok tlist false) true
    else if nxt = 32 then .cont Blank_State [] (save tok tlist false) true
    else if 32 ≤ nxt ∧ nxt ≤ 127 then .cont Letter_State (tok ++ [nxt]) tlist true
    else if nxt = 10 then .cont Single_Quote_State tok (save tok tlist false) true
    else .stop (free tlist) (some (.unrecognized nxt))
  else if ch = 10 then .stop (free tlist) (some .single_quote_never_closed)
  else if ch = 92 then
    if nxt = 110 then .cont Single_Quote_State (tok ++ [10]) tlist true
    else if nxt = 98 then .cont Single_Quote_State (tok ++ [8]) tlist true
    else if nxt = 114 then .cont Single_Quote_State (tok ++ [13]) tlist true
    else if nxt = 116 then .cont Single_Quote_State (tok ++ [9]) tlist true
    else if nxt = 118 then .cont Single_Quote_State (tok ++ [11]) tlist true
    else if nxt = 48 then .cont Single_Quote_State (tok ++ [0]) tlist true
    else .cont Single_Quote_State (tok ++ [ch, nxt]) tlist true
  else .cont Single_Quote_State (tok ++ [ch]) tlist false

/-- The `case Double_Quote_State` of the switch, over `L`; `nxt` is
`input[i+1]`. -/
def case_Double_Quote_on {L : Type} (save : List Nat → L → Bool → L) (free : L → L)
    (ch nxt : Nat) (tok : List Nat) (tlist : L) : StepOn L :=
  if ch = 34 then
    if nxt = 39 then .cont Single_Quote_State tok tlist true
    else if nxt = 34 then .cont Double_Quote_State tok tlist true
    else if nxt = 60 ∨ nxt = 62 ∨ nxt = 124 then
      .cont Redirect_State [nxt] (save tok tlist false) true
    else if nxt = 32 then .cont Blank_State [] (save tok tlist false) true
    else if 32 ≤ nxt ∧ nxt ≤ 127 then .cont Letter_State (tok ++ [nxt]) tlist true
    else if nxt = 10 then .cont Double_Quote_State tok (save tok tlist false) true
    else .stop (free tlist) (some (.unrecognized nxt))
  else if ch = 10 then .stop (free tlist) (some .double_quote_never_closed)
  else if ch = 92 then
    if nxt = 110 then .cont Double_Quote_State (tok ++ [10]) tlist true
    else if nxt = 98 then .cont Double_Quote_State (tok ++ [8]) tlist true
    else if nxt = 114 then .cont Double_Quote_State (tok ++ [13]) tlist true
    else if nxt = 116 then .cont Double_Quote_State (tok ++ [9]) tlist true
    else if nxt = 118 then .cont Double_Quote_State (tok ++ [11]) tlist true
    else if nxt = 48 then .cont Double_Quote_State (tok ++ [0]) tlist true
    else .cont Double_Quote_State (tok ++ [ch, nxt]) tlist true
  else .cont Double_Quote_State (tok ++ [ch]) tlist false

/-- The body of the `for` loop, over `L`. -/
def body_on {L : Type} (save : List Nat → L → Bool → L) (free : L → L)
    (State : Token_Sys_State) (prev ch nxt : Nat) (tok : List Nat) (tlist : L) : StepOn L :=
  match State with
  | Init_State => case_Init_on save free ch tok tlist
  | Letter_State => case_Letter_on save free ch tok tlist
  | Blank_State => case_Blank_on save free ch tok tlist
  | Redirect_State => case_Redirect_on save free prev ch nxt tok tlist
  | Single_Quote_State => case_Single_Quote_on save free ch nxt tok tlist
  | Double_Quote_State => case_Double_Quote_on save free ch nxt tok tlist

/-- The loop `for (i = 0, j = 0; i < length; i++)`, over `L`: the list and
the message printed, if any. -/
def loop_on {L : Type} (save : List Nat → L → Bool → L) (free : L → L)
    (State : Token_Sys_State) (prev : Nat) : List Nat → List Nat → L → L × Option Diag
  | [], _, tlist => (tlist, none)
  | ch :: rest, tok, tlist =>
    match body_on save free State prev ch (rest.headD 0) tok tlist with
    | .stop tl e => (tl, e)
    | .cont st tok1 tl false => loop_on save free st ch rest tok1 tl
    | .cont st tok1 tl true =>
      match rest with
      | [] => (tl, none)
      | nx :: rest1 => loop_on save free st nx rest1 tok1 tl

/-- The function `tokenize`, over `L`; `none` stands for the call on the
empty string. -/
def tokenize_on {L : Type} (save : List Nat → L → Bool → L) (free : L → L)
    (tlist : L) (input : List Nat) : Option (L × Option Diag) :=
  match input.getLast? with
  | none => none
  | some c =>
    if c ≠ 10 then some (tlist, some .no_newline)
    else some (loop_on save free Init_State 0 input [] tlist)

/-- A `tok_node` in memory: the string and `special`, the link `next` (the
address of the next node, `none` for `NULL`), and whether the node has been
freed. -/
structure Cell where
  node : tok_node
  next : Option Nat
  freed : Bool
  deriving DecidableEq, Repr

/-- The `ListHandler` of the tokenizer together with the memory its pointers
point into. -/
structure Tlist where
  mem : List Cell
  head : Option Nat
  tail : Option Nat
  count : Nat
  deriving DecidableEq, Repr

/-- The function `save_string` on the handler: a new node is allocated and
filled; when `head` is `NULL` it becomes head and tail and `count` is 1,
otherwise it is linked behind the tail, becomes the tail, and `count` goes up
by one.  `none` when `tail` is `NULL` or does not point to a live node and
is dereferenced. -/
def save_string_linked (tok : List Nat) (h : Tlist) (spec : Bool) : Option Tlist :=
  let t_node : Cell := ⟨⟨tok.takeWhile (fun c => c ≠ 0), spec⟩, none, false⟩
  let a := h.mem.length
  match h.head with
  | none => some ⟨h.mem ++ [t_node], some a, some a, 1⟩
  | some _ =>
    match h.tail with
    | none => none
    | some t =>
      match h.mem[t]? with
      | none => none
      | some c =>
        if c.freed = true then none
        else some ⟨h.mem.set t ⟨c.node, some a, c.freed⟩ ++ [t_node], h.head, some a, h.count + 1⟩

/-- The loop of `free_tok_list`, with `temp` and `tlist->head` at the same
node: the node is read for its link and freed.  `none` when the node is not a
live one.  The first argument bounds the number of passes; every pass frees a
node that was live, so with one more than the number of cells it is never
used up. -/
def free_loop : Nat → List Cell → Option Nat → Option (List Cell)
  | _, mem, none => some mem
  | 0, _, some _ => none
  | n + 1, mem, some a =>
    match mem[a]? with
    | none => none
    | some c =>
      if c.freed = true then none
      else free_loop n (mem.set a ⟨c.node, c.next, true⟩) c.next

/-- The function `free_tok_list` on the handler: the nodes from `head` on are
freed, then `head` and `tail` are `NULL` and `count` is 0. -/
def free_tok_list_linked (h : Tlist) : Option Tlist :=
  (free_loop (h.mem.length + 1) h.mem h.head).map (fun mem => ⟨mem, none, none, 0⟩)

/-- The function `tokenize` on the handler `h`: the handler it leaves and the
message printed.  `none` for the empty string and when a list operation has
no defined behaviour. -/
def tokenize_linked (h : Tlist) (input : List Nat) : Option (Tlist × Option Diag) :=
  match tokenize_on (fun tok l spec => l.bind (fun x => save_string_linked tok x spec))
      (fun l => l.bind free_tok_list_linked) (some h) input with
  | none => none
  | some (none, _) => none
  | some (some h1, e) => some (h1, e)

/-- The addresses `ps` are the nodes reached from the pointer `p` by
following the `next` links up to `NULL`, each a live node. -/
def linked (mem : List Cell) : Option Nat → List Nat → Prop
  | p, [] => p = none
  | p, a :: as =>
    p = some a ∧
      match mem[a]? with
      | none => False
      | some c => c.freed = false ∧ linked mem c.next as

/-- The string and the flag of the node at an address. -/
def node_at (mem : List Cell) (a : Nat) : tok_node :=
  match mem[a]? with
  | none => ⟨[], false⟩
  | some c => c.node

/-- Two runs of one pass through the `switch` that agree but for the lists,
which are related by `R`. -/
def StepOn.Rel {L1 L2 : Type} (R : L1 → L2 → Prop) : StepOn L1 → StepOn L2 → Prop
  | .cont st tok l sk, .cont st2 tok2 l2 sk2 => st = st2 ∧ tok = tok2 ∧ sk = sk2 ∧ R l l2
  | .stop l e, .stop l2 e2 => e = e2 ∧ R l l2
  | _, _ => False

/-- A pass through the `switch` on lists of nodes, written as a pass over
`L`. -/
def Step.toOn : Step → StepOn (List tok_node)
  | .cont st tok tl sk => .cont st tok tl sk
  | .stop tl e => .stop tl e

/-- The handler `oh` holds the nodes `l`: it is defined, its nodes from
`head` on are live and are `l`, `count` is their number and `tail` the last
of them. -/
def Holds (l : List tok_node) (oh : Option Tlist) : Prop :=
  ∃ h ps, oh = some h ∧ linked h.mem h.head ps ∧ h.count = ps.length
    ∧ h.tail = ps.getLast? ∧ ps.map (node_at h.mem) = l

/-! ## Descriptors (src/modules/executor.c, execute)

A descriptor table is the list of what the descriptors 0, 1, 2, ... of a
process refer to, `none` for a descriptor that is not open; the descriptors
past the end of the list are not open.  `open` and `pipe` take the lowest
descriptor that is not open.  The descriptors of the directory streams of
`bin_exists` are not followed.  In the parent every `wait3` loop is taken to
come to its end: the children terminate.
-/

/-- What an open descriptor refers to: something the shell had open when
`execute` was called, an end of the pipe `pipefd[i]`, or a file that `get_fd`
has opened. -/
inductive File
  | inherited (id : Nat)
  | pipe_read (i : Nat)
  | pipe_write (i : Nat)
  | opened (f : List Nat) (rw : Read_Write) (append : Bool)
  deriving DecidableEq, Repr

/-- The descriptor table of a process. -/
@[reducible] def FdTable : Type := List (Option File)

/-- What the descriptor `fd` refers to, `none` when it is not open. -/
def fd_get (t : FdTable) (fd : Nat) : Option File := (t[fd]?).getD none

/-- The table with the descriptor `fd` set to `v`. -/
def fd_put (t : FdTable) (fd : Nat) (v : Option File) : FdTable :=
  (t ++ List.replicate (fd + 1 - t.length) none).set fd v

/-- The lowest descriptor that is not open. -/
def lowest_free (t : FdTable) : Nat := t.findIdx (fun x => x.isNone)

/-- The call `close(fd)`; on a descriptor that is not open nothing changes. -/
def sys_close (t : FdTable) (fd : Nat) : FdTable := t.set fd none

/-- The call `dup2(oldfd, newfd)`; when `oldfd` is not open it fails and
nothing changes, when the two are equal nothing changes. -/
def sys_dup2 (t : FdTable) (oldfd newfd : Nat) : FdTable :=
  match fd_get t oldfd with
  | none => t
  | some f => if oldfd = newfd then t else fd_put t newfd (some f)

/-- A call of `open` that succeeds on the file `f`: the table and the
descriptor returned. -/
def sys_open (t : FdTable) (f : File) : FdTable × Nat :=
  (fd_put t (lowest_free t) (some f), lowest_free t)

/-- The function `output_to_file` on the descriptors, when `get_fd` returns:
`open`, `dup2(fd, STDOUT_FILENO)`, `close(fd)`. -/
def output_to_file_fds (t : FdTable) (fname : List Nat) (append : Bool) : FdTable :=
  let r := sys_open t (File.opened fname Read_Write.WRITE append)
  sys_close (sys_dup2 r.1 r.2 1) r.2

/-- The function `file_to_input` on the descriptors, when `get_fd` returns:
`open`, `dup2(fd, STDIN_FILENO)`, `close(fd)`. -/
def file_to_input_fds (t : FdTable) (fname : List Nat) : FdTable :=
  let r := sys_open t (File.opened fname Read_Write.READ false)
  sys_close (sys_dup2 r.1 r.2 0) r.2

/-- What an event of `parse_cmd` does to the descriptors. -/
def Event.apply (t : FdTable) : Event → FdTable
  | .output_to_file fname append => output_to_file_fds t fname append
  | .file_to_input fname => file_to_input_fds t fname
  | _ => t

/-- The descriptors after the events `evs`, from the table `t`. -/
def apply_events (t : FdTable) (evs : List Event) : FdTable := evs.foldl Event.apply t

/-- What `execute` needs from the system: whether the call of `pipe` for
`pipefd[i]` succeeds, and whether the call of `fork` at iteration `i`
does. -/
structure Sys where
  pipe_ok : Nat → Bool
  fork_ok : Nat → Bool

/-- The loop that creates the pipes (lines 70 to 74), with `n` iterations
left from `i` on: the table of the parent and `pipefd[i..pipe_ct)`, each
entry the read and the write descriptor, or `none` when `pipe` failed and
the entry was left unassigned. -/
def create_pipes (sys : Sys) : Nat → Nat → FdTable → FdTable × List (Option (Nat × Nat))
  | 0, _, t => (t, [])
  | n + 1, i, t =>
    if sys.pipe_ok i = true then
      let r := sys_open t (File.pipe_read i)
      let w := sys_open r.1 (File.pipe_write i)
      let rest := create_pipes sys n (i + 1) w.1
      (rest.1, some (r.2, w.2) :: rest.2)
    else
      let rest := create_pipes sys n (i + 1) t
      (rest.1, none :: rest.2)

/-- The lines 89 to 96 of the child `i`: when it is not the first, the read
end of the pipe before is put on the descriptor 0 and both ends of that pipe
are closed.  `none` when the entry of `pipefd` was left unassigned. -/
def wire_stdin (pipefd : List (Option (Nat × Nat))) (i : Nat) (t : FdTable) :
    Option FdTable :=
  if 0 < i then
    match pipefd[i - 1]? with
    | some (some (r, w)) => some (sys_close (sys_close (sys_dup2 t r 0) r) w)
    | _ => none
  else some t

/-- The lines 97 to 104 of the child `i`: when it is not the last, the read
end of its pipe is closed, the write end is put on the descriptor 1 and then
closed.  `none` when the entry of `pipefd` was left unassigned. -/
def wire_stdout (pipefd : List (Option (Nat × Nat))) (cmd_ct i : Nat) (t : FdTable) :
    Option FdTable :=
  if i + 1 < cmd_ct then
    match pipefd[i]? with
    | some (some (r, w)) => some (sys_close (sys_dup2 (sys_close t r) w 1) w)
    | _ => none
  else some t

/-- The child `i` of `execute` before `parse_cmd` (lines 89 to 104), from the
table `t` it has from the parent. -/
def child_wiring (pipefd : List (Option (Nat × Nat))) (cmd_ct i : Nat) (t : FdTable) :
    Option FdTable :=
  (wire_stdin pipefd i t).bind (wire_stdout pipefd cmd_ct i)

/-- The lines 109 to 112 of the parent at iteration `i`: after the first
iteration both ends of the pipe before are closed.  `none` when the entry of
`pipefd` was left unassigned. -/
def close_prev (pipefd : List (Option (Nat × Nat))) (i : Nat) (t : FdTable) :
    Option FdTable :=
  if 0 < i then
    match pipefd[i - 1]? with
    | some (some (r, w)) => some (sys_close (sys_close t r) w)
    | _ => none
  else some t

/-- A child of `execute`: the descriptors when `parse_cmd` is called, and
what `parse_cmd` does: its events and the descriptors after its
redirections, which are those at the call of `execv` or `execvp` when it
comes to one; `none` where `parse_cmd` has no defined behaviour. -/
structure Child where
  wired : FdTable
  run : Option (List Event × FdTable)
  deriving DecidableEq, Repr

/-- The child `i` of `execute`, with the table `t` of the parent at the
`fork`; `none` when the lines before `parse_cmd` have no defined
behaviour. -/
def run_child (env : Env) (pipefd : List (Option (Nat × Nat))) (cmd_ct i : Nat)
    (t : FdTable) (cmd : ListHandler) : Option Child :=
  (child_wiring pipefd cmd_ct i t).map
    (fun w => ⟨w, (parse_cmd env cmd).map (fun evs => (evs, apply_events w evs))⟩)

/-- What a call of `execute` leaves: its children, in the order of the
`fork`s, and the table of the parent when `execute` returns, `none` when the
parent ended in `exit(-1)` after a `fork` that failed. -/
structure Execution where
  children : List (Option Child)
  parent : Option FdTable
  deriving DecidableEq, Repr

/-- The loop of the `fork`s (lines 81 to 116), from iteration `i` on, with
the handlers `cmds[i..cmd_ct)` and the table `t` of the parent.  `none` when
the parent reads an entry of `pipefd` that was left unassigned. -/
def fork_loop (sys : Sys) (env : Env) (pipefd : List (Option (Nat × Nat))) (cmd_ct : Nat) :
    List ListHandler → Nat → FdTable → Option Execution
  | [], _, t => some ⟨[], some t⟩
  | cmd :: cmds, i, t =>
    if sys.fork_ok i = true then
      match close_prev pipefd i t with
      | none => none
      | some t1 =>
        match fork_loop sys env pipefd cmd_ct cmds (i + 1) t1 with
        | none => none
        | some ex => some ⟨run_child env pipefd cmd_ct i t cmd :: ex.children, ex.parent⟩
    else some ⟨[], none⟩

/-- The function `execute`, called with the descriptor table `t0`.  `none`
where the parent has no defined behaviour. -/
def execute (sys : Sys) (env : Env) (t0 : FdTable) (head : List tok_node) :
    Option Execution :=
  match execute_cmds head with
  | none => none
  | some cmds =>
    let pipe_ct := count_pipes head
    let p := create_pipes sys pipe_ct 0 t0
    fork_loop sys env p.2 (pipe_ct + 1) cmds 0 p.1

/-- A system in which `pipe` and `fork` always succeed. -/
def sys_ok : Sys := ⟨fun _ => true, fun _ => true⟩

/-- The table of a process with the three standard descriptors open and no
other. -/
def std_table : FdTable :=
  [some (File.inherited 0), some (File.inherited 1), some (File.inherited 2)]

/-- The descriptors of a list of pipes, read end and write end of each. -/
def pipe_fds (pairs : List (Nat × Nat)) : List Nat := pairs.flatMap (fun p => [p.1, p.2])

/-- The table after `close` on each of the descriptors `fds`. -/
def close_all (t : FdTable) (fds : List Nat) : FdTable := fds.foldl sys_close t

/-- The target of the last output redirection among `pairs`, as the file
`get_fd` opens for it. -/
def last_output (pairs : List (tok_node × tok_node)) : Option File :=
  ((pairs.filter (fun p => decide (p.1.token ≠ [60]))).getLast?).map
    (fun p => File.opened p.2.token Read_Write.WRITE (decide (p.1.token = [62, 62])))

/-- The target of the last input redirection among `pairs`, as the file
`get_fd` opens for it. -/
def last_input (pairs : List (tok_node × tok_node)) : Option File :=
  ((pairs.filter (fun p => decide (p.1.token = [60]))).getLast?).map
    (fun p => File.opened p.2.token Read_Write.READ false)

/-- The pipes `pairs` in the table `T` that comes from `t0`: the descriptors
of the pipe `j` refer to its two ends and were not open in `t0`, and every
other descriptor is as in `t0`. -/
def PipesIn (t0 T : FdTable) (pairs : List (Nat × Nat)) (lo : Nat) : Prop :=
  (∀ j r w, pairs[j]? = some (r, w) →
      fd_get T r = some (File.pipe_read (lo + j)) ∧ fd_get T w = some (File.pipe_write (lo + j))
        ∧ fd_get t0 r = none ∧ fd_get t0 w = none)
    ∧ (∀ fd, fd ∉ pipe_fds pairs → fd_get T fd = fd_get t0 fd)

/-- The table of the parent at the `fork` of iteration `i`: the pipes before
`pipefd[i-1]` are closed. -/
def parent_at (T : FdTable) (pairs : List (Nat × Nat)) (i : Nat) : FdTable :=
  close_all T (pipe_fds (pairs.take (i - 1)))

/-- The children of the iterations from `i` on, each with the table of the
parent at its `fork`. -/
def children_of (env : Env) (T : FdTable) (pairs : List (Nat × Nat)) :
    Nat → List ListHandler → List (Option Child)
  | _, [] => []
  | i, cmd :: cmds =>
    run_child env (pairs.map some) (pairs.length + 1) i (parent_at T pairs i) cmd
      :: children_of env T pairs (i + 1) cmds

instance (segs : List (List tok_node)) : Decidable (Segments segs) := by
  unfold Segments; infer_instance

/-! ## Theorems -/

set_option linter.unusedTactic false
set_option linter.unreachableTactic false
set_option linter.unnecessarySeqFocus false

theorem takeWhile_ne_zero (l : List Nat) (h : ∀ c ∈ l, c ≠ 0) :
    l.takeWhile (fun c => c ≠ 0) = l := by
  induction l with
  | nil => rfl
  | cons x xs ih =>
    have hx : x ≠ 0 := h x (List.mem_cons_self _ _)
    have hxs : ∀ c ∈ xs, c ≠ 0 := fun c hc => h c (List.mem_cons_of_mem _ hc)
    rw [List.takeWhile_cons, ih hxs]
    simp [hx]

theorem plainChar_ne_zero {c : Nat} (h : plainChar c) : c ≠ 0 := by
  unfold plainChar at h; omega

theorem save_string_clean (tok : List Nat) (tl : List tok_node) (s : Bool)
    (h : ∀ c ∈ tok, c ≠ 0) : save_string tok tl s = tl ++ [⟨tok, s⟩] := by
  rw [save_string, takeWhile_ne_zero tok h]

/-- Outside `Redirect_State` the previous character is never read. -/
theorem loop_prev (st : Token_Sys_State) (h : st ≠ Redirect_State) (p q : Nat)
    (r tok : List Nat) (tl : List tok_node) :
    loop st p r tok tl = loop st q r tok tl := by
  cases r with
  | nil => simp [loop]
  | cons ch rest =>
    cases st <;> simp_all [loop, body]

theorem body_Letter_plain (p c n : Nat) (tok : List Nat) (tl : List tok_node)
    (h : plainChar c) :
    body Letter_State p c n tok tl = .cont Letter_State (tok ++ [c]) tl false := by
  unfold plainChar at h
  have h10 : c ≠ 10 := by omega
  simp [body, case_Letter, h, h10]

/-- In `Letter_State` a run of plain characters is appended to the buffer. -/
theorem loop_Letter_word (w : List Nat) (hw : ∀ c ∈ w, plainChar c) (p q : Nat)
    (r tok : List Nat) (tl : List tok_node) :
    loop Letter_State p (w ++ r) tok tl = loop Letter_State q r (tok ++ w) tl := by
  induction w generalizing p tok with
  | nil => simpa using loop_prev Letter_State (by decide) p q r tok tl
  | cons c w ih =>
    have hc := hw c (List.mem_cons_self _ _)
    have hw1 : ∀ c ∈ w, plainChar c := fun d hd => hw d (List.mem_cons_of_mem _ hd)
    rw [List.cons_append, loop, body_Letter_plain _ _ _ _ _ hc]
    simp only []
    rw [ih hw1]
    simp

theorem body_Blank_blank (p n : Nat) (tok : List Nat) (tl : List tok_node) :
    body Blank_State p 32 n tok tl = .cont Blank_State tok tl false := by
  simp [body, case_Blank]

/-- In `Blank_State` a run of blanks changes nothing. -/
theorem loop_Blank_blanks (b : List Nat) (hb : ∀ c ∈ b, c = 32) (p q : Nat)
    (r tok : List Nat) (tl : List tok_node) :
    loop Blank_State p (b ++ r) tok tl = loop Blank_State q r tok tl := by
  induction b generalizing p with
  | nil => simpa using loop_prev Blank_State (by decide) p q r tok tl
  | cons c b ih =>
    obtain rfl := hb c (List.mem_cons_self _ _)
    have hb1 : ∀ c ∈ b, c = 32 := fun d hd => hb d (List.mem_cons_of_mem _ hd)
    rw [List.cons_append, loop, body_Blank_blank]
    simp only []
    exact ih hb1 _

/-- From `Letter_State`, blanks and then an operator character: the word is
flushed and the operator buffer holds that character. -/
theorem loop_Letter_blanks_op (b : List Nat) (hb : ∀ c ∈ b, c = 32) (op : Nat)
    (hop : isOp op) (p : Nat) (r tok : List Nat) (tl : List tok_node) :
    loop Letter_State p (b ++ op :: r) tok tl
      = loop Redirect_State op r [op] (save_string tok tl false) := by
  have hop1 : op = 60 ∨ op = 62 ∨ op = 124 := hop
  have h10 : op ≠ 10 := by omega
  have h34 : op ≠ 34 := by omega
  have h39 : op ≠ 39 := by omega
  cases b with
  | nil =>
    rw [List.nil_append, loop]
    simp [body, case_Letter, h10, h34, h39, hop1]
  | cons c b =>
    obtain rfl := hb c (List.mem_cons_self _ _)
    have hb1 : ∀ c ∈ b, c = 32 := fun d hd => hb d (List.mem_cons_of_mem _ hd)
    rw [List.cons_append, loop]
    have e : body Letter_State p 32 ((b ++ op :: r).headD 0) tok tl
        = .cont Blank_State [] (save_string tok tl false) false := by
      simp [body, case_Letter]
    rw [e]
    simp only []
    rw [loop_Blank_blanks b hb1 32 32, loop]
    simp [body, case_Blank, h10, h34, h39, hop1]

/-- In `Redirect_State` a run of blanks changes nothing but the previous
character. -/
theorem loop_Redirect_blanks (b : List Nat) (hb : ∀ c ∈ b, c = 32) (p : Nat)
    (r tok : List Nat) (tl : List tok_node) :
    loop Redirect_State p (b ++ r) tok tl
      = loop Redirect_State (b.getLastD p) r tok tl := by
  induction b generalizing p with
  | nil => rfl
  | cons c b ih =>
    obtain rfl := hb c (List.mem_cons_self _ _)
    have hb1 : ∀ c ∈ b, c = 32 := fun d hd => hb d (List.mem_cons_of_mem _ hd)
    rw [List.cons_append, loop]
    have e : body Redirect_State p 32 ((b ++ r).headD 0) tok tl
        = .cont Redirect_State tok tl false := by
      simp [body, case_Redirect]
    rw [e]
    simp only []
    rw [ih hb1]
    cases b <;> rfl

/-- From `Redirect_State`, a plain character flushes the operator token and
starts a word. -/
theorem loop_Redirect_plain (c : Nat) (hc : plainChar c) (p : Nat)
    (r tok : List Nat) (tl : List tok_node) :
    loop Redirect_State p (c :: r) tok tl
      = loop Letter_State c r [c] (save_string tok tl true) := by
  unfold plainChar at hc
  have h10 : c ≠ 10 := by omega
  rw [loop]
  simp [body, case_Redirect, hc, h10]

/-- In `Letter_State` the final line terminator flushes the word. -/
theorem loop_Letter_end (p : Nat) (tok : List Nat) (tl : List tok_node) :
    loop Letter_State p [10] tok tl = ⟨save_string tok tl false, none⟩ := by
  simp [loop, body, case_Letter]

theorem getLast?_append_nl (l : List Nat) : (l ++ [10]).getLast? = some 10 := by
  simp

theorem tokenize_nl (tl : List tok_node) (l : List Nat) :
    tokenize tl (l ++ [10]) = some (loop Init_State 0 (l ++ [10]) [] tl) := by
  simp [tokenize]

/-- From `Init_State`, a plain word: its characters are buffered. -/
theorem loop_Init_word (c : Nat) (w : List Nat) (hc : plainChar c)
    (hw : ∀ d ∈ w, plainChar d) (p q : Nat) (r : List Nat) (tl : List tok_node) :
    loop Init_State p (c :: w ++ r) [] tl = loop Letter_State q r (c :: w) tl := by
  have hc1 := hc
  unfold plainChar at hc1
  have h10 : c ≠ 10 := by omega
  rw [List.cons_append, loop]
  have e : body Init_State p c ((w ++ r).headD 0) [] tl
      = .cont Letter_State [c] tl false := by
    simp [body, case_Init, hc1, h10]
  rw [e]
  simp only []
  rw [loop_Letter_word w hw c q]
  simp

/-- C1. A non-empty input whose last character is not the line terminator:
`tokenize`, started on the empty list, leaves the list empty and reports that
the input did not end in a newline. -/
theorem tokenize_no_newline (input : List Nat) (c : Nat)
    (hlast : input.getLast? = some c) (hc : c ≠ 10) :
    tokenize [] input = some ⟨[], some .no_newline⟩ := by
  simp [tokenize, hlast, hc]

theorem tokenize_no_newline_witness :
    (bytes "ls -l").getLast? = some 108 ∧ 108 ≠ 10 ∧
      tokenize [] (bytes "ls -l") = some ⟨[], some .no_newline⟩ :=
  ⟨by decide, by decide, tokenize_no_newline (bytes "ls -l") 108 (by decide) (by decide)⟩

/-- In `Redirect_State` right after a `>`, a second `>` not followed by a
third joins the operator buffer. -/
theorem loop_Redirect_second (r tok : List Nat) (tl : List tok_node)
    (hr : r.headD 0 ≠ 62) :
    loop Redirect_State 62 (62 :: r) tok tl = loop Redirect_State 62 r (tok ++ [62]) tl := by
  have hr1 : ¬ r.head?.getD 0 = 62 := by simpa using hr
  rw [loop]
  simp [body, case_Redirect, hr1]

theorem headD_blanks_plain (b : List Nat) (hb : ∀ c ∈ b, c = 32) (c : Nat)
    (hc : plainChar c) (r : List Nat) : (b ++ c :: r).headD 0 ≠ 62 := by
  cases b with
  | nil => unfold plainChar at hc; simp; omega
  | cons d b => have := hb d (List.mem_cons_self _ _); simp [this]

/-- From `Redirect_State` with the operator buffered: blanks, a plain word
and the line terminator give the operator token and the word token. -/
theorem loop_Redirect_word_end (b : List Nat) (hb : ∀ c ∈ b, c = 32) (c : Nat)
    (w : List Nat) (hc : plainChar c) (hw : ∀ d ∈ w, plainChar d) (p : Nat)
    (tok : List Nat) (tl : List tok_node) :
    loop Redirect_State p (b ++ (c :: w ++ [10])) tok tl
      = ⟨save_string (c :: w) (save_string tok tl true) false, none⟩ := by
  rw [loop_Redirect_blanks b hb, List.cons_append, loop_Redirect_plain c hc,
    loop_Letter_word w hw c c, loop_Letter_end]
  simp

/-- C4. Plain words `a` and `f` around an operator `o`, with any number of
blanks on either side of the operator, tokenize to the word `a`, the operator
`o` and the word `f`; and `echo hi >>out` gives echo, hi, `>>`, out. -/
theorem tokenize_word_op_word (a f o b1 b2 : List Nat)
    (ha : a ≠ []) (hf : f ≠ [])
    (hpa : ∀ c ∈ a, plainChar c) (hpf : ∀ c ∈ f, plainChar c)
    (ho : o = [124] ∨ o = [60] ∨ o = [62] ∨ o = [62, 62])
    (hb1 : ∀ c ∈ b1, c = 32) (hb2 : ∀ c ∈ b2, c = 32) :
    tokenize [] (a ++ b1 ++ o ++ b2 ++ f ++ [10])
        = some ⟨[⟨a, false⟩, ⟨o, true⟩, ⟨f, false⟩], none⟩
      ∧ tokenize [] (bytes "echo hi >>out\n")
        = some ⟨[⟨bytes "echo", false⟩, ⟨bytes "hi", false⟩, ⟨bytes ">>", true⟩,
            ⟨bytes "out", false⟩], none⟩ := by
  refine ⟨?_, by decide⟩
  obtain ⟨ca, a1, rfl⟩ := List.exists_cons_of_ne_nil ha
  obtain ⟨cf, f1, rfl⟩ := List.exists_cons_of_ne_nil hf
  have hca := hpa ca (List.mem_cons_self _ _)
  have ha1 : ∀ c ∈ a1, plainChar c := fun d hd => hpa d (List.mem_cons_of_mem _ hd)
  have hcf := hpf cf (List.mem_cons_self _ _)
  have hf1 : ∀ c ∈ f1, plainChar c := fun d hd => hpf d (List.mem_cons_of_mem _ hd)
  have za : ∀ c ∈ ca :: a1, c ≠ 0 := fun c hc => plainChar_ne_zero (hpa c hc)
  have zf : ∀ c ∈ cf :: f1, c ≠ 0 := fun c hc => plainChar_ne_zero (hpf c hc)
  rw [tokenize_nl]
  simp only [List.append_assoc]
  rw [loop_Init_word ca a1 hca ha1 0 ca]
  rcases ho with rfl | rfl | rfl | rfl
  · rw [List.singleton_append, loop_Letter_blanks_op b1 hb1 124 (by decide),
      loop_Redirect_word_end b2 hb2 cf f1 hcf hf1, save_string_clean _ _ _ za,
      save_string_clean _ _ _ zf, save_string_clean _ _ _ (by decide)]
    rfl
  · rw [List.singleton_append, loop_Letter_blanks_op b1 hb1 60 (by decide),
      loop_Redirect_word_end b2 hb2 cf f1 hcf hf1, save_string_clean _ _ _ za,
      save_string_clean _ _ _ zf, save_string_clean _ _ _ (by decide)]
    rfl
  · rw [List.singleton_append, loop_Letter_blanks_op b1 hb1 62 (by decide),
      loop_Redirect_word_end b2 hb2 cf f1 hcf hf1, save_string_clean _ _ _ za,
      save_string_clean _ _ _ zf, save_string_clean _ _ _ (by decide)]
    rfl
  · have e : [62, 62] ++ (b2 ++ (cf :: f1 ++ [10])) = 62 :: 62 :: (b2 ++ (cf :: f1 ++ [10])) := rfl
    rw [e, loop_Letter_blanks_op b1 hb1 62 (by decide),
      loop_Redirect_second (b2 ++ (cf :: f1 ++ [10])) _ _
        (headD_blanks_plain b2 hb2 cf hcf (f1 ++ [10])),
      loop_Redirect_word_end b2 hb2 cf f1 hcf hf1, save_string_clean _ _ _ za,
      save_string_clean _ _ _ zf, save_string_clean _ _ _ (by decide)]
    rfl

theorem tokenize_word_op_word_witness :
    tokenize [] (bytes "ls" ++ bytes " " ++ bytes ">>" ++ bytes "  " ++ bytes "out" ++ [10])
        = some ⟨[⟨bytes "ls", false⟩, ⟨bytes ">>", true⟩, ⟨bytes "out", false⟩], none⟩ :=
  (tokenize_word_op_word (bytes "ls") (bytes "out") (bytes ">>") (bytes " ") (bytes "  ")
    (by decide) (by decide) (by decide) (by decide) (by decide) (by decide) (by decide)).1

theorem advance_run (c c1 : Config) (h : advance c = some c1) : c.run = c1.run := by
  obtain ⟨st, p, r, tok, tl⟩ := c
  cases r with
  | nil => simp [advance] at h
  | cons ch rest =>
    simp only [advance] at h
    simp only [Config.run, loop]
    cases hb : body st p ch (rest.headD 0) tok tl with
    | stop tl1 e => rw [hb] at h; simp at h
    | cont st1 tok1 tl1 skip =>
      rw [hb] at h
      cases skip with
      | false =>
        simp only [Option.some.injEq] at h
        subst h; rfl
      | true =>
        cases rest with
        | nil => simp at h
        | cons nx rest1 =>
          simp only [Option.some.injEq] at h
          subst h; rfl

theorem configAfter_run (n : Nat) (c c1 : Config) (h : configAfter n c = some c1) :
    c.run = c1.run := by
  induction n generalizing c with
  | zero => simp [configAfter] at h; rw [h]
  | succ n ih =>
    simp only [configAfter] at h
    cases ha : advance c with
    | none => rw [ha] at h; simp at h
    | some c2 =>
      rw [ha] at h
      simp only [Option.some_bind] at h
      rw [advance_run c c2 ha, ih c2 h]

theorem configAfter_succ_of_advance (n : Nat) (c c1 : Config) (h : advance c = some c1) :
    configAfter (n + 1) c = configAfter n c1 := by
  simp [configAfter, h]

/-- Every return of the body, other than the one on a line terminator in
`Init_State`, is a failure that leaves the list empty. -/
theorem body_stop_fail (st : Token_Sys_State) (p x n : Nat) (tok : List Nat)
    (tl tl1 : List tok_node) (e : Option Diag)
    (h : body st p x n tok tl = .stop tl1 e) (hcl : st = Init_State → tl = [])
    (hx : x ≠ 10) : tl1 = [] ∧ ∃ d, e = some d := by
  cases st
  · have := hcl rfl
    subst this
    change case_Init x tok [] = _ at h
    unfold case_Init at h
    split_ifs at h <;> first | contradiction | (cases h; exact ⟨rfl, _, rfl⟩)
  · change case_Blank x tok tl = _ at h
    unfold case_Blank at h
    split_ifs at h
    cases h
    exact ⟨rfl, _, rfl⟩
  · change case_Letter x tok tl = _ at h
    unfold case_Letter at h
    split_ifs at h
    cases h
    exact ⟨rfl, _, rfl⟩
  · change case_Redirect p x n tok tl = _ at h
    unfold case_Redirect at h
    split_ifs at h <;> cases h <;> exact ⟨rfl, _, rfl⟩
  · change case_Single_Quote x n tok tl = _ at h
    unfold case_Single_Quote at h
    by_cases h1 : x = 39
    · rw [if_pos h1] at h
      split_ifs at h
      cases h
      exact ⟨rfl, _, rfl⟩
    · rw [if_neg h1] at h
      by_cases h2 : x = 10
      · rw [if_pos h2] at h
        cases h; exact ⟨rfl, _, rfl⟩
      · rw [if_neg h2] at h
        by_cases h3 : x = 92
        · rw [if_pos h3] at h
          split_ifs at h
        · rw [if_neg h3] at h
          cases h
  · change case_Double_Quote x n tok tl = _ at h
    unfold case_Double_Quote at h
    by_cases h1 : x = 34
    · rw [if_pos h1] at h
      split_ifs at h
      cases h
      exact ⟨rfl, _, rfl⟩
    · rw [if_neg h1] at h
      by_cases h2 : x = 10
      · rw [if_pos h2] at h
        cases h; exact ⟨rfl, _, rfl⟩
      · rw [if_neg h2] at h
        by_cases h3 : x = 92
        · rw [if_pos h3] at h
          split_ifs at h
        · rw [if_neg h3] at h
          cases h

/-- The body takes a lookahead character only in a quote state, at the
closing quote or at a backslash. -/
theorem body_skip (st st1 : Token_Sys_State) (p x n : Nat) (tok tok1 : List Nat)
    (tl tl1 : List tok_node) (h : body st p x n tok tl = .cont st1 tok1 tl1 true) :
    (st = Single_Quote_State ∧ (x = 39 ∨ x = 92))
      ∨ (st = Double_Quote_State ∧ (x = 34 ∨ x = 92)) := by
  cases st
  · change case_Init x tok tl = _ at h
    unfold case_Init at h
    split_ifs at h <;> cases h
  · change case_Blank x tok tl = _ at h
    unfold case_Blank at h
    split_ifs at h <;> cases h
  · change case_Letter x tok tl = _ at h
    unfold case_Letter at h
    split_ifs at h <;> cases h
  · change case_Redirect p x n tok tl = _ at h
    unfold case_Redirect at h
    split_ifs at h <;> cases h
  · change case_Single_Quote x n tok tl = _ at h
    unfold case_Single_Quote at h
    by_cases h1 : x = 39
    · rw [if_pos h1] at h
      exact Or.inl ⟨rfl, Or.inl h1⟩
    · rw [if_neg h1] at h
      by_cases h2 : x = 10
      · rw [if_pos h2] at h
        cases h
      · rw [if_neg h2] at h
        by_cases h3 : x = 92
        · rw [if_pos h3] at h
          exact Or.inl ⟨rfl, Or.inr h3⟩
        · rw [if_neg h3] at h
          cases h
  · change case_Double_Quote x n tok tl = _ at h
    unfold case_Double_Quote at h
    by_cases h1 : x = 34
    · rw [if_pos h1] at h
      exact Or.inr ⟨rfl, Or.inl h1⟩
    · rw [if_neg h1] at h
      by_cases h2 : x = 10
      · rw [if_pos h2] at h
        cases h
      · rw [if_neg h2] at h
        by_cases h3 : x = 92
        · rw [if_pos h3] at h
          exact Or.inr ⟨rfl, Or.inr h3⟩
        · rw [if_neg h3] at h
          cases h

/-- An iteration that goes on keeps the list empty while in `Init_State`. -/
theorem body_clean (st st1 : Token_Sys_State) (p x n : Nat) (tok tok1 : List Nat)
    (tl tl1 : List tok_node) (skip : Bool)
    (h : body st p x n tok tl = .cont st1 tok1 tl1 skip) (hcl : st = Init_State → tl = []) :
    st1 = Init_State → tl1 = [] := by
  cases st
  · have := hcl rfl
    subst this
    change case_Init x tok [] = _ at h
    unfold case_Init at h
    split_ifs at h <;> cases h <;> exact fun _ => rfl
  · change case_Blank x tok tl = _ at h
    unfold case_Blank at h
    split_ifs at h <;> cases h <;> intro hh <;> cases hh
  · change case_Letter x tok tl = _ at h
    unfold case_Letter at h
    split_ifs at h <;> cases h <;> intro hh <;> cases hh
  · change case_Redirect p x n tok tl = _ at h
    unfold case_Redirect at h
    split_ifs at h <;> cases h <;> intro hh <;> cases hh
  · change case_Single_Quote x n tok tl = _ at h
    unfold case_Single_Quote at h
    by_cases h1 : x = 39
    · rw [if_pos h1] at h
      split_ifs at h <;> cases h <;> intro hh <;> cases hh
    · rw [if_neg h1] at h
      by_cases h2 : x = 10
      · rw [if_pos h2] at h
        cases h
      · rw [if_neg h2] at h
        by_cases h3 : x = 92
        · rw [if_pos h3] at h
          split_ifs at h <;> cases h <;> intro hh <;> cases hh
        · rw [if_neg h3] at h
          cases h; intro hh; cases hh
  · change case_Double_Quote x n tok tl = _ at h
    unfold case_Double_Quote at h
    by_cases h1 : x = 34
    · rw [if_pos h1] at h
      split_ifs at h <;> cases h <;> intro hh <;> cases hh
    · rw [if_neg h1] at h
      by_cases h2 : x = 10
      · rw [if_pos h2] at h
        cases h
      · rw [if_neg h2] at h
        by_cases h3 : x = 92
        · rw [if_pos h3] at h
          split_ifs at h <;> cases h <;> intro hh <;> cases hh
        · rw [if_neg h3] at h
          cases h; intro hh; cases hh

theorem getLastD_blanks (b : List Nat) (hb : ∀ c ∈ b, c = 32) (p : Nat)
    (h : b.getLastD p = 62) : b = [] ∧ p = 62 := by
  cases b with
  | nil => exact ⟨rfl, h⟩
  | cons c b =>
    have hm : (c :: b).getLastD p ∈ c :: b := by
      rw [List.getLastD_cons]
      have := List.getLast_mem (List.cons_ne_nil c b)
      simpa [List.getLast_eq_getLastD] using this
    have := hb _ hm
    omega

theorem body_Redirect_gt (p n : Nat) (tok : List Nat) (tl : List tok_node) :
    body Redirect_State p 62 n tok tl
      = if p = 62 then
          if n = 62 then .stop [] (some .too_many_redirects)
          else .cont Redirect_State (tok ++ [62]) tl false
        else .stop [] (some .spaces_between) := by
  simp [body, case_Redirect, free_tok_list]

/-- In `Redirect_State` with `op1` the character before: blanks and then a
second operator character end in failure, unless the two are `>` `>` side by
side and no third `>` follows. -/
theorem loop_Redirect_blanks_op_fail (op1 op2 : Nat) (blanks post : List Nat)
    (hop2 : isOp op2) (hb : ∀ c ∈ blanks, c = 32)
    (hexc : ¬ (op1 = 62 ∧ blanks = [] ∧ op2 = 62 ∧ post.head? ≠ some 62))
    (tok : List Nat) (tl : List tok_node) :
    ∃ d, loop Redirect_State op1 (blanks ++ op2 :: post) tok tl = ⟨[], some d⟩ := by
  rw [loop_Redirect_blanks blanks hb, loop]
  rcases hop2 with rfl | rfl | rfl
  · exact ⟨.not_valid_after 60, by simp [body, case_Redirect, free_tok_list]⟩
  · by_cases hp : blanks.getLastD op1 = 62
    · by_cases hn : post.headD 0 = 62
      · exact ⟨.too_many_redirects, by rw [body_Redirect_gt, if_pos hp, if_pos hn]⟩
      · exfalso
        obtain ⟨hb0, hp0⟩ := getLastD_blanks blanks hb op1 hp
        apply hexc
        refine ⟨hp0, hb0, rfl, ?_⟩
        cases post with
        | nil => simp
        | cons y ys => simpa using hn
    · exact ⟨.spaces_between, by rw [body_Redirect_gt, if_neg hp]⟩
  · exact ⟨.not_valid_after 124, by simp [body, case_Redirect, free_tok_list]⟩

/-- Outside quotes, an operator character followed (after blanks or not) by
a second operator character ends in failure with the list empty, unless the
two are `>` `>` side by side and no third `>` follows. -/
theorem loop_op_pair_fail (st : Token_Sys_State) (hst1 : st ≠ Single_Quote_State)
    (hst2 : st ≠ Double_Quote_State) (p op1 op2 : Nat) (blanks post tok : List Nat)
    (tl : List tok_node) (hcl : st = Init_State → tl = [])
    (hop1 : isOp op1) (hop2 : isOp op2) (hb : ∀ c ∈ blanks, c = 32)
    (hexc : ¬ (op1 = 62 ∧ blanks = [] ∧ op2 = 62 ∧ post.head? ≠ some 62)) :
    ∃ d, loop st p (op1 :: (blanks ++ op2 :: post)) tok tl = ⟨[], some d⟩ := by
  have hop : op1 = 60 ∨ op1 = 62 ∨ op1 = 124 := hop1
  have h10 : op1 ≠ 10 := by omega
  have h34 : op1 ≠ 34 := by omega
  have h39 : op1 ≠ 39 := by omega
  cases st with
  | Init_State =>
    have := hcl rfl
    subst this
    exact ⟨.need_input, by rw [loop]; simp [body, case_Init, h10, h34, h39, hop]⟩
  | Blank_State =>
    have e : loop Blank_State p (op1 :: (blanks ++ op2 :: post)) tok tl
        = loop Redirect_State op1 (blanks ++ op2 :: post) (tok ++ [op1]) tl := by
      rw [loop]; simp [body, case_Blank, h10, h34, h39, hop]
    rw [e]
    exact loop_Redirect_blanks_op_fail op1 op2 blanks post hop2 hb hexc _ _
  | Letter_State =>
    have e := loop_Letter_blanks_op [] (by simp) op1 hop1 p (blanks ++ op2 :: post) tok tl
    rw [List.nil_append] at e
    rw [e]
    exact loop_Redirect_blanks_op_fail op1 op2 blanks post hop2 hb hexc _ _
  | Redirect_State =>
    rcases hop with rfl | rfl | rfl
    · exact ⟨.not_valid_after 60, by rw [loop]; simp [body, case_Redirect, free_tok_list]⟩
    · by_cases hp : p = 62
      · by_cases hn : (blanks ++ op2 :: post).headD 0 = 62
        · exact ⟨.too_many_redirects, by
            rw [loop, body_Redirect_gt, if_pos hp, if_pos hn]⟩
        · have e : loop Redirect_State p (62 :: (blanks ++ op2 :: post)) tok tl
              = loop Redirect_State 62 (blanks ++ op2 :: post) (tok ++ [62]) tl := by
            rw [loop, body_Redirect_gt, if_pos hp, if_neg hn]
          rw [e]
          exact loop_Redirect_blanks_op_fail 62 op2 blanks post hop2 hb hexc _ _
      · exact ⟨.spaces_between, by rw [loop, body_Redirect_gt, if_neg hp]⟩
    · exact ⟨.not_valid_after 124, by rw [loop]; simp [body, case_Redirect, free_tok_list]⟩
  | Single_Quote_State => exact absurd rfl hst1
  | Double_Quote_State => exact absurd rfl hst2

/-- A closing quote with an operator character right after it: the word is
flushed and the operator buffer holds that character. -/
theorem loop_close_quote_op (st : Token_Sys_State) (x : Nat)
    (hq : (st = Single_Quote_State ∧ x = 39) ∨ (st = Double_Quote_State ∧ x = 34))
    (op : Nat) (hop : isOp op) (p : Nat) (r tok : List Nat) (tl : List tok_node) :
    loop st p (x :: op :: r) tok tl
      = loop Redirect_State op r [op] (save_string tok tl false) := by
  have hop1 : op = 60 ∨ op = 62 ∨ op = 124 := hop
  have h34 : op ≠ 34 := by omega
  have h39 : op ≠ 39 := by omega
  rcases hq with ⟨rfl, rfl⟩ | ⟨rfl, rfl⟩
  · rw [loop]; simp [body, case_Single_Quote, h34, h39, hop1]
  · rw [loop]; simp [body, case_Double_Quote, h34, h39, hop1]

/-- Scanning a prefix `pre` free of line terminators, from a configuration
whose input is `pre ++ R`: the scan fails with the list empty, or comes to
stand at `R`, or comes to stand at the character before `R` in a quote state
and takes the first character of `R` as lookahead. -/
theorem scan_prefix (R : List Nat) (k : Nat) : ∀ (pre : List Nat) (c : Config),
    pre.length ≤ k → c.rest = pre ++ R → 10 ∉ pre → c.clean →
    (∃ d, c.run = ⟨[], some d⟩)
    ∨ (∃ m c1, m ≤ pre.length ∧ configAfter m c = some c1 ∧ c1.clean ∧ c1.rest = R)
    ∨ (∃ m c1 x, m < pre.length ∧ configAfter m c = some c1 ∧ c1.rest = x :: R ∧
        ((c1.State = Single_Quote_State ∧ (x = 39 ∨ x = 92))
          ∨ (c1.State = Double_Quote_State ∧ (x = 34 ∨ x = 92)))) := by
  induction k with
  | zero =>
    intro pre c hlen hrest _ hcl
    have hp : pre = [] := List.length_eq_zero.mp (Nat.le_zero.mp hlen)
    subst hp
    exact Or.inr (Or.inl ⟨0, c, Nat.le_refl _, rfl, hcl, by simpa using hrest⟩)
  | succ k ih =>
    intro pre c hlen hrest hnl hcl
    cases pre with
    | nil => exact Or.inr (Or.inl ⟨0, c, Nat.le_refl _, rfl, hcl, by simpa using hrest⟩)
    | cons x pre1 =>
      obtain ⟨st, p, r, tok, tl⟩ := c
      simp only [List.cons_append] at hrest
      subst hrest
      have hx : x ≠ 10 := fun h => hnl (by simp [h])
      have hnl1 : 10 ∉ pre1 := fun h => hnl (List.mem_cons_of_mem _ h)
      have hlen1 : pre1.length ≤ k := by simpa using hlen
      cases hb : body st p x ((pre1 ++ R).headD 0) tok tl with
      | stop tl1 e =>
        obtain ⟨h1, d, h2⟩ := body_stop_fail st p x _ tok tl tl1 e hb hcl hx
        subst h1 h2
        exact Or.inl ⟨d, by simp only [Config.run, loop, hb]⟩
      | cont st1 tok1 tl1 skip =>
        have hcl1 := body_clean st st1 p x _ tok tok1 tl tl1 skip hb hcl
        cases skip with
        | false =>
          have ha : advance ⟨st, p, x :: (pre1 ++ R), tok, tl⟩
              = some ⟨st1, x, pre1 ++ R, tok1, tl1⟩ := by
            simp only [advance, hb]
          rcases ih pre1 ⟨st1, x, pre1 ++ R, tok1, tl1⟩ hlen1 rfl hnl1 hcl1 with
            ⟨d, hd⟩ | ⟨m, c2, hm, hc, hcl2, hr⟩ | ⟨m, c2, y, hm, hc, hr, hq⟩
          · exact Or.inl ⟨d, by rw [advance_run _ _ ha, hd]⟩
          · exact Or.inr (Or.inl ⟨m + 1, c2, by simpa using hm,
              by rw [configAfter_succ_of_advance _ _ _ ha]; exact hc, hcl2, hr⟩)
          · exact Or.inr (Or.inr ⟨m + 1, c2, y, by simpa using hm,
              by rw [configAfter_succ_of_advance _ _ _ ha]; exact hc, hr, hq⟩)
        | true =>
          cases pre1 with
          | nil =>
            exact Or.inr (Or.inr ⟨0, _, x, by simp, rfl, rfl,
              body_skip st st1 p x _ tok tok1 tl tl1 hb⟩)
          | cons y pre2 =>
            have ha : advance ⟨st, p, x :: (y :: pre2 ++ R), tok, tl⟩
                = some ⟨st1, y, pre2 ++ R, tok1, tl1⟩ := by
              have hb1 := hb
              simp only [List.cons_append] at hb1
              simp only [advance, List.cons_append, hb1]
            have hnl2 : 10 ∉ pre2 := fun h => hnl1 (List.mem_cons_of_mem _ h)
            have hlen2 : pre2.length ≤ k := by
              simp only [List.length_cons] at hlen1; omega
            rcases ih pre2 ⟨st1, y, pre2 ++ R, tok1, tl1⟩ hlen2 rfl hnl2 hcl1 with
              ⟨d, hd⟩ | ⟨m, c2, hm, hc, hcl2, hr⟩ | ⟨m, c2, z, hm, hc, hr, hq⟩
            · exact Or.inl ⟨d, by rw [advance_run _ _ ha, hd]⟩
            · exact Or.inr (Or.inl ⟨m + 1, c2, by simp only [List.length_cons]; omega,
                by rw [configAfter_succ_of_advance _ _ _ ha]; exact hc, hcl2, hr⟩)
            · exact Or.inr (Or.inr ⟨m + 1, c2, z, by simp only [List.length_cons]; omega,
                by rw [configAfter_succ_of_advance _ _ _ ha]; exact hc, hr, hq⟩)

theorem quotedAt_false (line r : List Nat) (h : quotedAt line r = false) (m : Nat)
    (hm : m ≤ line.length) (c : Config)
    (hc : configAfter m (Config.start [] line) = some c)
    (hr : c.rest = r ∨ c.rest = 92 :: r) :
    c.State ≠ Single_Quote_State ∧ c.State ≠ Double_Quote_State := by
  unfold quotedAt at h
  rw [List.any_eq_false] at h
  have h1 := h m (by simp; omega)
  rw [hc] at h1
  simp only [decide_eq_true_eq, not_and] at h1
  constructor
  · intro hs; exact h1 (Or.inl hs) hr
  · intro hs; exact h1 (Or.inr hs) hr

theorem tokenize_of_getLast (tl : List tok_node) (line : List Nat)
    (h : line.getLast? = some 10) :
    tokenize tl line = some (Config.start tl line).run := by
  simp [tokenize, h, Config.run, Config.start]

theorem head?_append_nl (post : List Nat) :
    (post ++ [10]).head? ≠ some 62 ↔ post.head? ≠ some 62 := by
  cases post <;> simp

/-- C3. On a line with a single terminator, an operator character taken
outside quotes and followed, at once or after blanks, by another operator
character makes `tokenize` fail with the list empty; the one exception is a
`>` with a second `>` right after it and no third `>` after that. -/
theorem tokenize_operator_pair_fails (pre blanks post : List Nat) (op1 op2 : Nat)
    (hpre : 10 ∉ pre) (hop1 : isOp op1) (hop2 : isOp op2)
    (hb : ∀ c ∈ blanks, c = 32)
    (hunq : quotedAt (pre ++ op1 :: (blanks ++ op2 :: (post ++ [10])))
      (op1 :: (blanks ++ op2 :: (post ++ [10]))) = false)
    (hexc : ¬ (op1 = 62 ∧ blanks = [] ∧ op2 = 62 ∧ post.head? ≠ some 62)) :
    ∃ d, tokenize [] (pre ++ op1 :: (blanks ++ op2 :: (post ++ [10])))
      = some ⟨[], some d⟩ := by
  have hexc1 : ¬ (op1 = 62 ∧ blanks = [] ∧ op2 = 62 ∧ (post ++ [10]).head? ≠ some 62) := by
    rw [head?_append_nl]; exact hexc
  have hlast : (pre ++ op1 :: (blanks ++ op2 :: (post ++ [10]))).getLast? = some 10 := by
    have e : pre ++ op1 :: (blanks ++ op2 :: (post ++ [10]))
        = (pre ++ op1 :: (blanks ++ op2 :: post)) ++ [10] := by simp
    rw [e]; exact getLast?_append_nl _
  rw [tokenize_of_getLast _ _ hlast]
  have hlen : pre.length ≤ (pre ++ op1 :: (blanks ++ op2 :: (post ++ [10]))).length := by
    simp
  rcases scan_prefix (op1 :: (blanks ++ op2 :: (post ++ [10]))) pre.length pre
      (Config.start [] (pre ++ op1 :: (blanks ++ op2 :: (post ++ [10]))))
      (Nat.le_refl _) rfl hpre (fun _ => rfl) with
    ⟨d, hd⟩ | ⟨m, c1, hm, hc, hcl, hr⟩ | ⟨m, c1, x, hm, hc, hr, hq⟩
  · exact ⟨d, by rw [hd]⟩
  · obtain ⟨hs1, hs2⟩ := quotedAt_false _ _ hunq m (by omega) c1 hc (Or.inl hr)
    rw [configAfter_run _ _ _ hc]
    obtain ⟨d, hd⟩ := loop_op_pair_fail c1.State hs1 hs2 c1.prev op1 op2 blanks (post ++ [10])
      c1.tok c1.tlist hcl hop1 hop2 hb hexc1
    exact ⟨d, by rw [Config.run, hr, hd]⟩
  · rw [configAfter_run _ _ _ hc]
    have hx92 : x ≠ 92 := by
      intro h92
      subst h92
      obtain ⟨hs1, hs2⟩ := quotedAt_false _ _ hunq m (by omega) c1 hc (Or.inr hr)
      rcases hq with ⟨h, _⟩ | ⟨h, _⟩
      · exact hs1 h
      · exact hs2 h
    have hq1 : (c1.State = Single_Quote_State ∧ x = 39)
        ∨ (c1.State = Double_Quote_State ∧ x = 34) := by
      rcases hq with ⟨h, h1 | h1⟩ | ⟨h, h1 | h1⟩
      · exact Or.inl ⟨h, h1⟩
      · exact absurd h1 hx92
      · exact Or.inr ⟨h, h1⟩
      · exact absurd h1 hx92
    obtain ⟨d, hd⟩ := loop_Redirect_blanks_op_fail op1 op2 blanks (post ++ [10]) hop2 hb hexc1
      [op1] (save_string c1.tok c1.tlist false)
    exact ⟨d, by rw [Config.run, hr, loop_close_quote_op c1.State x hq1 op1 hop1, hd]⟩

theorem tokenize_operator_pair_fails_witness :
    (∃ d, tokenize [] (bytes "echo hi " ++ 62 :: (bytes " " ++ 62 :: (bytes " out" ++ [10])))
      = some ⟨[], some d⟩)
    ∧ (∃ d, tokenize [] (bytes "echo 'a|b'" ++ 60 :: ([] ++ 124 :: (bytes " wc" ++ [10])))
      = some ⟨[], some d⟩) :=
  ⟨tokenize_operator_pair_fails (bytes "echo hi ") (bytes " ") (bytes " out") 62 62
    (by decide) (by decide) (by decide) (by decide) (by decide) (by decide),
   tokenize_operator_pair_fails (bytes "echo 'a|b'") [] (bytes " wc") 60 124
    (by decide) (by decide) (by decide) (by decide) (by decide) (by decide)⟩

theorem body_quote_escape (q : Nat) (hq : q = 39 ∨ q = 34) (p ec : Nat) (tok : List Nat)
    (tl : List tok_node) :
    body (quoteState q) p 92 ec tok tl
      = .cont (quoteState q) (tok ++ escaped ec) tl true := by
  rcases hq with rfl | rfl
  · show case_Single_Quote 92 ec tok tl = _
    unfold case_Single_Quote escaped
    rw [if_neg (by decide : ¬ (92 = 39)), if_neg (by decide : ¬ (92 = 10)), if_pos rfl]
    split_ifs <;> rfl
  · show case_Double_Quote 92 ec tok tl = _
    unfold case_Double_Quote escaped
    rw [if_neg (by decide : ¬ (92 = 34)), if_neg (by decide : ¬ (92 = 10)), if_pos rfl]
    split_ifs <;> rfl

theorem body_quote_lit (q : Nat) (hq : q = 39 ∨ q = 34) (p c n : Nat) (hc : litChar q c)
    (tok : List Nat) (tl : List tok_node) :
    body (quoteState q) p c n tok tl = .cont (quoteState q) (tok ++ [c]) tl false := by
  obtain ⟨h1, h2, h3, _⟩ := hc
  rcases hq with rfl | rfl
  · simp [quoteState, body, case_Single_Quote, h1, h2, h3]
  · simp [quoteState, body, case_Double_Quote, h1, h2, h3]

theorem quoteState_ne_Redirect (q : Nat) : quoteState q ≠ Redirect_State := by
  unfold quoteState; split_ifs <;> decide

/-- In a quote state a run of literal characters is appended to the buffer. -/
theorem loop_quote_lit (q : Nat) (hq : q = 39 ∨ q = 34) (w : List Nat)
    (hw : ∀ c ∈ w, litChar q c) (p p1 : Nat) (r tok : List Nat) (tl : List tok_node) :
    loop (quoteState q) p (w ++ r) tok tl = loop (quoteState q) p1 r (tok ++ w) tl := by
  induction w generalizing p tok with
  | nil => simpa using loop_prev _ (quoteState_ne_Redirect q) p p1 r tok tl
  | cons c w ih =>
    have hc := hw c (List.mem_cons_self _ _)
    have hw1 : ∀ c ∈ w, litChar q c := fun d hd => hw d (List.mem_cons_of_mem _ hd)
    rw [List.cons_append, loop, body_quote_lit q hq _ _ _ hc]
    simp only []
    rw [ih hw1]
    simp

/-- In a quote state a backslash takes the next character with it. -/
theorem loop_quote_escape (q : Nat) (hq : q = 39 ∨ q = 34) (p ec : Nat)
    (r tok : List Nat) (tl : List tok_node) :
    loop (quoteState q) p (92 :: ec :: r) tok tl
      = loop (quoteState q) ec r (tok ++ escaped ec) tl := by
  rw [loop]
  have e := body_quote_escape q hq p ec tok tl
  simp only [List.headD_cons]
  rw [e]

/-- The opening quote as the first character of the line. -/
theorem loop_Init_quote (q : Nat) (hq : q = 39 ∨ q = 34) (p : Nat) (r tok : List Nat)
    (tl : List tok_node) :
    loop Init_State p (q :: r) tok tl = loop (quoteState q) q r tok tl := by
  rcases hq with rfl | rfl
  · rw [loop]; simp [body, case_Init, quoteState]
  · rw [loop]; simp [body, case_Init, quoteState]

/-- The closing quote followed by the line terminator flushes the word. -/
theorem loop_quote_close_end (q : Nat) (hq : q = 39 ∨ q = 34) (p : Nat) (tok : List Nat)
    (tl : List tok_node) :
    loop (quoteState q) p [q, 10] tok tl = ⟨save_string tok tl false, none⟩ := by
  rcases hq with rfl | rfl
  · simp [loop, body, case_Single_Quote, quoteState]
  · simp [loop, body, case_Double_Quote, quoteState]

/-- A quoted word with one backslash escape in it, alone on the line. -/
theorem tokenize_quoted_escape (q : Nat) (hq : q = 39 ∨ q = 34) (u v : List Nat)
    (hu : ∀ c ∈ u, litChar q c) (hv : ∀ c ∈ v, litChar q c) (ec : Nat) :
    tokenize [] ([q] ++ u ++ [92, ec] ++ v ++ [q] ++ [10])
      = some ⟨save_string (u ++ escaped ec ++ v) [] false, none⟩ := by
  rw [tokenize_nl]
  have e : [q] ++ u ++ [92, ec] ++ v ++ [q] ++ [10]
      = q :: (u ++ (92 :: ec :: (v ++ [q, 10]))) := by simp
  rw [e, loop_Init_quote q hq, loop_quote_lit q hq u hu q q, loop_quote_escape q hq,
    loop_quote_lit q hq v hv ec q, loop_quote_close_end q hq]
  simp

/-- A quoted word without escapes, alone on the line. -/
theorem tokenize_quoted_plain (q : Nat) (hq : q = 39 ∨ q = 34) (w : List Nat)
    (hw : ∀ c ∈ w, litChar q c) :
    tokenize [] ([q] ++ w ++ [q] ++ [10]) = some ⟨[⟨w, false⟩], none⟩ := by
  rw [tokenize_nl]
  have e : [q] ++ w ++ [q] ++ [10] = q :: (w ++ [q, 10]) := by simp
  rw [e, loop_Init_quote q hq, loop_quote_lit q hq w hw q q, loop_quote_close_end q hq,
    save_string_clean _ _ _ (fun c hc => (hw c (by simpa using hc)).2.2.2)]
  simp

/-- C2. The line `echo 'a\` with its terminator: the backslash takes the line
terminator as the escaped character, the loop ends, and `tokenize` returns
without a message and with the token `echo` in the list, though the quote is
never closed. -/
theorem tokenize_backslash_before_newline :
    tokenize [] (bytes "echo 'a\\\n") = some ⟨[⟨bytes "echo", false⟩], none⟩ := by
  decide

/-- C5. A string without single quote, backslash or line terminator, put
between single quotes on a line of its own, tokenizes to exactly one word
token whose text is that string. -/
theorem tokenize_single_quoted (w : List Nat) (hw : ∀ c ∈ w, litChar 39 c) :
    tokenize [] ([39] ++ w ++ [39] ++ [10]) = some ⟨[⟨w, false⟩], none⟩ :=
  tokenize_quoted_plain 39 (Or.inl rfl) w hw

theorem tokenize_single_quoted_witness :
    tokenize [] ([39] ++ bytes ">> \"a\"\t|" ++ [39] ++ [10])
      = some ⟨[⟨bytes ">> \"a\"\t|", false⟩], none⟩ :=
  tokenize_single_quoted (bytes ">> \"a\"\t|") (by decide)

theorem litChar_ne_zero {q : Nat} {l : List Nat} (h : ∀ c ∈ l, litChar q c) :
    ∀ c ∈ l, c ≠ 0 := fun c hc => (h c hc).2.2.2

/-- C6. Inside either quote, each of the escapes `\n`, `\b`, `\r`, `\t`, `\v`
puts exactly one byte (10, 8, 13, 9, 11) into the token: the quoted word
`u \e v` gives the one word token `u`, that byte, `v`; and `'a\nb'` gives the
three bytes `a`, newline, `b`. -/
theorem tokenize_escape_control (q : Nat) (hq : q = 39 ∨ q = 34) (u v : List Nat)
    (hu : ∀ c ∈ u, litChar q c) (hv : ∀ c ∈ v, litChar q c) (ec b : Nat)
    (he : (ec, b) ∈ [(110, 10), (98, 8), (114, 13), (116, 9), (118, 11)]) :
    tokenize [] ([q] ++ u ++ [92, ec] ++ v ++ [q] ++ [10])
        = some ⟨[⟨u ++ [b] ++ v, false⟩], none⟩
      ∧ tokenize [] (bytes "'a\\nb'\n") = some ⟨[⟨[97, 10, 98], false⟩], none⟩ := by
  refine ⟨?_, by decide⟩
  have hb : escaped ec = [b] ∧ b ≠ 0 := by
    simp only [List.mem_cons, Prod.mk.injEq, List.mem_singleton, List.not_mem_nil,
      or_false] at he
    rcases he with ⟨rfl, rfl⟩ | ⟨rfl, rfl⟩ | ⟨rfl, rfl⟩ | ⟨rfl, rfl⟩ | ⟨rfl, rfl⟩ <;> decide
  have hz : ∀ c ∈ u ++ [b] ++ v, c ≠ 0 := by
    intro c hc
    simp only [List.mem_append, List.mem_singleton] at hc
    rcases hc with (hc | hc) | hc
    · exact litChar_ne_zero hu c hc
    · rw [hc]; exact hb.2
    · exact litChar_ne_zero hv c hc
  rw [tokenize_quoted_escape q hq u v hu hv ec, hb.1, save_string_clean _ _ _ hz]
  rfl

theorem tokenize_escape_control_witness :
    tokenize [] ([34] ++ bytes "it's" ++ [92, 116] ++ bytes "ok" ++ [34] ++ [10])
        = some ⟨[⟨bytes "it's" ++ [9] ++ bytes "ok", false⟩], none⟩
      ∧ tokenize [] (bytes "'a\\nb'\n") = some ⟨[⟨[97, 10, 98], false⟩], none⟩ :=
  tokenize_escape_control 34 (Or.inr rfl) (bytes "it's") (bytes "ok") (by decide) (by decide)
    116 9 (by decide)

/-- C7, as the code has it. The escape `\0` stores a NUL in the buffer, and
the token, a C string, ends there: the quoted word `u \0 v` gives the one
word token `u`; what follows the escape is dropped. -/
theorem tokenize_escape_nul (q : Nat) (hq : q = 39 ∨ q = 34) (u v : List Nat)
    (hu : ∀ c ∈ u, litChar q c) (hv : ∀ c ∈ v, litChar q c) :
    tokenize [] ([q] ++ u ++ [92, 48] ++ v ++ [q] ++ [10])
      = some ⟨[⟨u, false⟩], none⟩ := by
  have ht : (u ++ escaped 48 ++ v).takeWhile (fun c => c ≠ 0) = u := by
    have e : u ++ escaped 48 ++ v = u ++ 0 :: v := by simp [escaped]
    rw [e, List.takeWhile_append_of_pos (by
      intro c hc
      simpa using litChar_ne_zero hu c hc)]
    simp
  rw [tokenize_quoted_escape q hq u v hu hv 48, save_string, ht]
  rfl

theorem tokenize_escape_nul_witness :
    tokenize [] ([39] ++ bytes "a" ++ [92, 48] ++ bytes "b" ++ [39] ++ [10])
      = some ⟨[⟨bytes "a", false⟩], none⟩ :=
  tokenize_escape_nul 39 (Or.inl rfl) (bytes "a") (bytes "b") (by decide) (by decide)

/-- C7, as stated, fails: `'a\0b'` gives the token `a`, not `a`, NUL, `b`. -/
theorem tokenize_escape_nul_truncates :
    tokenize [] (bytes "'a\\0b'\n") = some ⟨[⟨[97], false⟩], none⟩
      ∧ tokenize [] (bytes "'a\\0b'\n") ≠ some ⟨[⟨[97, 0, 98], false⟩], none⟩ := by
  decide

/-- C8. Inside either quote, a backslash followed by a character other than
`n`, `b`, `r`, `t`, `v`, `0` and the line terminator is kept as the two
characters backslash and that character, which is not interpreted (an escaped
quote does not close the quote): the quoted word `u \c v` gives the one word
token `u \c v`. -/
theorem tokenize_escape_other (q : Nat) (hq : q = 39 ∨ q = 34) (u v : List Nat)
    (hu : ∀ c ∈ u, litChar q c) (hv : ∀ c ∈ v, litChar q c) (c : Nat)
    (hc : c ∉ [110, 98, 114, 116, 118, 48, 10]) (hc0 : c ≠ 0) :
    tokenize [] ([q] ++ u ++ [92, c] ++ v ++ [q] ++ [10])
      = some ⟨[⟨u ++ [92, c] ++ v, false⟩], none⟩ := by
  simp only [List.mem_cons, List.mem_singleton, List.not_mem_nil, or_false, not_or] at hc
  obtain ⟨h1, h2, h3, h4, h5, h6, _⟩ := hc
  have hb : escaped c = [92, c] := by simp [escaped, h1, h2, h3, h4, h5, h6]
  have hz : ∀ x ∈ u ++ [92, c] ++ v, x ≠ 0 := by
    intro x hx
    simp only [List.mem_append, List.mem_cons, List.mem_singleton, List.not_mem_nil,
      or_false] at hx
    rcases hx with (hx | hx | hx) | hx
    · exact litChar_ne_zero hu x hx
    · rw [hx]; decide
    · rw [hx]; exact hc0
    · exact litChar_ne_zero hv x hx
  rw [tokenize_quoted_escape q hq u v hu hv c, hb, save_string_clean _ _ _ hz]
  rfl

theorem tokenize_escape_other_witness :
    tokenize [] ([39] ++ bytes "a" ++ [92, 39] ++ bytes "b" ++ [39] ++ [10])
      = some ⟨[⟨[97, 92, 39, 98], false⟩], none⟩ :=
  tokenize_escape_other 39 (Or.inl rfl) (bytes "a") (bytes "b") (by decide) (by decide) 39
    (by decide) (by decide)

/-- In `Init_State` a run of blanks changes nothing. -/
theorem loop_Init_blanks (b : List Nat) (hb : ∀ c ∈ b, c = 32) (p p1 : Nat)
    (r tok : List Nat) (tl : List tok_node) :
    loop Init_State p (b ++ r) tok tl = loop Init_State p1 r tok tl := by
  induction b generalizing p with
  | nil => simpa using loop_prev Init_State (by decide) p p1 r tok tl
  | cons c b ih =>
    obtain rfl := hb c (List.mem_cons_self _ _)
    have hb1 : ∀ c ∈ b, c = 32 := fun d hd => hb d (List.mem_cons_of_mem _ hd)
    rw [List.cons_append, loop]
    have e : body Init_State p 32 ((b ++ r).headD 0) tok tl
        = .cont Init_State tok tl false := by
      simp [body, case_Init]
    rw [e]
    simp only []
    exact ih hb1 _

/-- C9, as stated, fails on a line without terminator: for the one-character
input `|` the message is the one about the missing newline. -/
theorem tokenize_operator_first_unterminated :
    tokenize [] (bytes "|") = some ⟨[], some .no_newline⟩
      ∧ tokenize [] (bytes "|") ≠ some ⟨[], some .need_input⟩ := by
  decide

/-- C9, for terminated lines. A line that ends in the line terminator and
whose first non-blank character is `<`, `>` or `|` makes `tokenize` report
that input is needed before a redirect or pipe, and leaves the list empty. -/
theorem tokenize_operator_first (b rest : List Nat) (op : Nat)
    (hb : ∀ c ∈ b, c = 32) (hop : isOp op) :
    tokenize [] (b ++ op :: rest ++ [10]) = some ⟨[], some .need_input⟩ := by
  have hop1 : op = 60 ∨ op = 62 ∨ op = 124 := hop
  have h10 : op ≠ 10 := by omega
  have h34 : op ≠ 34 := by omega
  have h39 : op ≠ 39 := by omega
  rw [tokenize_nl, List.append_assoc, loop_Init_blanks b hb 0 0, List.cons_append, loop]
  simp [body, case_Init, h10, h34, h39, hop1]

theorem tokenize_operator_first_witness :
    tokenize [] (bytes "  " ++ 62 :: bytes " out" ++ [10]) = some ⟨[], some .need_input⟩ :=
  tokenize_operator_first (bytes "  ") (bytes " out") 62 (by decide) (by decide)

/-- Outside quotes, on a character that is no quote, an iteration that goes
on stays outside quotes and takes no lookahead. -/
theorem body_unquoted (st st1 : Token_Sys_State) (p x n : Nat) (tok tok1 : List Nat)
    (tl tl1 : List tok_node) (skip : Bool)
    (h : body st p x n tok tl = .cont st1 tok1 tl1 skip)
    (hs1 : st ≠ Single_Quote_State) (hs2 : st ≠ Double_Quote_State)
    (h34 : x ≠ 34) (h39 : x ≠ 39) :
    st1 ≠ Single_Quote_State ∧ st1 ≠ Double_Quote_State ∧ skip = false := by
  cases st
  · change case_Init x tok tl = _ at h
    unfold case_Init at h
    split_ifs at h <;> first | contradiction | (cases h; exact ⟨by decide, by decide, rfl⟩)
  · change case_Blank x tok tl = _ at h
    unfold case_Blank at h
    split_ifs at h <;> first | contradiction | (cases h; exact ⟨by decide, by decide, rfl⟩)
  · change case_Letter x tok tl = _ at h
    unfold case_Letter at h
    split_ifs at h <;> first | contradiction | (cases h; exact ⟨by decide, by decide, rfl⟩)
  · change case_Redirect p x n tok tl = _ at h
    unfold case_Redirect at h
    split_ifs at h <;> first | contradiction | (cases h; exact ⟨by decide, by decide, rfl⟩)
  · exact absurd rfl hs1
  · exact absurd rfl hs2

/-- Outside quotes a character below 32 (other than the line terminator) or
above 127 makes the body return with the list empty and a message. -/
theorem body_nonprintable (st : Token_Sys_State) (p c n : Nat) (tok : List Nat)
    (tl : List tok_node) (hs1 : st ≠ Single_Quote_State) (hs2 : st ≠ Double_Quote_State)
    (hcl : st = Init_State → tl = []) (hc : c < 32 ∨ 127 < c) (hc10 : c ≠ 10) :
    body st p c n tok tl = .stop [] (some (.unrecognized c)) := by
  have h34 : c ≠ 34 := by omega
  have h39 : c ≠ 39 := by omega
  have h32 : c ≠ 32 := by omega
  have hop : ¬ (c = 60 ∨ c = 62 ∨ c = 124) := by omega
  have hop2 : ¬ (c = 60 ∨ c = 124) := by omega
  have h62 : c ≠ 62 := by omega
  have hr : ¬ (32 ≤ c ∧ c ≤ 127) := by omega
  cases st
  · have := hcl rfl
    subst this
    show case_Init c tok [] = _
    unfold case_Init
    rw [if_neg hc10, if_neg h34, if_neg h39, if_neg hop, if_neg h32, if_neg hr]
  · show case_Blank c tok tl = _
    unfold case_Blank free_tok_list
    rw [if_neg hc10, if_neg h34, if_neg h39, if_neg hop, if_neg h32, if_neg hr]
  · show case_Letter c tok tl = _
    unfold case_Letter free_tok_list
    rw [if_neg hc10, if_neg h34, if_neg h39, if_neg hop, if_neg h32, if_neg hr]
  · show case_Redirect p c n tok tl = _
    unfold case_Redirect free_tok_list
    rw [if_neg h34, if_neg h39, if_neg hc10, if_neg hop2, if_neg h62, if_neg h32, if_neg hr]
  · exact absurd rfl hs1
  · exact absurd rfl hs2

/-- Outside quotes, after any quote-free stretch without line terminator, a
character outside 32..127 ends the scan in failure with the list empty. -/
theorem loop_unquoted_nonprintable (c : Nat) (hc : c < 32 ∨ 127 < c) (hc10 : c ≠ 10)
    (post : List Nat) : ∀ (pre : List Nat), (∀ x ∈ pre, x ≠ 34 ∧ x ≠ 39 ∧ x ≠ 10) →
    ∀ (st : Token_Sys_State) (p : Nat) (tok : List Nat) (tl : List tok_node),
    st ≠ Single_Quote_State → st ≠ Double_Quote_State → (st = Init_State → tl = []) →
    ∃ d, loop st p (pre ++ c :: post) tok tl = ⟨[], some d⟩ := by
  intro pre
  induction pre with
  | nil =>
    intro _ st p tok tl hs1 hs2 hcl
    refine ⟨.unrecognized c, ?_⟩
    rw [List.nil_append, loop, body_nonprintable st p c _ tok tl hs1 hs2 hcl hc hc10]
  | cons x pre ih =>
    intro hpre st p tok tl hs1 hs2 hcl
    obtain ⟨h34, h39, h10⟩ := hpre x (List.mem_cons_self _ _)
    have hpre1 : ∀ y ∈ pre, y ≠ 34 ∧ y ≠ 39 ∧ y ≠ 10 :=
      fun y hy => hpre y (List.mem_cons_of_mem _ hy)
    rw [List.cons_append, loop]
    cases hb : body st p x ((pre ++ c :: post).headD 0) tok tl with
    | stop tl1 e =>
      obtain ⟨h1, d, h2⟩ := body_stop_fail st p x _ tok tl tl1 e hb hcl h10
      subst h1 h2
      exact ⟨d, rfl⟩
    | cont st1 tok1 tl1 skip =>
      obtain ⟨hq1, hq2, hsk⟩ := body_unquoted st st1 p x _ tok tok1 tl tl1 skip hb hs1 hs2 h34 h39
      have hcl1 := body_clean st st1 p x _ tok tok1 tl tl1 skip hb hcl
      subst hsk
      exact ih hpre1 st1 x tok1 tl1 hq1 hq2 hcl1

/-- C10. On a line without quote characters and with a single terminator, a
character with code below 32 or above 127 makes `tokenize` fail with the list
empty, whatever was flushed before it; and a word of characters 33..127 that
are neither quotes nor operator characters is accepted as one word token. -/
theorem tokenize_nonprintable (pre post : List Nat) (c : Nat)
    (hpre : ∀ x ∈ pre, x ≠ 34 ∧ x ≠ 39 ∧ x ≠ 10)
    (hc : c < 32 ∨ 127 < c) (hc10 : c ≠ 10) :
    (∃ d, tokenize [] (pre ++ c :: post ++ [10]) = some ⟨[], some d⟩)
      ∧ (∀ w : List Nat, w ≠ [] → (∀ x ∈ w, plainChar x) →
          tokenize [] (w ++ [10]) = some ⟨[⟨w, false⟩], none⟩) := by
  constructor
  · rw [tokenize_nl, List.append_assoc, List.cons_append]
    obtain ⟨d, hd⟩ := loop_unquoted_nonprintable c hc hc10 (post ++ [10]) pre hpre
      Init_State 0 [] [] (by decide) (by decide) (fun _ => rfl)
    exact ⟨d, by rw [hd]⟩
  · intro w hw hp
    obtain ⟨a, w1, rfl⟩ := List.exists_cons_of_ne_nil hw
    have ha := hp a (List.mem_cons_self _ _)
    have hw1 : ∀ x ∈ w1, plainChar x := fun d hd => hp d (List.mem_cons_of_mem _ hd)
    rw [tokenize_nl, loop_Init_word a w1 ha hw1 0 a, loop_Letter_end,
      save_string_clean _ _ _ (fun x hx => plainChar_ne_zero (hp x hx))]
    rfl

theorem tokenize_nonprintable_witness :
    (∃ d, tokenize [] (bytes "ls -l" ++ 9 :: bytes "x | y" ++ [10]) = some ⟨[], some d⟩)
      ∧ tokenize [] (bytes "a~\\^\x7f" ++ [10]) = some ⟨[⟨bytes "a~\\^\x7f", false⟩], none⟩ :=
  ⟨(tokenize_nonprintable (bytes "ls -l") (bytes "x | y") 9 (by decide) (by decide)
      (by decide)).1,
    (tokenize_nonprintable (bytes "ls -l") (bytes "x | y") 9 (by decide) (by decide)
      (by decide)).2 (bytes "a~\\^\x7f") (by decide) (by decide)⟩

theorem body_quote_nl (q : Nat) (hq : q = 39 ∨ q = 34) (p n : Nat) (tok : List Nat)
    (tl : List tok_node) :
    ∃ d, body (quoteState q) p 10 n tok tl = .stop [] (some d) := by
  rcases hq with rfl | rfl
  · exact ⟨.single_quote_never_closed, by simp [quoteState, body, case_Single_Quote, free_tok_list]⟩
  · exact ⟨.double_quote_never_closed, by simp [quoteState, body, case_Double_Quote, free_tok_list]⟩

/-- In a quote state, literal characters up to the line terminator: the quote
is never closed. -/
theorem loop_quote_lit_end (q : Nat) (hq : q = 39 ∨ q = 34) (w : List Nat)
    (hw : ∀ c ∈ w, litChar q c) (p : Nat) (tok : List Nat) (tl : List tok_node) :
    ∃ d, loop (quoteState q) p (w ++ [10]) tok tl = ⟨[], some d⟩ := by
  obtain ⟨d, hd⟩ := body_quote_nl q hq p 0 (tok ++ w) tl
  refine ⟨d, ?_⟩
  rw [loop_quote_lit q hq w hw p p, loop]
  simp only [List.headD_nil]
  rw [hd]

/-- In `Redirect_State`, blanks up to the line terminator: the line ends on a
redirect. -/
theorem loop_Redirect_blanks_end (b : List Nat) (hb : ∀ c ∈ b, c = 32) (p : Nat)
    (tok : List Nat) (tl : List tok_node) :
    loop Redirect_State p (b ++ [10]) tok tl = ⟨[], some .redirect_at_end⟩ := by
  rw [loop_Redirect_blanks b hb, loop]
  simp [body, case_Redirect, free_tok_list]

theorem blanks_lit (q : Nat) (hq : q = 39 ∨ q = 34) (b : List Nat) (hb : ∀ c ∈ b, c = 32) :
    ∀ c ∈ b, litChar q c := by
  intro c hc
  have := hb c hc
  subst this
  rcases hq with rfl | rfl <;> decide

theorem isOp_lit (q : Nat) (hq : q = 39 ∨ q = 34) (op : Nat) (hop : isOp op) :
    litChar q op := by
  have h : op = 60 ∨ op = 62 ∨ op = 124 := hop
  rcases hq with rfl | rfl <;> rcases h with rfl | rfl | rfl <;> decide

theorem quote_cases (st : Token_Sys_State) :
    (st ≠ Single_Quote_State ∧ st ≠ Double_Quote_State)
      ∨ st = quoteState 39 ∨ st = quoteState 34 := by
  cases st <;> simp [quoteState]

/-- An operator character, blanks and the line terminator end the scan in
failure with the list empty, whatever the state. -/
theorem loop_op_blanks_end (st : Token_Sys_State) (p op : Nat) (hop : isOp op)
    (b : List Nat) (hb : ∀ c ∈ b, c = 32) (tok : List Nat) (tl : List tok_node)
    (hcl : st = Init_State → tl = []) :
    ∃ d, loop st p (op :: (b ++ [10])) tok tl = ⟨[], some d⟩ := by
  have hop1 : op = 60 ∨ op = 62 ∨ op = 124 := hop
  have h10 : op ≠ 10 := by omega
  have h34 : op ≠ 34 := by omega
  have h39 : op ≠ 39 := by omega
  rcases quote_cases st with ⟨hs1, hs2⟩ | rfl | rfl
  · cases st with
    | Init_State =>
      have := hcl rfl
      subst this
      exact ⟨.need_input, by rw [loop]; simp [body, case_Init, h10, h34, h39, hop1]⟩
    | Blank_State =>
      refine ⟨.redirect_at_end, ?_⟩
      have e : loop Blank_State p (op :: (b ++ [10])) tok tl
          = loop Redirect_State op (b ++ [10]) (tok ++ [op]) tl := by
        rw [loop]; simp [body, case_Blank, h10, h34, h39, hop1]
      rw [e, loop_Redirect_blanks_end b hb]
    | Letter_State =>
      refine ⟨.redirect_at_end, ?_⟩
      have e := loop_Letter_blanks_op [] (by simp) op hop p (b ++ [10]) tok tl
      rw [List.nil_append] at e
      rw [e, loop_Redirect_blanks_end b hb]
    | Redirect_State =>
      rcases hop1 with rfl | rfl | rfl
      · exact ⟨.not_valid_after 60, by rw [loop]; simp [body, case_Redirect, free_tok_list]⟩
      · by_cases hp : p = 62
        · by_cases hn : (b ++ [10]).headD 0 = 62
          · exact ⟨.too_many_redirects, by
              rw [loop, body_Redirect_gt, if_pos hp, if_pos hn]⟩
          · refine ⟨.redirect_at_end, ?_⟩
            rw [loop, body_Redirect_gt, if_pos hp, if_neg hn]
            simp only []
            rw [loop_Redirect_blanks_end b hb]
        · exact ⟨.spaces_between, by rw [loop, body_Redirect_gt, if_neg hp]⟩
      · exact ⟨.not_valid_after 124, by rw [loop]; simp [body, case_Redirect, free_tok_list]⟩
    | Single_Quote_State => exact absurd rfl hs1
    | Double_Quote_State => exact absurd rfl hs2
  · have hl : ∀ c ∈ op :: b, litChar 39 c := by
      intro c hc
      rcases List.mem_cons.mp hc with rfl | hc
      · exact isOp_lit 39 (Or.inl rfl) _ hop
      · exact blanks_lit 39 (Or.inl rfl) b hb c hc
    exact loop_quote_lit_end 39 (Or.inl rfl) (op :: b) hl p tok tl
  · have hl : ∀ c ∈ op :: b, litChar 34 c := by
      intro c hc
      rcases List.mem_cons.mp hc with rfl | hc
      · exact isOp_lit 34 (Or.inr rfl) _ hop
      · exact blanks_lit 34 (Or.inr rfl) b hb c hc
    exact loop_quote_lit_end 34 (Or.inr rfl) (op :: b) hl p tok tl

/-- C11. A line with a single terminator whose last character before the
terminator, trailing blanks apart, is `<`, `>` or `|` makes `tokenize` fail
with the list empty. -/
theorem tokenize_ends_on_operator (pre b : List Nat) (op : Nat)
    (hpre : 10 ∉ pre) (hop : isOp op) (hb : ∀ c ∈ b, c = 32) :
    ∃ d, tokenize [] (pre ++ op :: b ++ [10]) = some ⟨[], some d⟩ := by
  rw [tokenize_nl]
  have e : pre ++ op :: b ++ [10] = pre ++ op :: (b ++ [10]) := by simp
  rw [e]
  rcases scan_prefix (op :: (b ++ [10])) pre.length pre
      (Config.start [] (pre ++ op :: (b ++ [10]))) (Nat.le_refl _) rfl hpre (fun _ => rfl) with
    ⟨d, hd⟩ | ⟨m, c1, _, hc, hcl, hr⟩ | ⟨m, c1, x, _, hc, hr, hq⟩
  · exact ⟨d, by rw [← hd]; rfl⟩
  · have hrun := configAfter_run _ _ _ hc
    obtain ⟨d, hd⟩ := loop_op_blanks_end c1.State c1.prev op hop b hb c1.tok c1.tlist hcl
    refine ⟨d, ?_⟩
    have : (Config.start [] (pre ++ op :: (b ++ [10]))).run = ⟨[], some d⟩ := by
      rw [hrun, Config.run, hr, hd]
    rw [← this]; rfl
  · have hrun := configAfter_run _ _ _ hc
    have hfin : ∃ d, c1.run = ⟨[], some d⟩ := by
      rw [Config.run, hr]
      rcases hq with ⟨hs, h1 | h1⟩ | ⟨hs, h1 | h1⟩
      · refine ⟨.redirect_at_end, ?_⟩
        rw [loop_close_quote_op c1.State x (Or.inl ⟨hs, h1⟩) op hop,
          loop_Redirect_blanks_end b hb]
      · subst h1
        have hs1 : c1.State = quoteState 39 := hs
        rw [hs1, loop_quote_escape 39 (Or.inl rfl)]
        exact loop_quote_lit_end 39 (Or.inl rfl) b (blanks_lit 39 (Or.inl rfl) b hb) _ _ _
      · refine ⟨.redirect_at_end, ?_⟩
        rw [loop_close_quote_op c1.State x (Or.inr ⟨hs, h1⟩) op hop,
          loop_Redirect_blanks_end b hb]
      · subst h1
        have hs1 : c1.State = quoteState 34 := hs
        rw [hs1, loop_quote_escape 34 (Or.inr rfl)]
        exact loop_quote_lit_end 34 (Or.inr rfl) b (blanks_lit 34 (Or.inr rfl) b hb) _ _ _
    obtain ⟨d, hd⟩ := hfin
    refine ⟨d, ?_⟩
    have : (Config.start [] (pre ++ op :: (b ++ [10]))).run = ⟨[], some d⟩ := by
      rw [hrun, hd]
    rw [← this]; rfl

theorem tokenize_ends_on_operator_witness :
    (∃ d, tokenize [] (bytes "ls " ++ 124 :: bytes "  " ++ [10]) = some ⟨[], some d⟩)
      ∧ (∃ d, tokenize [] (bytes "echo 'a" ++ 62 :: [] ++ [10]) = some ⟨[], some d⟩) :=
  ⟨tokenize_ends_on_operator (bytes "ls ") (bytes "  ") 124 (by decide) (by decide) (by decide),
   tokenize_ends_on_operator (bytes "echo 'a") [] 62 (by decide) (by decide) (by decide)⟩

/-- What an iteration that goes on does to the configuration. -/
theorem advance_some (c c1 : Config) (h : advance c = some c1) :
    ∃ ch rest skip, c.rest = ch :: rest
      ∧ body c.State c.prev ch (rest.headD 0) c.tok c.tlist
          = .cont c1.State c1.tok c1.tlist skip
      ∧ ((skip = false ∧ c1.prev = ch ∧ c1.rest = rest)
          ∨ (skip = true ∧ rest = c1.prev :: c1.rest)) := by
  obtain ⟨st, p, r, tok, tl⟩ := c
  cases r with
  | nil => simp [advance] at h
  | cons ch rest =>
    simp only [advance] at h
    cases hb : body st p ch (rest.headD 0) tok tl with
    | stop tl1 e => rw [hb] at h; simp at h
    | cont st1 tok1 tl1 skip =>
      rw [hb] at h
      cases skip with
      | false =>
        simp only [Option.some.injEq] at h
        subst h
        exact ⟨ch, rest, false, rfl, hb, Or.inl ⟨rfl, rfl, rfl⟩⟩
      | true =>
        cases rest with
        | nil => simp at h
        | cons nx rest1 =>
          simp only [Option.some.injEq] at h
          subst h
          exact ⟨ch, nx :: rest1, true, rfl, hb, Or.inr ⟨rfl, rfl⟩⟩

/-- How the loop ends: no input left, a return of the body, or a lookahead
that used up the last character. -/
theorem advance_none (c : Config) (h : advance c = none) :
    (c.rest = [] ∧ c.run = ⟨c.tlist, none⟩)
      ∨ (∃ ch rest tl e, c.rest = ch :: rest
          ∧ body c.State c.prev ch (rest.headD 0) c.tok c.tlist = .stop tl e
          ∧ c.run = ⟨tl, e⟩)
      ∨ (∃ ch st tok tl, c.rest = [ch]
          ∧ body c.State c.prev ch 0 c.tok c.tlist = .cont st tok tl true
          ∧ c.run = ⟨tl, none⟩) := by
  obtain ⟨st, p, r, tok, tl⟩ := c
  cases r with
  | nil => exact Or.inl ⟨rfl, by simp [Config.run, loop]⟩
  | cons ch rest =>
    simp only [advance] at h
    cases hb : body st p ch (rest.headD 0) tok tl with
    | stop tl1 e =>
      exact Or.inr (Or.inl ⟨ch, rest, tl1, e, rfl, hb, by simp only [Config.run, loop, hb]⟩)
    | cont st1 tok1 tl1 skip =>
      rw [hb] at h
      cases skip with
      | false => simp at h
      | true =>
        cases rest with
        | nil =>
          exact Or.inr (Or.inr ⟨ch, st1, tok1, tl1, rfl, by simpa using hb,
            by simp only [Config.run, loop, hb]⟩)
        | cons nx rest1 => simp at h

theorem advance_rest_lt (c c1 : Config) (h : advance c = some c1) :
    c1.rest.length < c.rest.length := by
  obtain ⟨ch, rest, skip, hr, _, h1 | h1⟩ := advance_some c c1 h
  · rw [hr, h1.2.2]; simp
  · rw [hr, h1.2]; simp; omega

/-- Induction along the loop: a property of configurations kept by every
iteration that goes on, and giving `P` of the result where the loop ends,
gives `P` of the result from every configuration that has it. -/
theorem run_induction (I : Config → Prop) (P : Result → Prop)
    (hstep : ∀ c c1, I c → advance c = some c1 → I c1)
    (hstop : ∀ c, I c → advance c = none → P c.run) :
    ∀ c, I c → P c.run := by
  have key : ∀ n (c : Config), c.rest.length ≤ n → I c → P c.run := by
    intro n
    induction n with
    | zero =>
      intro c hn hi
      cases ha : advance c with
      | none => exact hstop c hi ha
      | some c1 => have := advance_rest_lt c c1 ha; omega
    | succ n ih =>
      intro c hn hi
      cases ha : advance c with
      | none => exact hstop c hi ha
      | some c1 =>
        have hlt := advance_rest_lt c c1 ha
        rw [advance_run c c1 ha]
        exact ih c1 (by omega) (hstep c c1 hi ha)
  intro c hi
  exact key c.rest.length c (Nat.le_refl _) hi

/-- A return of the body with a message leaves the list empty. -/
theorem body_stop_diag (st : Token_Sys_State) (p x n : Nat) (tok : List Nat)
    (tl tl1 : List tok_node) (d : Diag)
    (h : body st p x n tok tl = .stop tl1 (some d)) (hcl : st = Init_State → tl = []) :
    tl1 = [] := by
  by_cases hx : x = 10
  · subst hx
    cases st
    · have := hcl rfl
      subst this
      change case_Init 10 tok [] = _ at h
      unfold case_Init at h
      rw [if_pos rfl] at h
      cases h
    · change case_Blank 10 tok tl = _ at h
      unfold case_Blank at h
      rw [if_pos rfl] at h
      cases h
    · change case_Letter 10 tok tl = _ at h
      unfold case_Letter at h
      rw [if_pos rfl] at h
      cases h
    · change case_Redirect p 10 n tok tl = _ at h
      unfold case_Redirect free_tok_list at h
      simp at h
      exact h.1
    · change case_Single_Quote 10 n tok tl = _ at h
      unfold case_Single_Quote free_tok_list at h
      simp at h
      exact h.1
    · change case_Double_Quote 10 n tok tl = _ at h
      unfold case_Double_Quote free_tok_list at h
      simp at h
      exact h.1
  · exact (body_stop_fail st p x n tok tl tl1 (some d) h hcl hx).1

theorem advance_clean (c c1 : Config) (hi : c.clean) (h : advance c = some c1) : c1.clean := by
  obtain ⟨ch, rest, skip, _, hb, _⟩ := advance_some c c1 h
  exact body_clean c.State c1.State c.prev ch _ c.tok c1.tok c.tlist c1.tlist skip hb hi

/-- C12. Started on the empty list, whenever `tokenize` prints a message the
list it leaves behind is empty. -/
theorem tokenize_failure_atomic (input : List Nat) (r : Result) (d : Diag)
    (h : tokenize [] input = some r) (hd : r.err = some d) : r.tlist = [] := by
  unfold tokenize at h
  cases hl : input.getLast? with
  | none => rw [hl] at h; simp at h
  | some c =>
    rw [hl] at h
    simp only at h
    split_ifs at h with hc
    · simp only [Option.some.injEq] at h
      subst h
      rfl
    · simp only [Option.some.injEq] at h
      subst h
      have key := run_induction Config.clean (fun r => ∀ d, r.err = some d → r.tlist = [])
        advance_clean
        (by
          intro c hi ha d hd
          rcases advance_none c ha with ⟨_, hr⟩ | ⟨ch, rest, tl, e, _, hb, hr⟩
            | ⟨ch, st, tok, tl, _, _, hr⟩
          · rw [hr] at hd; simp at hd
          · rw [hr] at hd ⊢
            simp only at hd
            subst hd
            exact body_stop_diag c.State c.prev ch _ c.tok c.tlist tl d hb hi
          · rw [hr] at hd; simp at hd)
        (Config.start [] input) (fun _ => rfl)
      exact key d hd

theorem tokenize_failure_atomic_witness :
    tokenize [] (bytes "ls -l\t| wc\n") = some ⟨[], some (.unrecognized 9)⟩
      ∧ (⟨[], some (Diag.unrecognized 9)⟩ : Result).tlist = [] :=
  ⟨by decide,
   tokenize_failure_atomic (bytes "ls -l\t| wc\n") ⟨[], some (.unrecognized 9)⟩
    (.unrecognized 9) (by decide) rfl⟩

/-- The list after an iteration that goes on: unchanged, or with the buffer
flushed as a word, or (from `Redirect_State` only) as an operator. -/
theorem body_cont_tlist (st st1 : Token_Sys_State) (p ch n : Nat) (tok tok1 : List Nat)
    (tl tl1 : List tok_node) (skip : Bool)
    (hb : body st p ch n tok tl = .cont st1 tok1 tl1 skip) :
    tl1 = tl ∨ tl1 = save_string tok tl false
      ∨ (st = Redirect_State ∧ tl1 = save_string tok tl true) := by
  cases st
  · change case_Init ch tok tl = _ at hb
    unfold case_Init at hb
    split_ifs at hb <;> cases hb <;> first | exact Or.inl rfl | exact Or.inr (Or.inl rfl) | exact Or.inr (Or.inr ⟨rfl, rfl⟩)
  · change case_Blank ch tok tl = _ at hb
    unfold case_Blank at hb
    split_ifs at hb <;> cases hb <;> first | exact Or.inl rfl | exact Or.inr (Or.inl rfl) | exact Or.inr (Or.inr ⟨rfl, rfl⟩)
  · change case_Letter ch tok tl = _ at hb
    unfold case_Letter at hb
    split_ifs at hb <;> cases hb <;> first | exact Or.inl rfl | exact Or.inr (Or.inl rfl) | exact Or.inr (Or.inr ⟨rfl, rfl⟩)
  · change case_Redirect p ch n tok tl = _ at hb
    unfold case_Redirect at hb
    split_ifs at hb <;> cases hb <;> first | exact Or.inl rfl | exact Or.inr (Or.inl rfl) | exact Or.inr (Or.inr ⟨rfl, rfl⟩)
  · change case_Single_Quote ch n tok tl = _ at hb
    unfold case_Single_Quote at hb
    by_cases h1 : ch = 39
    · rw [if_pos h1] at hb
      split_ifs at hb <;> cases hb <;> first | exact Or.inl rfl | exact Or.inr (Or.inl rfl) | exact Or.inr (Or.inr ⟨rfl, rfl⟩)
    · rw [if_neg h1] at hb
      by_cases h2 : ch = 10
      · rw [if_pos h2] at hb
        cases hb
      · rw [if_neg h2] at hb
        by_cases h3 : ch = 92
        · rw [if_pos h3] at hb
          split_ifs at hb <;> cases hb <;> first | exact Or.inl rfl | exact Or.inr (Or.inl rfl) | exact Or.inr (Or.inr ⟨rfl, rfl⟩)
        · rw [if_neg h3] at hb
          cases hb <;> first | exact Or.inl rfl | exact Or.inr (Or.inl rfl) | exact Or.inr (Or.inr ⟨rfl, rfl⟩)
  · change case_Double_Quote ch n tok tl = _ at hb
    unfold case_Double_Quote at hb
    by_cases h1 : ch = 34
    · rw [if_pos h1] at hb
      split_ifs at hb <;> cases hb <;> first | exact Or.inl rfl | exact Or.inr (Or.inl rfl) | exact Or.inr (Or.inr ⟨rfl, rfl⟩)
    · rw [if_neg h1] at hb
      by_cases h2 : ch = 10
      · rw [if_pos h2] at hb
        cases hb
      · rw [if_neg h2] at hb
        by_cases h3 : ch = 92
        · rw [if_pos h3] at hb
          split_ifs at hb <;> cases hb <;> first | exact Or.inl rfl | exact Or.inr (Or.inl rfl) | exact Or.inr (Or.inr ⟨rfl, rfl⟩)
        · rw [if_neg h3] at hb
          cases hb <;> first | exact Or.inl rfl | exact Or.inr (Or.inl rfl) | exact Or.inr (Or.inr ⟨rfl, rfl⟩)

/-- The list after a return of the body: unchanged or empty. -/
theorem body_stop_tlist (st : Token_Sys_State) (p ch n : Nat) (tok : List Nat)
    (tl tl1 : List tok_node) (e : Option Diag)
    (hb : body st p ch n tok tl = .stop tl1 e) : tl1 = tl ∨ tl1 = [] := by
  cases st
  · change case_Init ch tok tl = _ at hb
    unfold case_Init at hb
    split_ifs at hb <;> cases hb <;> exact Or.inl rfl
  · change case_Blank ch tok tl = _ at hb
    unfold case_Blank at hb
    split_ifs at hb <;> cases hb <;> exact Or.inr rfl
  · change case_Letter ch tok tl = _ at hb
    unfold case_Letter at hb
    split_ifs at hb <;> cases hb <;> exact Or.inr rfl
  · change case_Redirect p ch n tok tl = _ at hb
    unfold case_Redirect at hb
    split_ifs at hb <;> cases hb <;> exact Or.inr rfl
  · change case_Single_Quote ch n tok tl = _ at hb
    unfold case_Single_Quote at hb
    by_cases h1 : ch = 39
    · rw [if_pos h1] at hb
      split_ifs at hb <;> cases hb <;> exact Or.inr rfl
    · rw [if_neg h1] at hb
      by_cases h2 : ch = 10
      · rw [if_pos h2] at hb
        cases hb; exact Or.inr rfl
      · rw [if_neg h2] at hb
        by_cases h3 : ch = 92
        · rw [if_pos h3] at hb
          split_ifs at hb <;> cases hb
        · rw [if_neg h3] at hb
          cases hb
  · change case_Double_Quote ch n tok tl = _ at hb
    unfold case_Double_Quote at hb
    by_cases h1 : ch = 34
    · rw [if_pos h1] at hb
      split_ifs at hb <;> cases hb <;> exact Or.inr rfl
    · rw [if_neg h1] at hb
      by_cases h2 : ch = 10
      · rw [if_pos h2] at hb
        cases hb; exact Or.inr rfl
      · rw [if_neg h2] at hb
        by_cases h3 : ch = 92
        · rw [if_pos h3] at hb
          split_ifs at hb <;> cases hb
        · rw [if_neg h3] at hb
          cases hb

/-- The buffer is empty whenever `Blank_State` is entered or kept. -/
theorem body_cont_Blank (st : Token_Sys_State) (p ch n : Nat) (tok tok1 : List Nat)
    (tl tl1 : List tok_node) (skip : Bool)
    (hb : body st p ch n tok tl = .cont Blank_State tok1 tl1 skip)
    (h : st = Blank_State → tok = []) : tok1 = [] := by
  cases st
  · change case_Init ch tok tl = _ at hb
    unfold case_Init at hb
    split_ifs at hb <;> cases hb <;> first | rfl | exact h rfl
  · change case_Blank ch tok tl = _ at hb
    unfold case_Blank at hb
    split_ifs at hb <;> cases hb <;> first | rfl | exact h rfl
  · change case_Letter ch tok tl = _ at hb
    unfold case_Letter at hb
    split_ifs at hb <;> cases hb <;> first | rfl | exact h rfl
  · change case_Redirect p ch n tok tl = _ at hb
    unfold case_Redirect at hb
    split_ifs at hb <;> cases hb <;> first | rfl | exact h rfl
  · change case_Single_Quote ch n tok tl = _ at hb
    unfold case_Single_Quote at hb
    by_cases h1 : ch = 39
    · rw [if_pos h1] at hb
      split_ifs at hb <;> cases hb <;> first | rfl | exact h rfl
    · rw [if_neg h1] at hb
      by_cases h2 : ch = 10
      · rw [if_pos h2] at hb
        cases hb
      · rw [if_neg h2] at hb
        by_cases h3 : ch = 92
        · rw [if_pos h3] at hb
          split_ifs at hb <;> cases hb <;> first | rfl | exact h rfl
        · rw [if_neg h3] at hb
          cases hb <;> first | rfl | exact h rfl
  · change case_Double_Quote ch n tok tl = _ at hb
    unfold case_Double_Quote at hb
    by_cases h1 : ch = 34
    · rw [if_pos h1] at hb
      split_ifs at hb <;> cases hb <;> first | rfl | exact h rfl
    · rw [if_neg h1] at hb
      by_cases h2 : ch = 10
      · rw [if_pos h2] at hb
        cases hb
      · rw [if_neg h2] at hb
        by_cases h3 : ch = 92
        · rw [if_pos h3] at hb
          split_ifs at hb <;> cases hb <;> first | rfl | exact h rfl
        · rw [if_neg h3] at hb
          cases hb <;> first | rfl | exact h rfl

/-- The buffer whenever `Redirect_State` is entered or kept. -/
theorem body_cont_Redirect (st : Token_Sys_State) (p ch n : Nat) (tok tok1 : List Nat)
    (tl tl1 : List tok_node) (skip : Bool)
    (hb : body st p ch n tok tl = .cont Redirect_State tok1 tl1 skip)
    (h2 : st = Blank_State → tok = [])
    (h3 : st = Redirect_State → isOperatorText tok ∧ (p = 62 → tok = [62] ∨ ch ≠ 62)) :
    (skip = true → tok1 = [n] ∧ isOp n)
      ∧ (skip = false → (tok1 = [ch] ∧ isOp ch)
          ∨ (ch = 32 ∧ tok1 = tok ∧ isOperatorText tok)
          ∨ (ch = 62 ∧ tok1 = [62, 62] ∧ n ≠ 62)) := by
  cases st
  · change case_Init ch tok tl = _ at hb
    unfold case_Init at hb
    split_ifs at hb <;> cases hb
  · change case_Blank ch tok tl = _ at hb
    unfold case_Blank at hb
    have ht := h2 rfl
    subst ht
    split_ifs at hb with _ _ _ hop <;> cases hb
    exact ⟨fun h => (by cases h), fun _ => Or.inl ⟨rfl, hop⟩⟩
  · change case_Letter ch tok tl = _ at hb
    unfold case_Letter at hb
    split_ifs at hb with _ _ _ hop <;> cases hb
    exact ⟨fun h => (by cases h), fun _ => Or.inl ⟨rfl, hop⟩⟩
  · change case_Redirect p ch n tok tl = _ at hb
    unfold case_Redirect at hb
    obtain ⟨ho, hp⟩ := h3 rfl
    split_ifs at hb with _ _ _ _ h62 hp62 hn h32 <;> cases hb
    · refine ⟨fun h => (by cases h), fun _ => Or.inr (Or.inr ⟨h62, ?_, hn⟩)⟩
      rcases hp hp62 with ht | ht
      · rw [ht, h62]; rfl
      · exact absurd h62 ht
    · exact ⟨fun h => (by cases h), fun _ => Or.inr (Or.inl ⟨h32, rfl, ho⟩)⟩
  · change case_Single_Quote ch n tok tl = _ at hb
    unfold case_Single_Quote at hb
    by_cases h1 : ch = 39
    · rw [if_pos h1] at hb
      split_ifs at hb with _ _ hop <;> cases hb
      exact ⟨fun _ => ⟨rfl, hop⟩, fun h => (by cases h)⟩
    · rw [if_neg h1] at hb
      by_cases h2 : ch = 10
      · rw [if_pos h2] at hb
        cases hb
      · rw [if_neg h2] at hb
        by_cases h3 : ch = 92
        · rw [if_pos h3] at hb
          split_ifs at hb <;> cases hb
        · rw [if_neg h3] at hb
          cases hb
  · change case_Double_Quote ch n tok tl = _ at hb
    unfold case_Double_Quote at hb
    by_cases h1 : ch = 34
    · rw [if_pos h1] at hb
      split_ifs at hb with _ _ hop <;> cases hb
      exact ⟨fun _ => ⟨rfl, hop⟩, fun h => (by cases h)⟩
    · rw [if_neg h1] at hb
      by_cases h2 : ch = 10
      · rw [if_pos h2] at hb
        cases hb
      · rw [if_neg h2] at hb
        by_cases h3 : ch = 92
        · rw [if_pos h3] at hb
          split_ifs at hb <;> cases hb
        · rw [if_neg h3] at hb
          cases hb

theorem isOperatorText_of_isOp (c : Nat) (h : isOp c) : isOperatorText [c] := by
  have h1 : c = 60 ∨ c = 62 ∨ c = 124 := h
  unfold isOperatorText
  rcases h1 with rfl | rfl | rfl <;> decide

theorem specials_after_body (st st1 : Token_Sys_State) (p ch n : Nat) (tok tok1 : List Nat)
    (tl tl1 : List tok_node) (skip : Bool)
    (hb : body st p ch n tok tl = .cont st1 tok1 tl1 skip)
    (h1 : ∀ t ∈ tl, t.special = true → isOperatorText t.token)
    (h3 : st = Redirect_State → isOperatorText tok) :
    ∀ t ∈ tl1, t.special = true → isOperatorText t.token := by
  rcases body_cont_tlist st st1 p ch n tok tok1 tl tl1 skip hb with h | h | ⟨hs, h⟩
  · rw [h]; exact h1
  · rw [h]
    intro t ht hsp
    simp only [save_string, List.mem_append, List.mem_singleton] at ht
    rcases ht with ht | ht
    · exact h1 t ht hsp
    · rw [ht] at hsp; cases hsp
  · rw [h]
    have ho := h3 hs
    have hz : ∀ c ∈ tok, c ≠ 0 := by
      unfold isOperatorText at ho
      rcases ho with rfl | rfl | rfl | rfl <;> decide
    rw [save_string_clean tok tl true hz]
    intro t ht hsp
    simp only [List.mem_append, List.mem_singleton] at ht
    rcases ht with ht | ht
    · exact h1 t ht hsp
    · rw [ht]; exact ho

theorem advance_opInv (c c1 : Config) (hi : c.opInv) (h : advance c = some c1) :
    c1.opInv := by
  obtain ⟨i1, i2, i3⟩ := hi
  obtain ⟨ch, rest, skip, hr, hb, hnext⟩ := advance_some c c1 h
  refine ⟨?_, ?_, ?_⟩
  · exact specials_after_body _ _ _ _ _ _ _ _ _ _ hb i1 (fun hs => (i3 hs).1)
  · intro hs
    rw [hs] at hb
    exact body_cont_Blank _ _ _ _ _ _ _ _ _ hb i2
  · intro hs
    rw [hs] at hb
    have h3 : c.State = Redirect_State →
        isOperatorText c.tok ∧ (c.prev = 62 → c.tok = [62] ∨ ch ≠ 62) := by
      intro hst
      obtain ⟨ho, hp⟩ := i3 hst
      refine ⟨ho, fun hp62 => ?_⟩
      rcases hp hp62 with ht | ht
      · exact Or.inl ht
      · right; rw [hr] at ht; simpa using ht
    obtain ⟨ks, kn⟩ := body_cont_Redirect _ _ _ _ _ _ _ _ _ hb i2 h3
    rcases hnext with ⟨hsk, hp1, hr1⟩ | ⟨hsk, hr1⟩
    · rcases kn hsk with ⟨ht, hop⟩ | ⟨h32, ht, ho⟩ | ⟨h62, ht, hn⟩
      · rw [ht, hp1]
        exact ⟨isOperatorText_of_isOp ch hop, fun hc => Or.inl (by rw [hc])⟩
      · rw [ht, hp1, h32]
        exact ⟨ho, fun hc => by omega⟩
      · rw [ht, hr1]
        exact ⟨Or.inr (Or.inr (Or.inr rfl)), fun _ => Or.inr hn⟩
    · obtain ⟨ht, hop⟩ := ks hsk
      have hn : rest.headD 0 = c1.prev := by rw [hr1]; rfl
      rw [ht, hn]
      exact ⟨isOperatorText_of_isOp _ (by rw [← hn]; exact hop), fun hc => Or.inl (by rw [hc])⟩

/-- C13. Started on the empty list, every token `tokenize` leaves in the list
with the special flag set has the text `|`, `<`, `>` or `>>`. -/
theorem tokenize_special_tokens (input : List Nat) (r : Result)
    (h : tokenize [] input = some r) :
    ∀ t ∈ r.tlist, t.special = true → isOperatorText t.token := by
  unfold tokenize at h
  cases hl : input.getLast? with
  | none => rw [hl] at h; simp at h
  | some c =>
    rw [hl] at h
    simp only at h
    split_ifs at h with hc
    · simp only [Option.some.injEq] at h
      subst h
      intro t ht
      cases ht
    · simp only [Option.some.injEq] at h
      subst h
      exact run_induction Config.opInv
        (fun r => ∀ t ∈ r.tlist, t.special = true → isOperatorText t.token)
        advance_opInv
        (by
          intro c hi ha
          obtain ⟨i1, i2, i3⟩ := hi
          rcases advance_none c ha with ⟨_, hr⟩ | ⟨ch, rest, tl, e, _, hb, hr⟩
            | ⟨ch, st, tok, tl, _, hb, hr⟩
          · rw [hr]; exact i1
          · rw [hr]
            rcases body_stop_tlist _ _ _ _ _ _ _ _ hb with ht | ht
            · rw [ht]; exact i1
            · rw [ht]; intro t ht; cases ht
          · rw [hr]
            exact specials_after_body _ _ _ _ _ _ _ _ _ _ hb i1 (fun hs => (i3 hs).1))
        (Config.start [] input)
        ⟨fun t ht => (by cases ht), fun hs => (by cases hs), fun hs => (by cases hs)⟩

theorem tokenize_special_tokens_witness :
    tokenize [] (bytes "a>>'|'\n")
        = some ⟨[⟨bytes "a", false⟩, ⟨bytes ">>", true⟩, ⟨bytes "|", false⟩], none⟩
      ∧ isOperatorText (bytes ">>") :=
  ⟨by decide,
   tokenize_special_tokens (bytes "a>>'|'\n")
    ⟨[⟨bytes "a", false⟩, ⟨bytes ">>", true⟩, ⟨bytes "|", false⟩], none⟩ (by decide)
    ⟨bytes ">>", true⟩ (by decide) rfl⟩

theorem is_pipe_iff (t : tok_node) : is_pipe t ↔ t = pipeTok := by
  obtain ⟨tk, sp⟩ := t
  simp [is_pipe, pipeTok, and_comm]

theorem join_pipes_nil : join_pipes [] = [] := rfl

theorem join_pipes_single (s : List tok_node) : join_pipes [s] = s := by
  simp [join_pipes, List.intercalate, List.intersperse]

theorem join_pipes_cons_cons (s s2 : List tok_node) (ss : List (List tok_node)) :
    join_pipes (s :: s2 :: ss) = s ++ pipeTok :: join_pipes (s2 :: ss) := by
  simp [join_pipes, List.intercalate, List.intersperse]

theorem join_pipes_cons (s : List tok_node) (ss : List (List tok_node)) :
    ∃ after, join_pipes (s :: ss) = s ++ after ∧ PipeOrEnd after
      ∧ (ss = [] → after = [])
      ∧ (ss ≠ [] → after = pipeTok :: join_pipes ss) := by
  cases ss with
  | nil => exact ⟨[], by simp [join_pipes_single], Or.inl rfl, fun _ => rfl, fun h => absurd rfl h⟩
  | cons s2 ss =>
    exact ⟨pipeTok :: join_pipes (s2 :: ss), join_pipes_cons_cons s s2 ss,
      Or.inr ⟨_, rfl⟩, fun h => (by cases h), fun _ => rfl⟩

/-- The loop of `get_next_subsection` over a run of nodes without pipe,
followed by the end of the list or a pipe. -/
theorem get_next_subsection_loop_seg (seg after : List tok_node)
    (hseg : ∀ t ∈ seg, ¬ is_pipe t) (hafter : PipeOrEnd after) :
    ∀ (s : tok_node) (prev : List tok_node) (tail : Option (List tok_node)) (count : Nat),
    ¬ is_pipe s →
    get_next_subsection_loop (s :: seg ++ after) prev tail count
      = (some (seg.getLastD s :: after), count + (seg.length + 1)) := by
  induction seg with
  | nil =>
    intro s prev tail count hs
    rcases hafter with rfl | ⟨r, rfl⟩
    · simp [get_next_subsection_loop, hs]
    · have hp : is_pipe pipeTok := (is_pipe_iff _).2 rfl
      simp [get_next_subsection_loop, hs, hp]
  | cons t seg ih =>
    intro s prev tail count hs
    have ht := hseg t (List.mem_cons_self _ _)
    have hseg1 : ∀ u ∈ seg, ¬ is_pipe u := fun u hu => hseg u (List.mem_cons_of_mem _ hu)
    have e : s :: (t :: seg) ++ after = s :: (t :: seg ++ after) := rfl
    rw [e, get_next_subsection_loop, if_neg hs, ih hseg1 t _ _ _ ht]
    simp only [List.getLastD_cons, List.length_cons]
    congr 1
    omega

theorem get_next_subsection_seg (s : tok_node) (seg after : List tok_node)
    (hs : ¬ is_pipe s) (hseg : ∀ t ∈ seg, ¬ is_pipe t) (hafter : PipeOrEnd after) :
    get_next_subsection (s :: seg ++ after)
      = ⟨s :: seg ++ after, some (seg.getLastD s :: after), seg.length + 1⟩ := by
  have e := get_next_subsection_loop_seg seg after hseg hafter s [] none 0 hs
  unfold get_next_subsection
  rw [e]
  simp

theorem count_pipes_append (a b : List tok_node) :
    count_pipes (a ++ b) = count_pipes a + count_pipes b := by
  induction a with
  | nil => simp [count_pipes]
  | cons t a ih => simp [count_pipes, ih]; omega

theorem count_pipes_seg (seg : List tok_node) (hseg : ∀ t ∈ seg, ¬ is_pipe t) :
    count_pipes seg = 0 := by
  induction seg with
  | nil => rfl
  | cons t seg ih =>
    have ht := hseg t (List.mem_cons_self _ _)
    simp [count_pipes, ht, ih (fun u hu => hseg u (List.mem_cons_of_mem _ hu))]

theorem count_pipes_join (segs : List (List tok_node)) (h : Segments segs) :
    count_pipes (join_pipes segs) + 1 = segs.length ∨ segs = [] := by
  induction segs with
  | nil => exact Or.inr rfl
  | cons s ss ih =>
    left
    cases ss with
    | nil =>
      rw [join_pipes_single, count_pipes_seg s (h s (List.mem_cons_self _ _)).2]
      rfl
    | cons s2 ss =>
      have h1 : Segments (s2 :: ss) := fun u hu => h u (List.mem_cons_of_mem _ hu)
      rcases ih h1 with ih1 | ih1
      · rw [join_pipes_cons_cons, count_pipes_append,
          count_pipes_seg s (h s (List.mem_cons_self _ _)).2]
        have hp : is_pipe pipeTok := (is_pipe_iff _).2 rfl
        simp only [count_pipes, hp, if_true, List.length_cons] at ih1 ⊢
        omega
      · cases ih1

/-- The first loop of `execute` on a pipeline of subsections: one handler for
each subsection. -/
theorem execute_split_join (segs : List (List tok_node)) (h : Segments segs) :
    execute_split segs.length (join_pipes segs) = some (segment_handlers segs) := by
  induction segs with
  | nil => rfl
  | cons s ss ih =>
    obtain ⟨hne, hnp⟩ := h s (List.mem_cons_self _ _)
    have h1 : Segments ss := fun u hu => h u (List.mem_cons_of_mem _ hu)
    obtain ⟨a, seg, rfl⟩ := List.exists_cons_of_ne_nil hne
    have ha := hnp a (List.mem_cons_self _ _)
    have hseg : ∀ t ∈ seg, ¬ is_pipe t := fun u hu => hnp u (List.mem_cons_of_mem _ hu)
    obtain ⟨after, hj, hpe, hnil, hcons⟩ := join_pipes_cons (a :: seg) ss
    have hdrop : (join_pipes ((a :: seg) :: ss)).drop (seg.length + 1) = after := by
      rw [hj]
      have : seg.length + 1 = (a :: seg).length := rfl
      rw [this, List.drop_left]
    simp only [List.length_cons, execute_split, segment_handlers]
    rw [hdrop, hj, get_next_subsection_seg a seg after ha hseg hpe]
    simp only [List.getLastD_cons]
    cases ss with
    | nil =>
      rw [hnil rfl]
      simp [execute_split, segment_handlers]
    | cons s2 ss =>
      rw [hcons (by simp)]
      simp only []
      rw [ih h1]
      simp

theorem segment_handlers_length (segs : List (List tok_node)) :
    (segment_handlers segs).length = segs.length := by
  induction segs with
  | nil => rfl
  | cons s ss ih => simp [segment_handlers, ih]

theorem segment_handlers_nodes (segs : List (List tok_node)) :
    (segment_handlers segs).map ListHandler.nodes = segs := by
  induction segs with
  | nil => rfl
  | cons s ss ih =>
    obtain ⟨after, hj, _, _, _⟩ := join_pipes_cons s ss
    simp only [segment_handlers, List.map_cons, ih, ListHandler.nodes]
    rw [hj, List.take_left]

theorem segment_handlers_count (segs : List (List tok_node)) :
    (segment_handlers segs).map ListHandler.count = segs.map List.length := by
  induction segs with
  | nil => rfl
  | cons s ss ih => simp [segment_handlers, ih]

theorem join_pipes_length (segs : List (List tok_node)) (hne : segs ≠ []) :
    (segs.map List.length).sum + (segs.length - 1) = (join_pipes segs).length := by
  induction segs with
  | nil => exact absurd rfl hne
  | cons s ss ih =>
    cases ss with
    | nil => simp [join_pipes_single]
    | cons s2 ss =>
      have := ih (by simp)
      rw [join_pipes_cons_cons]
      simp only [List.map_cons, List.sum_cons, List.length_cons, List.length_append] at this ⊢
      omega

/-- A token list that does not begin or end with a pipe and has no two pipes
side by side is a pipeline of subsections. -/
theorem exists_segments (n : Nat) : ∀ (toks : List tok_node), toks.length ≤ n →
    toks ≠ [] → (∀ t, toks.head? = some t → ¬ is_pipe t) →
    (∀ t, toks.getLast? = some t → ¬ is_pipe t) →
    toks.Chain' (fun a b => ¬ (is_pipe a ∧ is_pipe b)) →
    ∃ segs, segs ≠ [] ∧ Segments segs ∧ join_pipes segs = toks := by
  induction n with
  | zero =>
    intro toks hlen hne
    exact absurd (List.length_eq_zero.mp (Nat.le_zero.mp hlen)) hne
  | succ n ih =>
    intro toks hlen hne hhead hlast hch
    cases toks with
    | nil => exact absurd rfl hne
    | cons t rest =>
      have ht : ¬ is_pipe t := hhead t rfl
      cases rest with
      | nil =>
        refine ⟨[[t]], by simp, ?_, join_pipes_single _⟩
        intro s hs
        simp only [List.mem_singleton] at hs
        subst hs
        exact ⟨by simp, fun u hu => by simp only [List.mem_singleton] at hu; rw [hu]; exact ht⟩
      | cons u rest1 =>
        have hch1 : (u :: rest1).Chain' (fun a b => ¬ (is_pipe a ∧ is_pipe b)) :=
          (List.chain'_cons.mp hch).2
        have hlast1 : ∀ x, (u :: rest1).getLast? = some x → ¬ is_pipe x := by
          intro x hx
          apply hlast x
          rw [List.getLast?_cons_cons]; exact hx
        by_cases hu : is_pipe u
        · cases rest1 with
          | nil => exact absurd hu (hlast1 u rfl)
          | cons v rest2 =>
            have hv : ¬ is_pipe v := fun hv => (List.chain'_cons.mp hch1).1 ⟨hu, hv⟩
            have hch2 := (List.chain'_cons.mp hch1).2
            have hlast2 : ∀ x, (v :: rest2).getLast? = some x → ¬ is_pipe x := by
              intro x hx
              apply hlast1 x
              rw [List.getLast?_cons_cons]; exact hx
            obtain ⟨segs, hsne, hsegs, hj⟩ := ih (v :: rest2)
              (by simp only [List.length_cons] at hlen ⊢; omega) (by simp)
              (fun x hx => by simp only [List.head?_cons, Option.some.injEq] at hx; rw [← hx]; exact hv)
              hlast2 hch2
            obtain ⟨s2, ss, rfl⟩ := List.exists_cons_of_ne_nil hsne
            refine ⟨[t] :: s2 :: ss, by simp, ?_, ?_⟩
            · intro s hs
              rcases List.mem_cons.mp hs with rfl | hs
              · exact ⟨by simp, fun x hx => by
                  simp only [List.mem_singleton] at hx; rw [hx]; exact ht⟩
              · exact hsegs s hs
            · rw [join_pipes_cons_cons, hj, (is_pipe_iff u).1 hu]; rfl
        · obtain ⟨segs, hsne, hsegs, hj⟩ := ih (u :: rest1)
            (by simp only [List.length_cons] at hlen ⊢; omega) (by simp)
            (fun x hx => by simp only [List.head?_cons, Option.some.injEq] at hx; rw [← hx]; exact hu)
            hlast1 hch1
          obtain ⟨s2, ss, rfl⟩ := List.exists_cons_of_ne_nil hsne
          refine ⟨(t :: s2) :: ss, by simp, ?_, ?_⟩
          · intro s hs
            rcases List.mem_cons.mp hs with rfl | hs
            · refine ⟨by simp, fun x hx => ?_⟩
              rcases List.mem_cons.mp hx with rfl | hx
              · exact ht
              · exact (hsegs s2 (List.mem_cons_self _ _)).2 x hx
            · exact hsegs s (List.mem_cons_of_mem _ hs)
          · obtain ⟨after, hja, _, _, _⟩ := join_pipes_cons s2 ss
            obtain ⟨after1, hjb, _, hn1, hc1⟩ := join_pipes_cons (t :: s2) ss
            cases ss with
            | nil =>
              rw [join_pipes_single] at hj ⊢
              rw [hj]
            | cons s3 ss =>
              rw [join_pipes_cons_cons] at hj ⊢
              rw [← hj]; rfl

/-- The partition `execute` makes of a pipeline of subsections: one handler
for each subsection, in order, the pipes left out. -/
theorem execute_cmds_join (segs : List (List tok_node)) (hne : segs ≠ [])
    (h : Segments segs) :
    ∃ cmds, execute_cmds (join_pipes segs) = some cmds
      ∧ cmds = segment_handlers segs
      ∧ cmds.length = count_pipes (join_pipes segs) + 1
      ∧ cmds.map ListHandler.nodes = segs
      ∧ (cmds.map ListHandler.count).sum + count_pipes (join_pipes segs)
          = (join_pipes segs).length := by
  have hc : count_pipes (join_pipes segs) + 1 = segs.length := by
    rcases count_pipes_join segs h with h1 | h1
    · exact h1
    · exact absurd h1 hne
  refine ⟨segment_handlers segs, ?_, rfl, ?_, segment_handlers_nodes segs, ?_⟩
  · rw [execute_cmds, hc, execute_split_join segs h]
  · rw [segment_handlers_length, hc]
  · rw [segment_handlers_count, ← join_pipes_length segs hne]
    omega

/-- The list when `Blank_State` or `Redirect_State` is entered or kept: it is
unchanged and the state before was one of the two, or a word has just been
flushed. -/
theorem body_cont_after_word (st st1 : Token_Sys_State) (p ch n : Nat) (tok tok1 : List Nat)
    (tl tl1 : List tok_node) (skip : Bool)
    (hb : body st p ch n tok tl = .cont st1 tok1 tl1 skip)
    (hs : st1 = Blank_State ∨ st1 = Redirect_State) :
    (tl1 = tl ∧ (st = Blank_State ∨ st = Redirect_State))
      ∨ tl1 = save_string tok tl false := by
  cases st
  · change case_Init ch tok tl = _ at hb
    unfold case_Init at hb
    split_ifs at hb <;> cases hb <;> first | exact Or.inr rfl | exact Or.inl ⟨rfl, Or.inl rfl⟩ | exact Or.inl ⟨rfl, Or.inr rfl⟩ | (exfalso; simp at hs)
  · change case_Blank ch tok tl = _ at hb
    unfold case_Blank at hb
    split_ifs at hb <;> cases hb <;> first | exact Or.inr rfl | exact Or.inl ⟨rfl, Or.inl rfl⟩ | exact Or.inl ⟨rfl, Or.inr rfl⟩ | (exfalso; simp at hs)
  · change case_Letter ch tok tl = _ at hb
    unfold case_Letter at hb
    split_ifs at hb <;> cases hb <;> first | exact Or.inr rfl | exact Or.inl ⟨rfl, Or.inl rfl⟩ | exact Or.inl ⟨rfl, Or.inr rfl⟩ | (exfalso; simp at hs)
  · change case_Redirect p ch n tok tl = _ at hb
    unfold case_Redirect at hb
    split_ifs at hb <;> cases hb <;> first | exact Or.inr rfl | exact Or.inl ⟨rfl, Or.inl rfl⟩ | exact Or.inl ⟨rfl, Or.inr rfl⟩ | (exfalso; simp at hs)
  · change case_Single_Quote ch n tok tl = _ at hb
    unfold case_Single_Quote at hb
    by_cases h1 : ch = 39
    · rw [if_pos h1] at hb
      split_ifs at hb <;> cases hb <;> first | exact Or.inr rfl | exact Or.inl ⟨rfl, Or.inl rfl⟩ | exact Or.inl ⟨rfl, Or.inr rfl⟩ | (exfalso; simp at hs)
    · rw [if_neg h1] at hb
      by_cases h2 : ch = 10
      · rw [if_pos h2] at hb
        cases hb
      · rw [if_neg h2] at hb
        by_cases h3 : ch = 92
        · rw [if_pos h3] at hb
          split_ifs at hb <;> cases hb <;> first | exact Or.inr rfl | exact Or.inl ⟨rfl, Or.inl rfl⟩ | exact Or.inl ⟨rfl, Or.inr rfl⟩ | (exfalso; simp at hs)
        · rw [if_neg h3] at hb
          cases hb <;> first | exact Or.inr rfl | exact Or.inl ⟨rfl, Or.inl rfl⟩ | exact Or.inl ⟨rfl, Or.inr rfl⟩ | (exfalso; simp at hs)
  · change case_Double_Quote ch n tok tl = _ at hb
    unfold case_Double_Quote at hb
    by_cases h1 : ch = 34
    · rw [if_pos h1] at hb
      split_ifs at hb <;> cases hb <;> first | exact Or.inr rfl | exact Or.inl ⟨rfl, Or.inl rfl⟩ | exact Or.inl ⟨rfl, Or.inr rfl⟩ | (exfalso; simp at hs)
    · rw [if_neg h1] at hb
      by_cases h2 : ch = 10
      · rw [if_pos h2] at hb
        cases hb
      · rw [if_neg h2] at hb
        by_cases h3 : ch = 92
        · rw [if_pos h3] at hb
          split_ifs at hb <;> cases hb <;> first | exact Or.inr rfl | exact Or.inl ⟨rfl, Or.inl rfl⟩ | exact Or.inl ⟨rfl, Or.inr rfl⟩ | (exfalso; simp at hs)
        · rw [if_neg h3] at hb
          cases hb <;> first | exact Or.inr rfl | exact Or.inl ⟨rfl, Or.inl rfl⟩ | exact Or.inl ⟨rfl, Or.inr rfl⟩ | (exfalso; simp at hs)

/-- Every return of the body leaves the list empty, when the list is empty
in `Init_State`. -/
theorem body_stop_nil (st : Token_Sys_State) (p ch n : Nat) (tok : List Nat)
    (tl tl1 : List tok_node) (e : Option Diag)
    (hb : body st p ch n tok tl = .stop tl1 e) (hcl : st = Init_State → tl = []) :
    tl1 = [] := by
  rcases body_stop_tlist st p ch n tok tl tl1 e hb with h | h
  · cases st
    · rw [h]; exact hcl rfl
    · change case_Blank ch tok tl = _ at hb
      unfold case_Blank free_tok_list at hb
      split_ifs at hb <;> cases hb <;> rfl
    · change case_Letter ch tok tl = _ at hb
      unfold case_Letter free_tok_list at hb
      split_ifs at hb <;> cases hb <;> rfl
    · change case_Redirect p ch n tok tl = _ at hb
      unfold case_Redirect free_tok_list at hb
      split_ifs at hb <;> cases hb <;> rfl
    · change case_Single_Quote ch n tok tl = _ at hb
      unfold case_Single_Quote free_tok_list at hb
      by_cases h1 : ch = 39
      · rw [if_pos h1] at hb
        split_ifs at hb <;> cases hb <;> rfl
      · rw [if_neg h1] at hb
        by_cases h2 : ch = 10
        · rw [if_pos h2] at hb
          cases hb; rfl
        · rw [if_neg h2] at hb
          by_cases h3 : ch = 92
          · rw [if_pos h3] at hb
            split_ifs at hb <;> cases hb
          · rw [if_neg h3] at hb
            cases hb
    · change case_Double_Quote ch n tok tl = _ at hb
      unfold case_Double_Quote free_tok_list at hb
      by_cases h1 : ch = 34
      · rw [if_pos h1] at hb
        split_ifs at hb <;> cases hb <;> rfl
      · rw [if_neg h1] at hb
        by_cases h2 : ch = 10
        · rw [if_pos h2] at hb
          cases hb; rfl
        · rw [if_neg h2] at hb
          by_cases h3 : ch = 92
          · rw [if_pos h3] at hb
            split_ifs at hb <;> cases hb
          · rw [if_neg h3] at hb
            cases hb
  · exact h

/-- An iteration on the line terminator that goes on: in `Letter_State` the
word is flushed, in `Blank_State` nothing changes. -/
theorem body_cont_nl (st st1 : Token_Sys_State) (p n : Nat) (tok tok1 : List Nat)
    (tl tl1 : List tok_node) (skip : Bool)
    (hb : body st p 10 n tok tl = .cont st1 tok1 tl1 skip) :
    (st = Letter_State ∧ tl1 = save_string tok tl false)
      ∨ (st = Blank_State ∧ tl1 = tl) := by
  cases st
  · change case_Init 10 tok tl = _ at hb
    unfold case_Init at hb
    rw [if_pos rfl] at hb
    cases hb
  · change case_Blank 10 tok tl = _ at hb
    unfold case_Blank at hb
    rw [if_pos rfl] at hb
    cases hb
    exact Or.inr ⟨rfl, rfl⟩
  · change case_Letter 10 tok tl = _ at hb
    unfold case_Letter at hb
    rw [if_pos rfl] at hb
    cases hb
    exact Or.inl ⟨rfl, rfl⟩
  · change case_Redirect p 10 n tok tl = _ at hb
    unfold case_Redirect at hb
    rw [if_neg (by decide), if_neg (by decide), if_pos rfl] at hb
    cases hb
  · change case_Single_Quote 10 n tok tl = _ at hb
    unfold case_Single_Quote at hb
    rw [if_neg (by decide), if_pos rfl] at hb
    cases hb
  · change case_Double_Quote 10 n tok tl = _ at hb
    unfold case_Double_Quote at hb
    rw [if_neg (by decide), if_pos rfl] at hb
    cases hb

/-- A lookahead that takes the line terminator: after a backslash, or after
a closing quote, and then the word is flushed. -/
theorem body_skip_nl (st st1 : Token_Sys_State) (p x : Nat) (tok tok1 : List Nat)
    (tl tl1 : List tok_node)
    (hb : body st p x 10 tok tl = .cont st1 tok1 tl1 true) :
    x = 92 ∨ tl1 = save_string tok tl false := by
  rcases body_skip st st1 p x 10 tok tok1 tl tl1 hb with ⟨hs, h | h⟩ | ⟨hs, h | h⟩
  · subst hs h
    change case_Single_Quote 39 10 tok tl = _ at hb
    unfold case_Single_Quote at hb
    rw [if_pos rfl, if_neg (by decide), if_neg (by decide), if_neg (by decide),
      if_neg (by decide), if_neg (by decide), if_pos rfl] at hb
    cases hb
    exact Or.inr rfl
  · exact Or.inl h
  · subst hs h
    change case_Double_Quote 34 10 tok tl = _ at hb
    unfold case_Double_Quote at hb
    rw [if_pos rfl, if_neg (by decide), if_neg (by decide), if_neg (by decide),
      if_neg (by decide), if_neg (by decide), if_pos rfl] at hb
    cases hb
    exact Or.inr rfl
  · exact Or.inl h

theorem configAfter_succ_right (m : Nat) : ∀ (a c c1 : Config),
    configAfter m a = some c → advance c = some c1 → configAfter (m + 1) a = some c1 := by
  induction m with
  | zero =>
    intro a c c1 h h1
    simp only [configAfter, Option.some.injEq] at h
    subst h
    simp [configAfter, h1]
  | succ m ih =>
    intro a c c1 h h1
    simp only [configAfter] at h
    cases ha : advance a with
    | none => rw [ha] at h; simp at h
    | some a1 =>
      rw [ha] at h
      simp only [Option.some_bind] at h
      have := ih a1 c c1 h h1
      rw [configAfter, ha]
      simpa using this

theorem save_string_eq (tok : List Nat) (tl : List tok_node) (s : Bool) :
    ∃ x, save_string tok tl s = tl ++ [⟨x, s⟩] := ⟨_, rfl⟩

theorem EndsWord_snoc (tl : List tok_node) (x : List Nat) : EndsWord (tl ++ [⟨x, false⟩]) :=
  ⟨⟨x, false⟩, by simp, rfl⟩

theorem Alt_snoc_word (tl : List tok_node) (x : List Nat) (h : Alt tl) :
    Alt (tl ++ [⟨x, false⟩]) := by
  obtain ⟨h1, h2⟩ := h
  constructor
  · intro t ht
    cases tl with
    | nil => simp at ht; rw [← ht]
    | cons a tl => exact h1 t (by simpa using ht)
  · rw [List.chain'_append]
    refine ⟨h2, List.chain'_singleton _, ?_⟩
    intro a _ b hb
    simp only [List.head?_cons, Option.mem_def, Option.some.injEq] at hb
    rw [← hb]
    simp

theorem Alt_snoc_special (tl : List tok_node) (x : List Nat) (h : Alt tl) (he : EndsWord tl) :
    Alt (tl ++ [⟨x, true⟩]) := by
  obtain ⟨h1, h2⟩ := h
  obtain ⟨l, hl, hw⟩ := he
  constructor
  · intro t ht
    cases tl with
    | nil => simp at hl
    | cons a tl => exact h1 t (by simpa using ht)
  · rw [List.chain'_append]
    refine ⟨h2, List.chain'_singleton _, ?_⟩
    intro a ha b _
    simp only [Option.mem_def] at ha
    rw [hl] at ha
    simp only [Option.some.injEq] at ha
    rw [← ha, hw]
    simp

theorem getLast?_tail_of_ne_nil (a : Nat) (l : List Nat) (h : l ≠ []) :
    (a :: l).getLast? = l.getLast? := by
  obtain ⟨b, l1, rfl⟩ := List.exists_cons_of_ne_nil h
  rw [List.getLast?_cons_cons]

theorem advance_altInv (line : List Nat) (hq : quotedAt line [10] = false)
    (c c1 : Config) (hi : c.altInv line) (h : advance c = some c1) : c1.altInv line := by
  obtain ⟨⟨m, hm, hreach⟩, halt, hcl, hbr, hlast, _⟩ := hi
  obtain ⟨ch, rest, skip, hr, hb, hnext⟩ := advance_some c c1 h
  have hlt := advance_rest_lt c c1 h
  have hlast0 : (ch :: rest).getLast? = some 10 := by
    rw [← hr]; exact hlast (by rw [hr]; simp)
  refine ⟨⟨m + 1, by omega, configAfter_succ_right m _ c c1 hreach h⟩, ?_, ?_, ?_, ?_, ?_⟩
  · rcases body_cont_tlist _ _ _ _ _ _ _ _ _ _ hb with ht | ht | ⟨hs, ht⟩
    · rw [ht]; exact halt
    · rw [ht]; exact Alt_snoc_word _ _ halt
    · rw [ht]; exact Alt_snoc_special _ _ halt (hbr (Or.inr hs))
  · exact body_clean _ _ _ _ _ _ _ _ _ _ hb hcl
  · intro hs
    rcases body_cont_after_word _ _ _ _ _ _ _ _ _ _ hb hs with ⟨ht, hs0⟩ | ht
    · rw [ht]; exact hbr hs0
    · rw [ht]; exact EndsWord_snoc _ _
  · intro hne
    rcases hnext with ⟨_, _, hr1⟩ | ⟨_, hr1⟩
    · rw [hr1]
      rw [hr1] at hne
      rw [← getLast?_tail_of_ne_nil ch rest hne]; exact hlast0
    · have hrne : rest ≠ [] := by rw [hr1]; simp
      rw [← getLast?_tail_of_ne_nil c1.prev c1.rest hne, ← hr1,
        ← getLast?_tail_of_ne_nil ch rest hrne]
      exact hlast0
  · intro hnil
    rcases hnext with ⟨hsk, _, hr1⟩ | ⟨hsk, hr1⟩
    · have hrest : rest = [] := by rw [← hr1]; exact hnil
      subst hrest
      have hch : ch = 10 := by simpa using hlast0
      subst hch
      rcases body_cont_nl _ _ _ _ _ _ _ _ _ hb with ⟨_, ht⟩ | ⟨hs, ht⟩
      · rw [ht]; exact Or.inr (EndsWord_snoc _ _)
      · rw [ht]; exact Or.inr (hbr (Or.inl hs))
    · rw [hnil] at hr1
      subst hr1
      have hp : c1.prev = 10 := by simpa using hlast0
      subst hsk
      have hb1 : body c.State c.prev ch 10 c.tok c.tlist
          = .cont c1.State c1.tok c1.tlist true := by
        simpa [hp] using hb
      rcases body_skip_nl _ _ _ _ _ _ _ _ hb1 with h92 | ht
      · exfalso
        have hst := body_skip _ _ _ _ _ _ _ _ _ hb1
        have hrest : c.rest = 92 :: [10] := by rw [hr, h92, hp]
        obtain ⟨hs1, hs2⟩ := quotedAt_false line [10] hq m (by omega) c hreach (Or.inr hrest)
        rcases hst with ⟨hs, _⟩ | ⟨hs, _⟩
        · exact hs1 hs
        · exact hs2 hs
      · rw [ht]; exact Or.inr (EndsWord_snoc _ _)

/-- On a line whose terminator is not taken inside a quote, the tokens that
`tokenize` leaves are none at all, or words and operators in alternation: the
first and the last token are words and no two operators stand side by
side. -/
theorem tokenize_alternates (line : List Nat) (r : Result)
    (h : tokenize [] line = some r) (hq : quotedAt line [10] = false) :
    r.tlist = [] ∨ (Alt r.tlist ∧ EndsWord r.tlist) := by
  unfold tokenize at h
  cases hl : line.getLast? with
  | none => rw [hl] at h; simp at h
  | some c =>
    rw [hl] at h
    simp only at h
    split_ifs at h with hc
    · simp only [Option.some.injEq] at h
      subst h
      exact Or.inl rfl
    · simp only [Option.some.injEq] at h
      subst h
      have hc10 : c = 10 := by simpa using hc
      subst hc10
      refine run_induction (Config.altInv line)
        (fun r => r.tlist = [] ∨ (Alt r.tlist ∧ EndsWord r.tlist))
        (advance_altInv line hq) ?_ (Config.start [] line) ?_
      · intro c hi ha
        obtain ⟨_, halt, hcl, _, hlast, hend⟩ := hi
        rcases advance_none c ha with ⟨hr0, hr⟩ | ⟨ch, rest, tl, e, _, hb, hr⟩
          | ⟨ch, st, tok, tl, hr0, hb, hr⟩
        · rw [hr]
          rcases hend hr0 with h0 | h0
          · exact Or.inl h0
          · exact Or.inr ⟨halt, h0⟩
        · rw [hr]
          exact Or.inl (body_stop_nil _ _ _ _ _ _ _ _ hb hcl)
        · exfalso
          have h10 : ch = 10 := by
            have := hlast (by rw [hr0]; simp)
            rw [hr0] at this
            simpa using this
          subst h10
          rcases body_skip _ _ _ _ _ _ _ _ _ hb with ⟨_, h1 | h1⟩ | ⟨_, h1 | h1⟩ <;> cases h1
      · refine ⟨⟨0, by simp [Config.start], rfl⟩, ⟨fun t ht => (by cases ht), List.chain'_nil⟩,
          fun _ => rfl, fun hs => ?_, fun _ => hl, fun hn => Or.inl rfl⟩
        rcases hs with hs | hs <;> cases hs

theorem intercalate_cons {α : Type} (sep x : List α) (xs : List (List α)) :
    List.intercalate sep (x :: xs) = x ++ xs.flatMap (fun y => sep ++ y) := by
  induction xs generalizing x with
  | nil => simp [List.intercalate, List.intersperse]
  | cons y ys ih =>
    have e : List.intercalate sep (x :: y :: ys) = x ++ sep ++ List.intercalate sep (y :: ys) := by
      simp [List.intercalate, List.intersperse]
    rw [e, ih y]
    simp

theorem loop_Blank_plain (c : Nat) (hc : plainChar c) (p : Nat) (r tok : List Nat)
    (tl : List tok_node) :
    loop Blank_State p (c :: r) tok tl = loop Letter_State c r (tok ++ [c]) tl := by
  unfold plainChar at hc
  have h10 : c ≠ 10 := by omega
  rw [loop]
  simp [body, case_Blank, hc, h10]

theorem plainWord_ne_zero {w : List Nat} (h : ∀ x ∈ w, plainChar x) : ∀ x ∈ w, x ≠ 0 :=
  fun x hx => plainChar_ne_zero (h x hx)

/-- From `Letter_State` with the word `w` buffered: a blank and a further
word flush `w`. -/
theorem loop_Letter_next_word (w w1 : List Nat) (hw : ∀ x ∈ w, plainChar x)
    (hw1 : plainWord w1) (p q : Nat) (r : List Nat) (tl : List tok_node) :
    loop Letter_State p (32 :: (w1 ++ r)) w tl
      = loop Letter_State q r w1 (tl ++ [wordTok w]) := by
  obtain ⟨c, w2, rfl⟩ := List.exists_cons_of_ne_nil hw1.1
  have hc := hw1.2 c (List.mem_cons_self _ _)
  have hw2 : ∀ x ∈ w2, plainChar x := fun x hx => hw1.2 x (List.mem_cons_of_mem _ hx)
  have e1 : loop Letter_State p (32 :: (c :: w2 ++ r)) w tl
      = loop Blank_State 32 (c :: w2 ++ r) [] (save_string w tl false) := by
    rw [loop]; simp [body, case_Letter]
  rw [e1, List.cons_append, loop_Blank_plain c hc, loop_Letter_word w2 hw2 c q,
    save_string_clean _ _ _ (plainWord_ne_zero hw)]
  rfl

/-- From `Letter_State` with the word `w` buffered: blank, `|`, blank and a
further word flush `w` and then the pipe. -/
theorem loop_Letter_next_cmd (w w1 : List Nat) (hw : ∀ x ∈ w, plainChar x)
    (hw1 : plainWord w1) (p q : Nat) (r : List Nat) (tl : List tok_node) :
    loop Letter_State p (32 :: 124 :: 32 :: (w1 ++ r)) w tl
      = loop Letter_State q r w1 (tl ++ [wordTok w, pipeTok]) := by
  obtain ⟨c, w2, rfl⟩ := List.exists_cons_of_ne_nil hw1.1
  have hc := hw1.2 c (List.mem_cons_self _ _)
  have hw2 : ∀ x ∈ w2, plainChar x := fun x hx => hw1.2 x (List.mem_cons_of_mem _ hx)
  have e1 := loop_Letter_blanks_op [32] (by simp) 124 (by decide) p
    (32 :: (c :: w2 ++ r)) w tl
  have e2 := loop_Redirect_blanks [32] (by simp) 124 (c :: w2 ++ r) [124]
    (save_string w tl false)
  simp only [List.singleton_append] at e1 e2
  rw [e1, e2, List.cons_append, loop_Redirect_plain c hc, loop_Letter_word w2 hw2 c q,
    save_string_clean _ _ _ (plainWord_ne_zero hw), save_string_clean _ _ _ (by decide)]
  simp [wordTok, pipeTok]

theorem loop_Letter_pipeline (cs : List (List (List Nat))) (hcs : ∀ c ∈ cs, simpleCmd c) :
    ∀ (ws : List (List Nat)), (∀ w ∈ ws, plainWord w) →
    ∀ (w : List Nat), (∀ x ∈ w, plainChar x) → ∀ (tl : List tok_node) (p : Nat),
    loop Letter_State p (tailWords ws ++ (tailCmds cs ++ [10])) w tl
      = ⟨tl ++ (wordTok w :: ws.map wordTok ++ tailToks cs), none⟩ := by
  induction cs with
  | nil =>
    intro ws
    induction ws with
    | nil =>
      intro _ w hw tl p
      simp only [tailWords, tailCmds, tailToks, List.flatMap_nil, List.nil_append,
        List.map_nil, List.append_nil]
      rw [loop_Letter_end, save_string_clean _ _ _ (plainWord_ne_zero hw)]
      rfl
    | cons w1 ws ih =>
      intro hws w hw tl p
      have hw1 := hws w1 (List.mem_cons_self _ _)
      have hws1 : ∀ v ∈ ws, plainWord v := fun v hv => hws v (List.mem_cons_of_mem _ hv)
      have e : tailWords (w1 :: ws) ++ (tailCmds [] ++ [10])
          = 32 :: (w1 ++ (tailWords ws ++ (tailCmds [] ++ [10]))) := by
        simp [tailWords]
      rw [e, loop_Letter_next_word w w1 hw hw1 p p, ih hws1 w1 hw1.2]
      simp
  | cons c cs ihc =>
    have hc := hcs c (List.mem_cons_self _ _)
    have hcs1 : ∀ d ∈ cs, simpleCmd d := fun d hd => hcs d (List.mem_cons_of_mem _ hd)
    obtain ⟨v, vs, rfl⟩ := List.exists_cons_of_ne_nil hc.1
    have hv := hc.2 v (List.mem_cons_self _ _)
    have hvs : ∀ u ∈ vs, plainWord u := fun u hu => hc.2 u (List.mem_cons_of_mem _ hu)
    intro ws
    induction ws with
    | nil =>
      intro _ w hw tl p
      have e : tailWords [] ++ (tailCmds ((v :: vs) :: cs) ++ [10])
          = 32 :: 124 :: 32 :: (v ++ (tailWords vs ++ (tailCmds cs ++ [10]))) := by
        simp [tailWords, tailCmds, intercalate_cons]
      rw [e, loop_Letter_next_cmd w v hw hv p p, ihc hcs1 vs hvs v hv.2]
      simp [tailToks]
    | cons w1 ws ih =>
      intro hws w hw tl p
      have hw1 := hws w1 (List.mem_cons_self _ _)
      have hws1 : ∀ u ∈ ws, plainWord u := fun u hu => hws u (List.mem_cons_of_mem _ hu)
      have e : tailWords (w1 :: ws) ++ (tailCmds ((v :: vs) :: cs) ++ [10])
          = 32 :: (w1 ++ (tailWords ws ++ (tailCmds ((v :: vs) :: cs) ++ [10]))) := by
        simp [tailWords]
      rw [e, loop_Letter_next_word w w1 hw hw1 p p, ih hws1 w1 hw1.2]
      simp

/-- The tokens of a pipeline of simple commands. -/
theorem tokenize_pipeline (cs : List (List (List Nat))) (hne : cs ≠ [])
    (hcs : ∀ c ∈ cs, simpleCmd c) :
    tokenize [] (pipeline_line cs)
      = some ⟨join_pipes (cs.map (fun c => c.map wordTok)), none⟩ := by
  obtain ⟨c, cs1, rfl⟩ := List.exists_cons_of_ne_nil hne
  have hc := hcs c (List.mem_cons_self _ _)
  have hcs1 : ∀ d ∈ cs1, simpleCmd d := fun d hd => hcs d (List.mem_cons_of_mem _ hd)
  obtain ⟨v, vs, rfl⟩ := List.exists_cons_of_ne_nil hc.1
  have hv := hc.2 v (List.mem_cons_self _ _)
  have hvs : ∀ u ∈ vs, plainWord u := fun u hu => hc.2 u (List.mem_cons_of_mem _ hu)
  obtain ⟨a, v1, rfl⟩ := List.exists_cons_of_ne_nil hv.1
  have ha := hv.2 a (List.mem_cons_self _ _)
  have hv1 : ∀ x ∈ v1, plainChar x := fun x hx => hv.2 x (List.mem_cons_of_mem _ hx)
  have e : List.intercalate [32, 124, 32] ((((a :: v1) :: vs) :: cs1).map (List.intercalate [32]))
      = (a :: v1) ++ (tailWords vs ++ tailCmds cs1) := by
    simp [intercalate_cons, tailWords, tailCmds, List.flatMap_map]
  have e2 : join_pipes ((((a :: v1) :: vs) :: cs1).map (fun c => c.map wordTok))
      = wordTok (a :: v1) :: vs.map wordTok ++ tailToks cs1 := by
    simp [join_pipes, intercalate_cons, tailToks, List.flatMap_map]
  rw [pipeline_line, tokenize_nl, e, e2]
  have e3 : a :: v1 ++ (tailWords vs ++ tailCmds cs1) ++ [10]
      = a :: v1 ++ (tailWords vs ++ (tailCmds cs1 ++ [10])) := by simp
  rw [e3, loop_Init_word a v1 ha hv1 0 a, loop_Letter_pipeline cs1 hcs1 vs hvs (a :: v1) hv.2]
  simp

theorem not_is_pipe_of_word (t : tok_node) (h : t.special = false) : ¬ is_pipe t := by
  intro hp
  rw [hp.1] at h
  cases h

/-- C14. For a line that `tokenize` accepts with at least one token and
without a quote left open at the terminator, `execute` splits the tokens into
one subsection more than there are pipe operators; no subsection is empty or
holds a pipe operator; the subsections with a pipe between each two are the
token list again, and their counts add up to its length less the pipes. -/
theorem execute_partition (line : List Nat) (toks : List tok_node)
    (h : tokenize [] line = some ⟨toks, none⟩) (hne : toks ≠ [])
    (hq : quotedAt line [10] = false) :
    ∃ cmds, execute_cmds toks = some cmds
      ∧ cmds.length = count_pipes toks + 1
      ∧ (∀ cmd ∈ cmds, cmd.nodes ≠ [] ∧ ∀ t ∈ cmd.nodes, ¬ is_pipe t)
      ∧ List.intercalate [pipeTok] (cmds.map ListHandler.nodes) = toks
      ∧ (cmds.map ListHandler.count).sum + count_pipes toks = toks.length := by
  rcases tokenize_alternates line ⟨toks, none⟩ h hq with h0 | ⟨⟨hhead, hch⟩, t0, hl0, hw0⟩
  · exact absurd h0 hne
  · simp only at hhead hch hl0
    obtain ⟨segs, hsne, hsegs, hj⟩ := exists_segments toks.length toks (Nat.le_refl _) hne
      (fun t ht => not_is_pipe_of_word t (hhead t ht))
      (fun t ht => by
        rw [hl0] at ht
        simp only [Option.some.injEq] at ht
        rw [← ht]; exact not_is_pipe_of_word t0 hw0)
      (hch.imp (fun {a b} hab hp => hab ⟨hp.1.1, hp.2.1⟩))
    obtain ⟨cmds, hex, _, hlen, hnodes, hsum⟩ := execute_cmds_join segs hsne hsegs
    rw [hj] at hex hlen hsum
    refine ⟨cmds, hex, hlen, ?_, ?_, hsum⟩
    · intro cmd hcmd
      apply hsegs
      rw [← hnodes]
      exact List.mem_map_of_mem _ hcmd
    · rw [hnodes]; exact hj

theorem execute_partition_witness :
    ∃ cmds, execute_cmds [wordTok (bytes "cat"), ⟨[60], true⟩, wordTok (bytes "in"), pipeTok,
        wordTok (bytes "a|b")] = some cmds
      ∧ cmds.length = count_pipes [wordTok (bytes "cat"), ⟨[60], true⟩, wordTok (bytes "in"),
          pipeTok, wordTok (bytes "a|b")] + 1
      ∧ (∀ cmd ∈ cmds, cmd.nodes ≠ [] ∧ ∀ t ∈ cmd.nodes, ¬ is_pipe t)
      ∧ List.intercalate [pipeTok] (cmds.map ListHandler.nodes)
          = [wordTok (bytes "cat"), ⟨[60], true⟩, wordTok (bytes "in"), pipeTok,
              wordTok (bytes "a|b")]
      ∧ (cmds.map ListHandler.count).sum
          + count_pipes [wordTok (bytes "cat"), ⟨[60], true⟩, wordTok (bytes "in"), pipeTok,
              wordTok (bytes "a|b")] = 5 :=
  execute_partition (bytes "cat <in | 'a|b'\n") _ (by decide) (by decide) (by decide)

theorem build_cmd_words (ws : List (List Nat)) (after : List tok_node) :
    build_cmd (ws.map wordTok ++ after) = ws ++ build_cmd after := by
  induction ws with
  | nil => rfl
  | cons w ws ih => simp [build_cmd, wordTok, ih]

theorem build_cmd_PipeOrEnd (after : List tok_node) (h : PipeOrEnd after) :
    build_cmd after = [] := by
  rcases h with rfl | ⟨r, rfl⟩
  · rfl
  · simp [build_cmd, pipeTok]

theorem build_cmd_segment_handlers (cs : List (List (List Nat))) :
    (segment_handlers (cs.map (fun c => c.map wordTok))).map (fun cmd => build_cmd cmd.head)
      = cs := by
  induction cs with
  | nil => rfl
  | cons c cs ih =>
    obtain ⟨after, hj, hpe, _, _⟩ :=
      join_pipes_cons (c.map wordTok) (cs.map (fun c => c.map wordTok))
    simp only [List.map_cons, segment_handlers, ih]
    rw [hj, build_cmd_words, build_cmd_PipeOrEnd after hpe, List.append_nil]

theorem Segments_words (cs : List (List (List Nat))) (hcs : ∀ c ∈ cs, simpleCmd c) :
    Segments (cs.map (fun c => c.map wordTok)) := by
  intro s hs
  obtain ⟨c, hc, rfl⟩ := List.mem_map.mp hs
  refine ⟨by simpa using (hcs c hc).1, ?_⟩
  intro t ht
  obtain ⟨w, _, rfl⟩ := List.mem_map.mp ht
  exact not_is_pipe_of_word _ rfl

/-- C15. A pipeline of simple commands of plain words, written with single
blanks between words and blank, `|`, blank between commands: the tokens of
the line, split as `execute` does, give one handler for each command, in
order, from which `parse_cmd` builds exactly the words of that command, and
the number of pipes is the number of commands less one.  For
`echo hello | wc -l`: `[echo, hello]` and `[wc, -l]`, one pipe. -/
theorem pipeline_end_to_end (cs : List (List (List Nat))) (hne : cs ≠ [])
    (hcs : ∀ c ∈ cs, simpleCmd c) :
    (∃ toks cmds, tokenize [] (pipeline_line cs) = some ⟨toks, none⟩
        ∧ execute_cmds toks = some cmds
        ∧ cmds.map (fun cmd => build_cmd cmd.head) = cs
        ∧ count_pipes toks + 1 = cs.length)
      ∧ (∃ toks cmds, tokenize [] (bytes "echo hello | wc -l\n") = some ⟨toks, none⟩
        ∧ execute_cmds toks = some cmds
        ∧ cmds.map (fun cmd => build_cmd cmd.head)
            = [[bytes "echo", bytes "hello"], [bytes "wc", bytes "-l"]]
        ∧ count_pipes toks = 1) := by
  constructor
  · have hsegs := Segments_words cs hcs
    have hsne : cs.map (fun c => c.map wordTok) ≠ [] := by simpa using hne
    obtain ⟨cmds, hex, heq, hlen, _, _⟩ :=
      execute_cmds_join (cs.map (fun c => c.map wordTok)) hsne hsegs
    refine ⟨_, cmds, tokenize_pipeline cs hne hcs, hex, ?_, ?_⟩
    · rw [heq]; exact build_cmd_segment_handlers cs
    · rw [← hlen, heq, segment_handlers_length, List.length_map]
  · exact ⟨[wordTok (bytes "echo"), wordTok (bytes "hello"), pipeTok, wordTok (bytes "wc"),
      wordTok (bytes "-l")],
      segment_handlers [[wordTok (bytes "echo"), wordTok (bytes "hello")],
        [wordTok (bytes "wc"), wordTok (bytes "-l")]],
      by decide, by decide, by decide, by decide⟩

theorem pipeline_end_to_end_witness :
    ∃ toks cmds, tokenize [] (pipeline_line [[bytes "ls", bytes "-l"], [bytes "sort"],
          [bytes "head", bytes "-n", bytes "3"]]) = some ⟨toks, none⟩
        ∧ execute_cmds toks = some cmds
        ∧ cmds.map (fun cmd => build_cmd cmd.head)
            = [[bytes "ls", bytes "-l"], [bytes "sort"], [bytes "head", bytes "-n", bytes "3"]]
        ∧ count_pipes toks + 1 = 3 :=
  (pipeline_end_to_end [[bytes "ls", bytes "-l"], [bytes "sort"],
    [bytes "head", bytes "-n", bytes "3"]] (by decide) (by decide)).1

theorem build_cmd_seg (seg after : List tok_node) (h : PipeOrEnd after) :
    build_cmd (seg ++ after) = leading_words seg := by
  induction seg with
  | nil => simpa [leading_words] using build_cmd_PipeOrEnd after h
  | cons t seg ih =>
    cases hs : t.special with
    | false =>
      have : build_cmd (t :: seg ++ after) = t.token :: build_cmd (seg ++ after) := by
        simp [build_cmd, hs]
      rw [this, ih]
      simp [leading_words, List.takeWhile_cons, hs]
    | true => simp [build_cmd, leading_words, List.takeWhile_cons, hs]

theorem leading_words_length (seg : List tok_node) :
    (leading_words seg).length ≤ seg.length := by
  simp only [leading_words, List.length_map]
  exact (List.takeWhile_sublist _).length_le

theorem redirect_here (env : Env) (t u : tok_node) (rest : List tok_node)
    (hopen : is_redirect t → redirection_opens env (t, u) = true) :
    (if t.special = true then
        if t.token = [62] then
          match u :: rest with
          | [] => none
          | u :: _ => some (output_to_file env u.token false)
        else if t.token = [62, 62] then
          match u :: rest with
          | [] => none
          | u :: _ => some (output_to_file env u.token true)
        else if t.token = [60] then
          match u :: rest with
          | [] => none
          | u :: _ => some (file_to_input env u.token)
        else some ([], false)
      else some ([], false))
      = some (if is_redirect t then [redirection_event (t, u)] else [], false) := by
  by_cases hs : t.special = true
  · rw [if_pos hs]
    by_cases h1 : t.token = [62]
    · have hr : is_redirect t := ⟨hs, Or.inl h1⟩
      have ho := hopen hr
      simp only [redirection_opens, h1] at ho
      rw [if_pos h1, if_pos hr]
      simp [output_to_file, get_fd, redirection_event, h1] at ho ⊢
      exact ho
    · rw [if_neg h1]
      by_cases h2 : t.token = [62, 62]
      · have hr : is_redirect t := ⟨hs, Or.inr (Or.inl h2)⟩
        have ho := hopen hr
        simp only [redirection_opens, h2] at ho
        rw [if_pos h2, if_pos hr]
        simp [output_to_file, get_fd, redirection_event, h2] at ho ⊢
        exact ho
      · rw [if_neg h2]
        by_cases h3 : t.token = [60]
        · have hr : is_redirect t := ⟨hs, Or.inr (Or.inr h3)⟩
          have ho := hopen hr
          simp only [redirection_opens, h3] at ho
          rw [if_pos h3, if_pos hr]
          simp [file_to_input, get_fd, redirection_event, h3] at ho ⊢
          exact ho
        · have hr : ¬ is_redirect t := fun h => by
            rcases h.2 with h | h | h
            · exact h1 h
            · exact h2 h
            · exact h3 h
          rw [if_neg h3, if_neg hr]
  · have hr : ¬ is_redirect t := fun h => hs h.1
    rw [if_neg hs, if_neg hr]

/-- The second loop of `parse_cmd` over a subsection: when no redirect
operator is the last node of the list and every target can be opened, the
redirections made are those of the redirect operators, in order, each with
the node after it. -/
theorem redirect_loop_seg (env : Env) (after : List tok_node) :
    ∀ (seg : List tok_node),
    (∀ t, seg.getLast? = some t → after = [] → ¬ is_redirect t) →
    (∀ p ∈ redirection_pairs seg after, redirection_opens env p = true) →
    redirect_loop env after.length (seg ++ after)
      = some ((redirection_pairs seg after).map redirection_event, false) := by
  intro seg
  induction seg with
  | nil =>
    intro _ _
    cases after with
    | nil => simp [redirect_loop, redirection_pairs]
    | cons a after => simp [redirect_loop, redirection_pairs]
  | cons t seg ih =>
    intro hlast hopen
    have hlen : ¬ (t :: (seg ++ after)).length = after.length := by
      simp only [List.length_cons, List.length_append]; omega
    cases hn : seg ++ after with
    | nil =>
      have hseg : seg = [] := (List.append_eq_nil.mp hn).1
      have haft : after = [] := (List.append_eq_nil.mp hn).2
      subst hseg haft
      have hr : ¬ is_redirect t := hlast t rfl rfl
      have hr1 : ¬ (t.special = true ∧ (t.token = [62] ∨ t.token = [62, 62] ∨ t.token = [60])) :=
        hr
      simp only [List.nil_append, redirect_loop, redirection_pairs, List.tail_cons,
        List.zip_nil_right, List.filter_nil, List.map_nil]
      by_cases hs : t.special = true
      · have h1 : t.token ≠ [62] := fun h => hr1 ⟨hs, Or.inl h⟩
        have h2 : t.token ≠ [62, 62] := fun h => hr1 ⟨hs, Or.inr (Or.inl h)⟩
        have h3 : t.token ≠ [60] := fun h => hr1 ⟨hs, Or.inr (Or.inr h)⟩
        simp [hs, h1, h2, h3]
      · simp [hs]
    | cons u rest =>
      have hlast1 : ∀ x, seg.getLast? = some x → after = [] → ¬ is_redirect x := by
        intro x hx ha
        cases seg with
        | nil => cases hx
        | cons s seg1 =>
          apply hlast x _ ha
          rw [List.getLast?_cons_cons]; exact hx
      have hpairs : redirection_pairs (t :: seg) after
          = (if is_redirect t then [(t, u)] else []) ++ redirection_pairs seg after := by
        simp only [redirection_pairs, List.cons_append, List.tail_cons, hn]
        cases seg with
        | nil =>
          simp only [List.nil_append] at hn
          subst hn
          by_cases hr : is_redirect t <;> simp [List.filter_cons, hr]
        | cons s seg1 =>
          simp only [List.cons_append, List.cons.injEq] at hn
          obtain ⟨rfl, hn1⟩ := hn
          simp only [List.zip_cons_cons, List.cons_append, List.tail_cons, hn1]
          by_cases hr : is_redirect t <;> simp [List.filter_cons, hr]
      have hopen1 : ∀ p ∈ redirection_pairs seg after, redirection_opens env p = true := by
        intro p hp
        apply hopen p
        rw [hpairs]
        exact List.mem_append_right _ hp
      have hopen0 : is_redirect t → redirection_opens env (t, u) = true := by
        intro hr
        apply hopen (t, u)
        rw [hpairs, if_pos hr]
        simp
      have hrec := ih hlast1 hopen1
      rw [hn] at hrec
      have e : t :: seg ++ after = t :: (u :: rest) := by
        rw [List.cons_append, hn]
      rw [e, redirect_loop, if_neg (by rw [← hn]; exact hlen), redirect_here env t u rest hopen0]
      simp only []
      rw [hrec, hpairs]
      by_cases hr : is_redirect t <;> simp [hr]

/-- The function `parse_cmd` on the handler of a subsection: the redirections
of the subsection, then the end of `parse_cmd` on its leading words. -/
theorem parse_cmd_seg (env : Env) (s : tok_node) (seg after : List tok_node)
    (hs : ¬ is_pipe s) (hseg : ∀ t ∈ seg, ¬ is_pipe t) (hafter : PipeOrEnd after)
    (hlast : ∀ t, (s :: seg).getLast? = some t → after = [] → ¬ is_redirect t)
    (hopen : ∀ p ∈ redirection_pairs (s :: seg) after, redirection_opens env p = true) :
    parse_cmd env (get_next_subsection (s :: seg ++ after))
      = (launch env (leading_words (s :: seg))).map
          (fun ev => (redirection_pairs (s :: seg) after).map redirection_event ++ ev) := by
  rw [get_next_subsection_seg s seg after hs hseg hafter]
  have hb := build_cmd_seg (s :: seg) after hafter
  have hl := leading_words_length (s :: seg)
  have hr := redirect_loop_seg env after (s :: seg) hlast hopen
  simp only [parse_cmd, hb]
  rw [if_neg (by simp only [List.length_cons] at hl; omega)]
  rw [hr]
  cases launch env (leading_words (s :: seg)) <;> rfl

/-- C16. For the handler of a subsection (no redirect operator last in the
list, every target can be opened): the strings `parse_cmd` stores in `cmd`
are the texts of the nodes before the first operator, in order; the
redirections it makes are those of the redirect operators of the subsection,
in order, each with the node right after it; then it goes on with `cmd`.  In
`cat < in -n` the word `-n` is in neither. -/
theorem parse_cmd_arguments_redirections (env : Env) (s : tok_node)
    (seg after : List tok_node)
    (hs : ¬ is_pipe s) (hseg : ∀ t ∈ seg, ¬ is_pipe t) (hafter : PipeOrEnd after)
    (hlast : ∀ t, (s :: seg).getLast? = some t → after = [] → ¬ is_redirect t)
    (hopen : ∀ p ∈ redirection_pairs (s :: seg) after, redirection_opens env p = true) :
    build_cmd (get_next_subsection (s :: seg ++ after)).head = leading_words (s :: seg)
      ∧ parse_cmd env (get_next_subsection (s :: seg ++ after))
          = (launch env (leading_words (s :: seg))).map
              (fun ev => (redirection_pairs (s :: seg) after).map redirection_event ++ ev)
      ∧ parse_cmd env_all_ok (get_next_subsection [wordTok (bytes "cat"), ⟨[60], true⟩,
            wordTok (bytes "in"), wordTok (bytes "-n")])
          = some [Event.file_to_input (bytes "in"), Event.bin_exists (bytes "cat"),
              Event.execvp (bytes "cat") [bytes "cat"]] := by
  refine ⟨?_, parse_cmd_seg env s seg after hs hseg hafter hlast hopen, by decide⟩
  rw [get_next_subsection_seg s seg after hs hseg hafter]
  exact build_cmd_seg (s :: seg) after hafter

theorem parse_cmd_arguments_redirections_witness :
    parse_cmd env_no_exec (get_next_subsection ([wordTok (bytes "sort"), wordTok (bytes "-r"),
        ⟨[60], true⟩, wordTok (bytes "in"), ⟨[62, 62], true⟩, wordTok (bytes "out")]
        ++ [pipeTok, wordTok (bytes "wc")]))
      = (launch env_no_exec (leading_words [wordTok (bytes "sort"), wordTok (bytes "-r"),
          ⟨[60], true⟩, wordTok (bytes "in"), ⟨[62, 62], true⟩, wordTok (bytes "out")])).map
          (fun ev => [Event.file_to_input (bytes "in"),
            Event.output_to_file (bytes "out") true] ++ ev) :=
  (parse_cmd_arguments_redirections env_no_exec (wordTok (bytes "sort"))
    [wordTok (bytes "-r"), ⟨[60], true⟩, wordTok (bytes "in"), ⟨[62, 62], true⟩,
      wordTok (bytes "out")] [pipeTok, wordTok (bytes "wc")]
    (by decide) (by decide) (Or.inr ⟨_, rfl⟩) (by decide) (by decide)).2.1

/-- C19. A command name that begins with a dot but not with `./`: for `.foo`
the test `cmd[0][0] == '.'` holds and the inner test fails, no branch calls
`bin_exists`, and `parse_cmd` goes on to `exit(-1)`; the same for `..`. -/
theorem parse_cmd_dot_name (env : Env) :
    parse_cmd env (get_next_subsection [wordTok (bytes ".foo")]) = some [Event.exit (-1)]
      ∧ parse_cmd env (get_next_subsection [wordTok (bytes "..")]) = some [Event.exit (-1)] :=
  ⟨rfl, rfl⟩

/-- C20, as stated, fails: for `/bin/ls -l` the vector passed to `execv` has
`bin/ls` as its first string, not `/bin/ls` as it was written. -/
theorem parse_cmd_slash_argv :
    parse_cmd env_no_exec (get_next_subsection [wordTok (bytes "/bin/ls"), wordTok (bytes "-l")])
        = some [Event.execv (bytes "bin/ls") [bytes "bin/ls", bytes "-l"], Event.exit (-1)]
      ∧ [bytes "bin/ls", bytes "-l"] ≠ [bytes "/bin/ls", bytes "-l"] := by
  decide

theorem redirection_event_ne_bin_exists (p : tok_node × tok_node) (b : List Nat) :
    redirection_event p ≠ Event.bin_exists b := by
  unfold redirection_event
  split_ifs <;> simp

/-- C20, as the code has it. For a subsection whose command name begins with
`/`, `parse_cmd` makes the redirections and calls `execv` on the name without
its first character, with a vector whose first string is that same shortened
name and whose other strings are the further leading words, in order; it
does not call `bin_exists`, and when `execv` fails it calls `exit(-1)`. -/
theorem parse_cmd_slash (env : Env) (name : List Nat) (seg after : List tok_node)
    (hname : name.head? = some 47)
    (hseg : ∀ t ∈ seg, ¬ is_pipe t) (hafter : PipeOrEnd after)
    (hlast : ∀ t, (wordTok name :: seg).getLast? = some t → after = [] → ¬ is_redirect t)
    (hopen : ∀ p ∈ redirection_pairs (wordTok name :: seg) after,
      redirection_opens env p = true) :
    parse_cmd env (get_next_subsection (wordTok name :: seg ++ after))
        = some ((redirection_pairs (wordTok name :: seg) after).map redirection_event
            ++ Event.execv name.tail (name.tail :: leading_words seg)
              :: (if env.exec_ok name.tail then [] else [Event.exit (-1)]))
      ∧ ∀ evs, parse_cmd env (get_next_subsection (wordTok name :: seg ++ after)) = some evs →
          (∀ b, Event.bin_exists b ∉ evs) ∧ Event.exit 127 ∉ evs := by
  have hlw : leading_words (wordTok name :: seg) = name :: leading_words seg := by
    simp [leading_words, wordTok, List.takeWhile_cons]
  have hh : name.headD 0 = 47 := by
    cases name with
    | nil => cases hname
    | cons a r => simpa using hname
  have hl : launch env (name :: leading_words seg)
      = some (Event.execv name.tail (name.tail :: leading_words seg)
          :: (if env.exec_ok name.tail then [] else [Event.exit (-1)])) := by
    simp only [launch]
    rw [if_pos hh]
  have hp := parse_cmd_seg env (wordTok name) seg after
    (not_is_pipe_of_word _ rfl) hseg hafter hlast hopen
  rw [hlw, hl] at hp
  refine ⟨hp, ?_⟩
  intro evs hevs
  rw [hp] at hevs
  simp only [Option.map_some', Option.some.injEq] at hevs
  subst hevs
  constructor
  · intro b hb
    rcases List.mem_append.mp hb with h | h
    · obtain ⟨p, _, hpe⟩ := List.mem_map.mp h
      exact redirection_event_ne_bin_exists p b hpe
    · rcases List.mem_cons.mp h with h | h
      · cases h
      · split_ifs at h
        · cases h
        · simp at h
  · intro hb
    rcases List.mem_append.mp hb with h | h
    · obtain ⟨p, _, hpe⟩ := List.mem_map.mp h
      unfold redirection_event at hpe
      split_ifs at hpe
    · rcases List.mem_cons.mp h with h | h
      · cases h
      · split_ifs at h
        · cases h
        · simp at h

theorem parse_cmd_slash_witness :
    parse_cmd env_no_exec (get_next_subsection (wordTok (bytes "/bin/ls")
        :: [wordTok (bytes "-l"), ⟨[62], true⟩, wordTok (bytes "out")] ++ []))
      = some ([Event.output_to_file (bytes "out") false]
          ++ Event.execv (bytes "bin/ls") [bytes "bin/ls", bytes "-l"] :: [Event.exit (-1)]) :=
  (parse_cmd_slash env_no_exec (bytes "/bin/ls")
    [wordTok (bytes "-l"), ⟨[62], true⟩, wordTok (bytes "out")] []
    (by decide) (by decide) (Or.inl rfl) (by decide) (by decide)).1

/-- C17. For `PATH=/usr/bin:/bin` the list `get_path` builds is `/usr/bin`
alone: a component is saved only when the colon after it is met, and the one
after the last colon is left in the buffer. -/
theorem get_path_drops_last :
    get_path (some (bytes "/usr/bin:/bin")) = some [bytes "/usr/bin"]
      ∧ get_path (some (bytes "/bin")) = some [] := by
  decide

theorem get_path_loop_component (comp rest path : List Nat) (phead : List (List Nat))
    (hc : ∀ c ∈ comp, c ≠ 58) :
    get_path_loop (comp ++ 58 :: rest) path phead
      = get_path_loop rest [] (save_path (path ++ comp) phead) := by
  induction comp generalizing path with
  | nil => simp [get_path_loop]
  | cons c comp ih =>
    have h58 := hc c (List.mem_cons_self _ _)
    rw [List.cons_append, get_path_loop, if_neg h58,
      ih (path ++ [c]) (fun d hd => hc d (List.mem_cons_of_mem _ hd))]
    simp

theorem get_path_loop_last (comp path : List Nat) (phead : List (List Nat))
    (hc : ∀ c ∈ comp, c ≠ 58) : get_path_loop comp path phead = phead := by
  induction comp generalizing path with
  | nil => rfl
  | cons c comp ih =>
    have h58 := hc c (List.mem_cons_self _ _)
    rw [get_path_loop, if_neg h58, ih (path ++ [c]) (fun d hd => hc d (List.mem_cons_of_mem _ hd))]

/-- The list `get_path` builds from the components of `PATH`: all of them but
the last. -/
theorem get_path_components (comps : List (List Nat))
    (hc : ∀ comp ∈ comps, ∀ c ∈ comp, c ≠ 58 ∧ c ≠ 0) :
    get_path (some (List.intercalate [58] comps)) = some comps.dropLast := by
  have key : ∀ (comps : List (List Nat)), (∀ comp ∈ comps, ∀ c ∈ comp, c ≠ 58 ∧ c ≠ 0) →
      ∀ phead, get_path_loop (List.intercalate [58] comps) [] phead
        = phead ++ comps.dropLast := by
    intro comps
    induction comps with
    | nil => intro _ phead; simp [List.intercalate, get_path_loop]
    | cons comp comps ih =>
      intro hc phead
      have h1 := hc comp (List.mem_cons_self _ _)
      cases comps with
      | nil =>
        have e : List.intercalate [58] [comp] = comp := by simp [List.intercalate]
        rw [e, get_path_loop_last comp [] phead (fun c hc => (h1 c hc).1)]
        simp
      | cons comp2 comps =>
        have e : List.intercalate [58] (comp :: comp2 :: comps)
            = comp ++ 58 :: List.intercalate [58] (comp2 :: comps) := by
          simp [List.intercalate, List.intersperse]
        rw [e, get_path_loop_component comp _ [] phead (fun c hc => (h1 c hc).1),
          ih (fun d hd => hc d (List.mem_cons_of_mem _ hd))]
        have hz : (([] : List Nat) ++ comp).takeWhile (fun c => c ≠ 0) = comp := by
          rw [List.nil_append]
          exact takeWhile_ne_zero comp (fun c hc => (h1 c hc).2)
        rw [save_path, hz]
        simp [List.dropLast]
  simp only [get_path]
  rw [key comps hc []]
  simp

/-- C18. With `PATH` set to the empty string (and likewise with `/bin`, a
value without colon) the list `get_path` gives is empty, the search loop is
not entered, and `closedir` is called on the variable `dir` that was never
assigned: `bin_exists` has no defined result. -/
theorem bin_exists_empty_path (opendir : List Nat → Option (List (List Nat)))
    (bin : List Nat) :
    bin_exists (some []) opendir bin = none
      ∧ bin_exists (some (bytes "/bin")) opendir bin = none :=
  ⟨rfl, rfl⟩

theorem scan_entries_true (bin : List Nat) (entries : List (List Nat)) (found : Bool)
    (h : scan_entries bin entries found = true) : found = true ∨ bin ∈ entries := by
  induction entries generalizing found with
  | nil => exact Or.inl h
  | cons d entries ih =>
    cases found with
    | true => exact Or.inl rfl
    | false =>
      simp only [scan_entries, if_true] at h
      by_cases hd : d = bin
      · exact Or.inr (by rw [hd]; exact List.mem_cons_self _ _)
      · rw [if_neg hd] at h
        rcases ih false h with h1 | h1
        · cases h1
        · exact Or.inr (List.mem_cons_of_mem _ h1)

theorem search_path_true (opendir : List Nat → Option (List (List Nat))) (bin : List Nat)
    (list : List (List Nat)) (found : Bool) (dir : DirVar)
    (h : (search_path opendir bin list found dir).1 = true) :
    found = true ∨ ∃ path ∈ list, ∃ entries, opendir path = some entries ∧ bin ∈ entries := by
  induction list generalizing found dir with
  | nil => exact Or.inl h
  | cons path list ih =>
    cases found with
    | true => exact Or.inl rfl
    | false =>
      right
      simp only [search_path, if_true] at h
      cases ho : opendir path with
      | none =>
        rw [ho] at h
        rcases ih false DirVar.null h with h1 | ⟨p, hp, e, he, hb⟩
        · cases h1
        · exact ⟨p, List.mem_cons_of_mem _ hp, e, he, hb⟩
      | some entries =>
        rw [ho] at h
        rcases ih _ DirVar.stream h with h1 | ⟨p, hp, e, he, hb⟩
        · rcases scan_entries_true bin entries false h1 with h2 | h2
          · cases h2
          · exact ⟨path, List.mem_cons_self _ _, entries, ho, h2⟩
        · exact ⟨p, List.mem_cons_of_mem _ hp, e, he, hb⟩

/-- When `bin_exists` returns true, some directory of the list `get_path`
gives can be opened and has an entry whose name is equal to `bin`. -/
theorem bin_exists_true (fpath : Option (List Nat))
    (opendir : List Nat → Option (List (List Nat))) (bin : List Nat)
    (h : bin_exists fpath opendir bin = some true) :
    ∃ dirs, get_path fpath = some dirs
      ∧ ∃ path ∈ dirs, ∃ entries, opendir path = some entries ∧ bin ∈ entries := by
  unfold bin_exists at h
  cases hg : get_path fpath with
  | none => rw [hg] at h; cases h
  | some phead =>
    rw [hg] at h
    simp only at h
    refine ⟨phead, rfl, ?_⟩
    have hs : (search_path opendir bin phead false DirVar.unassigned).1 = true := by
      cases hsp : search_path opendir bin phead false DirVar.unassigned with
      | mk f d =>
        rw [hsp] at h
        cases d <;> simp at h
        · exact h
        · exact h
    rcases search_path_true opendir bin phead false _ hs with h1 | h1
    · cases h1
    · exact h1

theorem splitOn_blank_cons (l : List Nat) : (32 :: l).splitOn 32 = [] :: l.splitOn 32 := by
  simp [List.splitOn, List.splitOnP_cons]

theorem splitOn_blank_cons_ne (c : Nat) (hc : c ≠ 32) (l : List Nat) :
    (c :: l).splitOn 32 = (l.splitOn 32).modifyHead (List.cons c) := by
  simp [List.splitOn, List.splitOnP_cons, hc]

theorem modifyHead_append_cons (tok : List Nat) (c : Nat) (L : List (List Nat)) :
    (L.modifyHead (List.cons c)).modifyHead (fun w => tok ++ w)
      = L.modifyHead (fun w => (tok ++ [c]) ++ w) := by
  cases L <;> simp [List.modifyHead]

theorem splitOn_blank_ne_nil (l : List Nat) : l.splitOn 32 ≠ [] := by
  simp [List.splitOn, List.splitOnP_ne_nil]

theorem plainChar_ne_blank {c : Nat} (h : plainChar c) : c ≠ 32 := h.2.2.1

/-- From `Blank_State` with an empty buffer, and from `Letter_State` with a
word in the buffer, a line of blanks and plain characters: the runs of
non-blank characters are flushed one after the other. -/
theorem loop_blank_separated (l : List Nat) (hl : ∀ c ∈ l, c = 32 ∨ plainChar c) :
    (∀ (p : Nat) (tl : List tok_node),
        loop Blank_State p (l ++ [10]) [] tl
          = ⟨tl ++ (nonblank_runs l).map wordTok, none⟩)
      ∧ (∀ (p : Nat) (tok : List Nat) (tl : List tok_node), tok ≠ [] →
          (∀ c ∈ tok, plainChar c) →
          loop Letter_State p (l ++ [10]) tok tl
            = ⟨tl ++ ((((l.splitOn 32).modifyHead (fun w => tok ++ w)).filter
                (fun w => decide (w ≠ []))).map wordTok), none⟩) := by
  induction l with
  | nil =>
    refine ⟨fun p tl => ?_, fun p tok tl hne htok => ?_⟩
    · simp [loop, body, case_Blank, nonblank_runs]
    · rw [List.nil_append, loop_Letter_end,
        save_string_clean _ _ _ (fun c hc => plainChar_ne_zero (htok c hc))]
      simp [List.modifyHead, hne, wordTok]
  | cons c l ih =>
    have hl1 : ∀ d ∈ l, d = 32 ∨ plainChar d := fun d hd => hl d (List.mem_cons_of_mem _ hd)
    obtain ⟨ihB, ihL⟩ := ih hl1
    rcases hl c (List.mem_cons_self _ _) with rfl | hc
    · refine ⟨fun p tl => ?_, fun p tok tl hne htok => ?_⟩
      · rw [List.cons_append, loop, body_Blank_blank]
        simp only []
        rw [ihB]
        simp [nonblank_runs, splitOn_blank_cons]
      · rw [List.cons_append, loop]
        have e : body Letter_State p 32 ((l ++ [10]).headD 0) tok tl
            = .cont Blank_State [] (save_string tok tl false) false := by
          simp [body, case_Letter]
        rw [e]
        simp only []
        rw [ihB, save_string_clean _ _ _ (fun c hc => plainChar_ne_zero (htok c hc))]
        simp [nonblank_runs, splitOn_blank_cons, List.modifyHead, hne, wordTok]
    · have hc32 := plainChar_ne_blank hc
      have hc1 := hc
      unfold plainChar at hc1
      have h10 : c ≠ 10 := by omega
      refine ⟨fun p tl => ?_, fun p tok tl hne htok => ?_⟩
      · rw [List.cons_append, loop]
        have e : body Blank_State p c ((l ++ [10]).headD 0) [] tl
            = .cont Letter_State [c] tl false := by
          simp [body, case_Blank, hc1, h10]
        rw [e]
        simp only []
        rw [ihL c [c] tl (by simp) (by simpa using hc)]
        simp [nonblank_runs, splitOn_blank_cons_ne c hc32]
      · rw [List.cons_append, loop, body_Letter_plain _ _ _ _ _ hc]
        simp only []
        rw [ihL c (tok ++ [c]) tl (by simp) (by
          intro d hd
          rcases List.mem_append.1 hd with h | h
          · exact htok d h
          · rw [List.mem_singleton.1 h]; exact hc)]
        rw [splitOn_blank_cons_ne c hc32, modifyHead_append_cons]

/-- From `Init_State`, a line of blanks and plain characters. -/
theorem loop_Init_blank_separated (l : List Nat) (hl : ∀ c ∈ l, c = 32 ∨ plainChar c)
    (p : Nat) :
    loop Init_State p (l ++ [10]) [] [] = ⟨(nonblank_runs l).map wordTok, none⟩ := by
  induction l generalizing p with
  | nil => simp [loop, body, case_Init, nonblank_runs]
  | cons c l ih =>
    have hl1 : ∀ d ∈ l, d = 32 ∨ plainChar d := fun d hd => hl d (List.mem_cons_of_mem _ hd)
    rcases hl c (List.mem_cons_self _ _) with rfl | hc
    · rw [List.cons_append, loop]
      have e : body Init_State p 32 ((l ++ [10]).headD 0) [] []
          = .cont Init_State [] [] false := by
        simp [body, case_Init]
      rw [e]
      simp only []
      rw [ih hl1]
      simp [nonblank_runs, splitOn_blank_cons]
    · have hc32 := plainChar_ne_blank hc
      have hc1 := hc
      unfold plainChar at hc1
      have h10 : c ≠ 10 := by omega
      rw [List.cons_append, loop]
      have e : body Init_State p c ((l ++ [10]).headD 0) [] []
          = .cont Letter_State [c] [] false := by
        simp [body, case_Init, hc1, h10]
      rw [e]
      simp only []
      rw [(loop_blank_separated l hl1).2 c [c] [] (by simp) (by simpa using hc)]
      simp [nonblank_runs, splitOn_blank_cons_ne c hc32]

theorem nonblank_runs_blanks (l : List Nat) (hl : ∀ c ∈ l, c = 32) : nonblank_runs l = [] := by
  induction l with
  | nil => simp [nonblank_runs]
  | cons c l ih =>
    obtain rfl := hl c (List.mem_cons_self _ _)
    have := ih (fun d hd => hl d (List.mem_cons_of_mem _ hd))
    simpa [nonblank_runs, splitOn_blank_cons] using this

/-- C26. A line of blanks and plain word characters, ended by the line
terminator: `tokenize` prints no message and leaves the maximal runs of
non-blank characters of the line, from left to right, each as a word token;
none of these tokens is empty, and a line of blanks only leaves no token. -/
theorem tokenize_blank_separated (l : List Nat) (hl : ∀ c ∈ l, c = 32 ∨ plainChar c) :
    tokenize [] (l ++ [10]) = some ⟨(nonblank_runs l).map wordTok, none⟩
      ∧ (∀ r, tokenize [] (l ++ [10]) = some r →
          ∀ t ∈ r.tlist, t.token ≠ [] ∧ t.special = false)
      ∧ ((∀ c ∈ l, c = 32) → tokenize [] (l ++ [10]) = some ⟨[], none⟩) := by
  have h : tokenize [] (l ++ [10]) = some ⟨(nonblank_runs l).map wordTok, none⟩ := by
    rw [tokenize_nl, loop_Init_blank_separated l hl]
  refine ⟨h, fun r hr t ht => ?_, fun hb => ?_⟩
  · rw [h] at hr
    simp only [Option.some.injEq] at hr
    subst hr
    simp only [List.mem_map] at ht
    obtain ⟨w, hw, rfl⟩ := ht
    simp only [nonblank_runs, List.mem_filter, decide_eq_true_eq] at hw
    exact ⟨hw.2, rfl⟩
  · rw [h, nonblank_runs_blanks l hb]
    rfl

theorem tokenize_blank_separated_witness :
    (∀ c ∈ bytes "  ls   -l  /tmp ", c = 32 ∨ plainChar c)
      ∧ tokenize [] (bytes "  ls   -l  /tmp " ++ [10])
          = some ⟨[wordTok (bytes "ls"), wordTok (bytes "-l"), wordTok (bytes "/tmp")], none⟩ :=
  ⟨by decide, (tokenize_blank_separated (bytes "  ls   -l  /tmp ") (by decide)).1⟩

/-- From `Init_State`, a possibly empty plain word and then an opening quote:
the word stays in the buffer. -/
theorem loop_Init_word_quote (q : Nat) (hq : q = 39 ∨ q = 34) (u : List Nat)
    (hu : ∀ c ∈ u, plainChar c) (p : Nat) (r : List Nat) (tl : List tok_node) :
    loop Init_State p (u ++ q :: r) [] tl = loop (quoteState q) q r u tl := by
  cases u with
  | nil => exact loop_Init_quote q hq p r [] tl
  | cons c w =>
    have hc := hu c (List.mem_cons_self _ _)
    have hw : ∀ d ∈ w, plainChar d := fun d hd => hu d (List.mem_cons_of_mem _ hd)
    rw [loop_Init_word c w hc hw p c, loop]
    rcases hq with rfl | rfl
    · simp [body, case_Letter, quoteState]
    · simp [body, case_Letter, quoteState]

/-- The closing quote followed by a plain character: the character goes on
in the same buffer. -/
theorem loop_quote_close_plain (q : Nat) (hq : q = 39 ∨ q = 34) (c : Nat) (hc : plainChar c)
    (p : Nat) (r tok : List Nat) (tl : List tok_node) :
    loop (quoteState q) p (q :: c :: r) tok tl = loop Letter_State c r (tok ++ [c]) tl := by
  unfold plainChar at hc
  rw [loop]
  rcases hq with rfl | rfl
  · have e : body (quoteState 39) p 39 ((c :: r).headD 0) tok tl
        = .cont Letter_State (tok ++ [c]) tl true := by
      simp [body, case_Single_Quote, quoteState, hc]
    rw [e]
  · have e : body (quoteState 34) p 34 ((c :: r).headD 0) tok tl
        = .cont Letter_State (tok ++ [c]) tl true := by
      simp [body, case_Double_Quote, quoteState, hc]
    rw [e]

/-- The closing quote followed by an opening quote of either kind: the
buffer is kept. -/
theorem loop_quote_close_quote (q : Nat) (hq : q = 39 ∨ q = 34) (q2 : Nat)
    (hq2 : q2 = 39 ∨ q2 = 34) (p : Nat) (r tok : List Nat) (tl : List tok_node) :
    loop (quoteState q) p (q :: q2 :: r) tok tl = loop (quoteState q2) q2 r tok tl := by
  rw [loop]
  rcases hq with rfl | rfl <;> rcases hq2 with rfl | rfl <;>
    simp [body, case_Single_Quote, case_Double_Quote, quoteState]

/-- The closing quote followed by a possibly empty plain word and the line
terminator: one word is flushed. -/
theorem loop_quote_close_word (q : Nat) (hq : q = 39 ∨ q = 34) (w : List Nat)
    (hw : ∀ c ∈ w, plainChar c) (p : Nat) (tok : List Nat) (tl : List tok_node) :
    loop (quoteState q) p (q :: (w ++ [10])) tok tl
      = ⟨save_string (tok ++ w) tl false, none⟩ := by
  cases w with
  | nil => simpa using loop_quote_close_end q hq p tok tl
  | cons c w =>
    have hc := hw c (List.mem_cons_self _ _)
    have hw1 : ∀ d ∈ w, plainChar d := fun d hd => hw d (List.mem_cons_of_mem _ hd)
    rw [List.cons_append, loop_quote_close_plain q hq c hc, loop_Letter_word w hw1 c c,
      loop_Letter_end]
    simp

/-- C27. A quoted part with plain word characters right before and right
after it is one word: for plain `u` and `w`, empty or not, and `v` without
the enclosing quote, backslash and line terminator, the line
`u q v q w` gives the single word token `u v w`; and two quoted parts side by
side, with the same quote or different ones, are one word as well. -/
theorem tokenize_quote_adjacent (q : Nat) (hq : q = 39 ∨ q = 34) (q2 : Nat)
    (hq2 : q2 = 39 ∨ q2 = 34) (u v v2 w : List Nat)
    (hu : ∀ c ∈ u, plainChar c) (hw : ∀ c ∈ w, plainChar c)
    (hv : ∀ c ∈ v, litChar q c) (hv2 : ∀ c ∈ v2, litChar q2 c) :
    tokenize [] (u ++ [q] ++ v ++ [q] ++ w ++ [10])
        = some ⟨[wordTok (u ++ v ++ w)], none⟩
      ∧ tokenize [] (u ++ [q] ++ v ++ [q] ++ [q2] ++ v2 ++ [q2] ++ w ++ [10])
        = some ⟨[wordTok (u ++ v ++ v2 ++ w)], none⟩ := by
  have hz : ∀ c ∈ u ++ v ++ w, c ≠ 0 := by
    intro c hc
    simp only [List.mem_append] at hc
    rcases hc with (h | h) | h
    · exact plainChar_ne_zero (hu c h)
    · exact (hv c h).2.2.2
    · exact plainChar_ne_zero (hw c h)
  have hz2 : ∀ c ∈ u ++ v ++ v2 ++ w, c ≠ 0 := by
    intro c hc
    simp only [List.mem_append] at hc
    rcases hc with ((h | h) | h) | h
    · exact plainChar_ne_zero (hu c h)
    · exact (hv c h).2.2.2
    · exact (hv2 c h).2.2.2
    · exact plainChar_ne_zero (hw c h)
  constructor
  · rw [tokenize_nl]
    have e : u ++ [q] ++ v ++ [q] ++ w ++ [10] = u ++ q :: (v ++ q :: (w ++ [10])) := by simp
    rw [e, loop_Init_word_quote q hq u hu, loop_quote_lit q hq v hv q q,
      loop_quote_close_word q hq w hw, save_string_clean _ _ _ hz]
    rfl
  · rw [tokenize_nl]
    have e : u ++ [q] ++ v ++ [q] ++ [q2] ++ v2 ++ [q2] ++ w ++ [10]
        = u ++ q :: (v ++ q :: q2 :: (v2 ++ q2 :: (w ++ [10]))) := by simp
    rw [e, loop_Init_word_quote q hq u hu, loop_quote_lit q hq v hv q q,
      loop_quote_close_quote q hq q2 hq2, loop_quote_lit q2 hq2 v2 hv2 q2 q2,
      loop_quote_close_word q2 hq2 w hw, save_string_clean _ _ _ hz2]
    rfl

theorem tokenize_quote_adjacent_witness :
    tokenize [] (bytes "ab" ++ [39] ++ bytes "c d|" ++ [39] ++ bytes "ef" ++ [10])
        = some ⟨[wordTok (bytes "ab" ++ bytes "c d|" ++ bytes "ef")], none⟩
      ∧ tokenize [] (bytes "ab" ++ [39] ++ bytes "c d|" ++ [39] ++ [34] ++ bytes "x y" ++ [34]
          ++ bytes "ef" ++ [10])
        = some ⟨[wordTok (bytes "ab" ++ bytes "c d|" ++ bytes "x y" ++ bytes "ef")], none⟩ :=
  tokenize_quote_adjacent 39 (Or.inl rfl) 34 (Or.inr rfl) (bytes "ab") (bytes "c d|")
    (bytes "x y") (bytes "ef") (by decide) (by decide) (by decide) (by decide)

/-- C25. The line `a > 'b\` with its terminator: inside the quote the
backslash takes the line terminator as the escaped character, the loop ends
without a message, and the tokens left are `a` and `>`: the last token is an
operator.  On the subsection of these tokens `parse_cmd` reads the node after
`>`, and there is none.  On a line whose terminator is not taken inside a
quote the tokens do alternate: the first and the last are words and no two
operators stand side by side. -/
theorem tokenize_ends_with_operator :
    tokenize [] (bytes "a > 'b\\\n") = some ⟨[wordTok (bytes "a"), ⟨bytes ">", true⟩], none⟩
      ∧ (∀ env : Env,
          parse_cmd env (get_next_subsection [wordTok (bytes "a"), ⟨bytes ">", true⟩]) = none)
      ∧ (∀ (line : List Nat) (r : Result), tokenize [] line = some r →
          quotedAt line [10] = false →
          r.tlist = [] ∨ (Alt r.tlist ∧ EndsWord r.tlist)) :=
  ⟨by decide, fun _ => rfl, tokenize_alternates⟩

/-- With three tokens `setenv` sets the variable and returns 0. -/
theorem run_internal_cmd_setenv_example :
    run_internal_cmd libc_simple ⟨[], bytes "/"⟩
        (tlist_handler [wordTok (bytes "setenv"), wordTok (bytes "A"), wordTok (bytes "b")])
      = some (Outcome.returned 0, ⟨[(bytes "A", bytes "b")], bytes "/"⟩) := by
  decide

theorem tlist_handler_tail (t : tok_node) (tl : List tok_node) :
    ∃ last, (tlist_handler (t :: tl)).tail = some [last] := by
  have h : ∀ (l : List tok_node) (a : tok_node), ∃ last, (a :: l).drop l.length = [last] := by
    intro l
    induction l with
    | nil => exact fun a => ⟨a, rfl⟩
    | cons b l ih => exact fun a => ih b
  obtain ⟨last, hl⟩ := h tl t
  exact ⟨last, by simp only [tlist_handler, List.length_cons, Nat.add_sub_cancel]; rw [hl]⟩


/-- C28. The one-token list `setenv`: `env_var_set` reads `head->next->token`
before it looks at `count`, and `head->next` is `NULL`; no value is returned.
With two tokens or more and a count other than 3, `setenv` returns -1 and
changes nothing; so do `unsetenv` and `cd` with any count other than 2. -/
theorem run_internal_cmd_wrong_count {σ : Type} (libc : Libc σ) (s : σ) :
    run_internal_cmd libc s (tlist_handler [wordTok (bytes "setenv")]) = none
      ∧ (∀ (first second : tok_node) (rest : List tok_node),
          first.token = bytes "setenv" → (first :: second :: rest).length ≠ 3 →
          run_internal_cmd libc s (tlist_handler (first :: second :: rest))
            = some (Outcome.returned (-1), s))
      ∧ (∀ (first : tok_node) (rest : List tok_node),
          first.token = bytes "unsetenv" ∨ first.token = bytes "cd" →
          (first :: rest).length ≠ 2 →
          run_internal_cmd libc s (tlist_handler (first :: rest))
            = some (Outcome.returned (-1), s)) := by
  refine ⟨rfl, ?_, ?_⟩
  · intro first second rest hf hlen
    obtain ⟨last, hlast⟩ := tlist_handler_tail first (second :: rest)
    have hb := hf
    have hc : (tlist_handler (first :: second :: rest)).count ≠ 3 := hlen
    have hh : (tlist_handler (first :: second :: rest)).head = first :: second :: rest := rfl
    simp only [run_internal_cmd, hh, if_pos hb, env_var_set, hlast, if_neg hc]
    rfl
  · intro first rest hf hlen
    have hc : (tlist_handler (first :: rest)).count ≠ 2 := hlen
    have hh : (tlist_handler (first :: rest)).head = first :: rest := rfl
    rcases hf with hf | hf
    · have hb := hf
      have hn : first.token ≠ bytes "setenv" := by rw [hb]; decide
      simp only [run_internal_cmd, hh, if_neg hn, if_pos hb, env_var_delete, if_neg hc]
      rfl
    · have hb := hf
      have hn : first.token ≠ bytes "setenv" := by rw [hb]; decide
      have hn2 : first.token ≠ bytes "unsetenv" := by rw [hb]; decide
      simp only [run_internal_cmd, hh, if_neg hn, if_neg hn2, if_pos hb, change_directory,
        if_neg hc]
      rfl

theorem case_Init_on_rel {L1 L2 : Type} (R : L1 → L2 → Prop)
    (s1 : List Nat → L1 → Bool → L1) (f1 : L1 → L1)
    (s2 : List Nat → L2 → Bool → L2) (f2 : L2 → L2)
    (hs : ∀ tok a b sp, R a b → R (s1 tok a sp) (s2 tok b sp))
    (hf : ∀ a b, R a b → R (f1 a) (f2 b))
    (ch : Nat) (tok : List Nat) (a : L1) (b : L2) (h : R a b) :
    StepOn.Rel R (case_Init_on s1 f1 ch tok a) (case_Init_on s2 f2 ch tok b) := by
  have fin1 : ∀ (st : Token_Sys_State) (tk : List Nat) (sk : Bool),
      StepOn.Rel R (.cont st tk a sk) (.cont st tk b sk) := fun _ _ _ => ⟨rfl, rfl, rfl, h⟩
  have fin2 : ∀ (st : Token_Sys_State) (tk tk2 : List Nat) (sp sk : Bool),
      StepOn.Rel R (.cont st tk (s1 tk2 a sp) sk) (.cont st tk (s2 tk2 b sp) sk) :=
    fun _ _ _ _ _ => ⟨rfl, rfl, rfl, hs _ _ _ _ h⟩
  have fin3 : ∀ (e : Option Diag), StepOn.Rel R (.stop (f1 a) e) (.stop (f2 b) e) :=
    fun _ => ⟨rfl, hf _ _ h⟩
  have fin4 : ∀ (e : Option Diag), StepOn.Rel R (.stop a e) (.stop b e) :=
    fun _ => ⟨rfl, h⟩
  unfold case_Init_on
  split_ifs
  · exact fin4 _
  · exact fin1 _ _ _
  · exact fin1 _ _ _
  · exact fin4 _
  · exact fin1 _ _ _
  · exact fin1 _ _ _
  · exact fin4 _

theorem case_Letter_on_rel {L1 L2 : Type} (R : L1 → L2 → Prop)
    (s1 : List Nat → L1 → Bool → L1) (f1 : L1 → L1)
    (s2 : List Nat → L2 → Bool → L2) (f2 : L2 → L2)
    (hs : ∀ tok a b sp, R a b → R (s1 tok a sp) (s2 tok b sp))
    (hf : ∀ a b, R a b → R (f1 a) (f2 b))
    (ch : Nat) (tok : List Nat) (a : L1) (b : L2) (h : R a b) :
    StepOn.Rel R (case_Letter_on s1 f1 ch tok a) (case_Letter_on s2 f2 ch tok b) := by
  have fin1 : ∀ (st : Token_Sys_State) (tk : List Nat) (sk : Bool),
      StepOn.Rel R (.cont st tk a sk) (.cont st tk b sk) := fun _ _ _ => ⟨rfl, rfl, rfl, h⟩
  have fin2 : ∀ (st : Token_Sys_State) (tk tk2 : List Nat) (sp sk : Bool),
      StepOn.Rel R (.cont st tk (s1 tk2 a sp) sk) (.cont st tk (s2 tk2 b sp) sk) :=
    fun _ _ _ _ _ => ⟨rfl, rfl, rfl, hs _ _ _ _ h⟩
  have fin3 : ∀ (e : Option Diag), StepOn.Rel R (.stop (f1 a) e) (.stop (f2 b) e) :=
    fun _ => ⟨rfl, hf _ _ h⟩
  have fin4 : ∀ (e : Option Diag), StepOn.Rel R (.stop a e) (.stop b e) :=
    fun _ => ⟨rfl, h⟩
  unfold case_Letter_on
  split_ifs
  · exact fin2 _ _ _ _ _
  · exact fin1 _ _ _
  · exact fin1 _ _ _
  · exact fin2 _ _ _ _ _
  · exact fin2 _ _ _ _ _
  · exact fin1 _ _ _
  · exact fin3 _

theorem case_Blank_on_rel {L1 L2 : Type} (R : L1 → L2 → Prop)
    (s1 : List Nat → L1 → Bool → L1) (f1 : L1 → L1)
    (s2 : List Nat → L2 → Bool → L2) (f2 : L2 → L2)
    (hs : ∀ tok a b sp, R a b → R (s1 tok a sp) (s2 tok b sp))
    (hf : ∀ a b, R a b → R (f1 a) (f2 b))
    (ch : Nat) (tok : List Nat) (a : L1) (b : L2) (h : R a b) :
    StepOn.Rel R (case_Blank_on s1 f1 ch tok a) (case_Blank_on s2 f2 ch tok b) := by
  have fin1 : ∀ (st : Token_Sys_State) (tk : List Nat) (sk : Bool),
      StepOn.Rel R (.cont st tk a sk) (.cont st tk b sk) := fun _ _ _ => ⟨rfl, rfl, rfl, h⟩
  have fin2 : ∀ (st : Token_Sys_State) (tk tk2 : List Nat) (sp sk : Bool),
      StepOn.Rel R (.cont st tk (s1 tk2 a sp) sk) (.cont st tk (s2 tk2 b sp) sk) :=
    fun _ _ _ _ _ => ⟨rfl, rfl, rfl, hs _ _ _ _ h⟩
  have fin3 : ∀ (e : Option Diag), StepOn.Rel R (.stop (f1 a) e) (.stop (f2 b) e) :=
    fun _ => ⟨rfl, hf _ _ h⟩
  have fin4 : ∀ (e : Option Diag), StepOn.Rel R (.stop a e) (.stop b e) :=
    fun _ => ⟨rfl, h⟩
  unfold case_Blank_on
  split_ifs
  · exact fin1 _ _ _
  · exact fin1 _ _ _
  · exact fin1 _ _ _
  · exact fin1 _ _ _
  · exact fin1 _ _ _
  · exact fin1 _ _ _
  · exact fin3 _

theorem case_Redirect_on_rel {L1 L2 : Type} (R : L1 → L2 → Prop)
    (s1 : List Nat → L1 → Bool → L1) (f1 : L1 → L1)
    (s2 : List Nat → L2 → Bool → L2) (f2 : L2 → L2)
    (hs : ∀ tok a b sp, R a b → R (s1 tok a sp) (s2 tok b sp))
    (hf : ∀ a b, R a b → R (f1 a) (f2 b))
    (prev ch nxt : Nat) (tok : List Nat) (a : L1) (b : L2) (h : R a b) :
    StepOn.Rel R (case_Redirect_on s1 f1 prev ch nxt tok a) (case_Redirect_on s2 f2 prev ch nxt tok b) := by
  have fin1 : ∀ (st : Token_Sys_State) (tk : List Nat) (sk : Bool),
      StepOn.Rel R (.cont st tk a sk) (.cont st tk b sk) := fun _ _ _ => ⟨rfl, rfl, rfl, h⟩
  have fin2 : ∀ (st : Token_Sys_State) (tk tk2 : List Nat) (sp sk : Bool),
      StepOn.Rel R (.cont st tk (s1 tk2 a sp) sk) (.cont st tk (s2 tk2 b sp) sk) :=
    fun _ _ _ _ _ => ⟨rfl, rfl, rfl, hs _ _ _ _ h⟩
  have fin3 : ∀ (e : Option Diag), StepOn.Rel R (.stop (f1 a) e) (.stop (f2 b) e) :=
    fun _ => ⟨rfl, hf _ _ h⟩
  have fin4 : ∀ (e : Option Diag), StepOn.Rel R (.stop a e) (.stop b e) :=
    fun _ => ⟨rfl, h⟩
  unfold case_Redirect_on
  split_ifs
  · exact fin2 _ _ _ _ _
  · exact fin2 _ _ _ _ _
  · exact fin3 _
  · exact fin3 _
  · exact fin3 _
  · exact fin1 _ _ _
  · exact fin3 _
  · exact fin1 _ _ _
  · exact fin2 _ _ _ _ _
  · exact fin3 _

theorem case_Single_Quote_on_rel {L1 L2 : Type} (R : L1 → L2 → Prop)
    (s1 : List Nat → L1 → Bool → L1) (f1 : L1 → L1)
    (s2 : List Nat → L2 → Bool → L2) (f2 : L2 → L2)
    (hs : ∀ tok a b sp, R a b → R (s1 tok a sp) (s2 tok b sp))
    (hf : ∀ a b, R a b → R (f1 a) (f2 b))
    (ch nxt : Nat) (tok : List Nat) (a : L1) (b : L2) (h : R a b) :
    StepOn.Rel R (case_Single_Quote_on s1 f1 ch nxt tok a) (case_Single_Quote_on s2 f2 ch nxt tok b) := by
  have fin1 : ∀ (st : Token_Sys_State) (tk : List Nat) (sk : Bool),
      StepOn.Rel R (.cont st tk a sk) (.cont st tk b sk) := fun _ _ _ => ⟨rfl, rfl, rfl, h⟩
  have fin2 : ∀ (st : Token_Sys_State) (tk tk2 : List Nat) (sp sk : Bool),
      StepOn.Rel R (.cont st tk (s1 tk2 a sp) sk) (.cont st tk (s2 tk2 b sp) sk) :=
    fun _ _ _ _ _ => ⟨rfl, rfl, rfl, hs _ _ _ _ h⟩
  have fin3 : ∀ (e : Option Diag), StepOn.Rel R (.stop (f1 a) e) (.stop (f2 b) e) :=
    fun _ => ⟨rfl, hf _ _ h⟩
  have fin4 : ∀ (e : Option Diag), StepOn.Rel R (.stop a e) (.stop b e) :=
    fun _ => ⟨rfl, h⟩
  unfold case_Single_Quote_on
  by_cases h1 : ch = 39
  · rw [if_pos h1, if_pos h1]
    split_ifs
    · exact fin1 _ _ _
    · exact fin1 _ _ _
    · exact fin2 _ _ _ _ _
    · exact fin2 _ _ _ _ _
    · exact fin1 _ _ _
    · exact fin2 _ _ _ _ _
    · exact fin3 _
  · rw [if_neg h1, if_neg h1]
    by_cases h2 : ch = 10
    · rw [if_pos h2, if_pos h2]; exact fin3 _
    · rw [if_neg h2, if_neg h2]
      by_cases h3 : ch = 92
      · rw [if_pos h3, if_pos h3]
        split_ifs <;> exact fin1 _ _ _
      · rw [if_neg h3, if_neg h3]; exact fin1 _ _ _

theorem case_Double_Quote_on_rel {L1 L2 : Type} (R : L1 → L2 → Prop)
    (s1 : List Nat → L1 → Bool → L1) (f1 : L1 → L1)
    (s2 : List Nat → L2 → Bool → L2) (f2 : L2 → L2)
    (hs : ∀ tok a b sp, R a b → R (s1 tok a sp) (s2 tok b sp))
    (hf : ∀ a b, R a b → R (f1 a) (f2 b))
    (ch nxt : Nat) (tok : List Nat) (a : L1) (b : L2) (h : R a b) :
    StepOn.Rel R (case_Double_Quote_on s1 f1 ch nxt tok a) (case_Double_Quote_on s2 f2 ch nxt tok b) := by
  have fin1 : ∀ (st : Token_Sys_State) (tk : List Nat) (sk : Bool),
      StepOn.Rel R (.cont st tk a sk) (.cont st tk b sk) := fun _ _ _ => ⟨rfl, rfl, rfl, h⟩
  have fin2 : ∀ (st : Token_Sys_State) (tk tk2 : List Nat) (sp sk : Bool),
      StepOn.Rel R (.cont st tk (s1 tk2 a sp) sk) (.cont st tk (s2 tk2 b sp) sk) :=
    fun _ _ _ _ _ => ⟨rfl, rfl, rfl, hs _ _ _ _ h⟩
  have fin3 : ∀ (e : Option Diag), StepOn.Rel R (.stop (f1 a) e) (.stop (f2 b) e) :=
    fun _ => ⟨rfl, hf _ _ h⟩
  have fin4 : ∀ (e : Option Diag), StepOn.Rel R (.stop a e) (.stop b e) :=
    fun _ => ⟨rfl, h⟩
  unfold case_Double_Quote_on
  by_cases h1 : ch = 34
  · rw [if_pos h1, if_pos h1]
    split_ifs
    · exact fin1 _ _ _
    · exact fin1 _ _ _
    · exact fin2 _ _ _ _ _
    · exact fin2 _ _ _ _ _
    · exact fin1 _ _ _
    · exact fin2 _ _ _ _ _
    · exact fin3 _
  · rw [if_neg h1, if_neg h1]
    by_cases h2 : ch = 10
    · rw [if_pos h2, if_pos h2]; exact fin3 _
    · rw [if_neg h2, if_neg h2]
      by_cases h3 : ch = 92
      · rw [if_pos h3, if_pos h3]
        split_ifs <;> exact fin1 _ _ _
      · rw [if_neg h3, if_neg h3]; exact fin1 _ _ _

/-- One pass over lists related by `R`, with operations that keep `R`. -/
theorem body_on_rel {L1 L2 : Type} (R : L1 → L2 → Prop)
    (s1 : List Nat → L1 → Bool → L1) (f1 : L1 → L1)
    (s2 : List Nat → L2 → Bool → L2) (f2 : L2 → L2)
    (hs : ∀ tok a b sp, R a b → R (s1 tok a sp) (s2 tok b sp))
    (hf : ∀ a b, R a b → R (f1 a) (f2 b))
    (st : Token_Sys_State) (p ch n : Nat) (tok : List Nat) (a : L1) (b : L2) (h : R a b) :
    StepOn.Rel R (body_on s1 f1 st p ch n tok a) (body_on s2 f2 st p ch n tok b) := by
  cases st
  · exact case_Init_on_rel R s1 f1 s2 f2 hs hf ch tok a b h
  · exact case_Blank_on_rel R s1 f1 s2 f2 hs hf ch tok a b h
  · exact case_Letter_on_rel R s1 f1 s2 f2 hs hf ch tok a b h
  · exact case_Redirect_on_rel R s1 f1 s2 f2 hs hf p ch n tok a b h
  · exact case_Single_Quote_on_rel R s1 f1 s2 f2 hs hf ch n tok a b h
  · exact case_Double_Quote_on_rel R s1 f1 s2 f2 hs hf ch n tok a b h

/-- The loop over lists related by `R`, with operations that keep `R`: the
same message, and lists related by `R`. -/
theorem loop_on_rel {L1 L2 : Type} (R : L1 → L2 → Prop)
    (s1 : List Nat → L1 → Bool → L1) (f1 : L1 → L1)
    (s2 : List Nat → L2 → Bool → L2) (f2 : L2 → L2)
    (hs : ∀ tok a b sp, R a b → R (s1 tok a sp) (s2 tok b sp))
    (hf : ∀ a b, R a b → R (f1 a) (f2 b)) :
    ∀ (n : Nat) (input : List Nat), input.length ≤ n →
    ∀ (st : Token_Sys_State) (p : Nat) (tok : List Nat) (a : L1) (b : L2), R a b →
      (loop_on s1 f1 st p input tok a).2 = (loop_on s2 f2 st p input tok b).2
        ∧ R (loop_on s1 f1 st p input tok a).1 (loop_on s2 f2 st p input tok b).1 := by
  intro n
  induction n with
  | zero =>
    intro input hn st p tok a b h
    have : input = [] := List.length_eq_zero.1 (Nat.le_zero.1 hn)
    subst this
    exact ⟨rfl, h⟩
  | succ n ih =>
    intro input hn st p tok a b h
    cases input with
    | nil => exact ⟨rfl, h⟩
    | cons ch rest =>
      have hr : rest.length ≤ n := by simpa using hn
      have hb := body_on_rel R s1 f1 s2 f2 hs hf st p ch (rest.headD 0) tok a b h
      rw [loop_on, loop_on]
      generalize body_on s1 f1 st p ch (rest.headD 0) tok a = x at hb
      generalize body_on s2 f2 st p ch (rest.headD 0) tok b = y at hb
      cases x with
      | stop l e =>
        cases y with
        | stop l2 e2 => exact ⟨hb.1, hb.2⟩
        | cont _ _ _ _ => exact hb.elim
      | cont st1 tok1 l sk =>
        cases y with
        | stop _ _ => exact hb.elim
        | cont st2 tok2 l2 sk2 =>
          obtain ⟨rfl, rfl, rfl, hR⟩ := hb
          cases sk with
          | false => exact ih rest hr _ _ _ _ _ hR
          | true =>
            cases rest with
            | nil => exact ⟨rfl, hR⟩
            | cons nx rest1 =>
              exact ih rest1 (by simp at hr; omega) _ _ _ _ _ hR

/-- A pass through the `switch` on lists of nodes, as a pass over `L`. -/
theorem body_on_list (st : Token_Sys_State) (p ch nx : Nat) (tok : List Nat)
    (tl : List tok_node) :
    body_on save_string free_tok_list st p ch nx tok tl
      = Step.toOn (body st p ch nx tok tl) := by
  cases st
  · simp only [body_on, body, case_Init_on, case_Init, apply_ite Step.toOn]
    rfl
  · simp only [body_on, body, case_Blank_on, case_Blank, apply_ite Step.toOn]
    rfl
  · simp only [body_on, body, case_Letter_on, case_Letter, apply_ite Step.toOn]
    rfl
  · simp only [body_on, body, case_Redirect_on, case_Redirect, apply_ite Step.toOn]
    rfl
  · simp only [body_on, body, case_Single_Quote_on, case_Single_Quote, apply_ite Step.toOn]
    rfl
  · simp only [body_on, body, case_Double_Quote_on, case_Double_Quote, apply_ite Step.toOn]
    rfl

/-- The scanner over `L`, taken at the lists of nodes with `save_string` and
`free_tok_list`, is `loop`. -/
theorem loop_on_list (n : Nat) :
    ∀ (input : List Nat), input.length ≤ n →
    ∀ (st : Token_Sys_State) (p : Nat) (tok : List Nat) (tl : List tok_node),
      loop_on save_string free_tok_list st p input tok tl
        = ((loop st p input tok tl).tlist, (loop st p input tok tl).err) := by
  induction n with
  | zero =>
    intro input hn st p tok tl
    have : input = [] := List.length_eq_zero.1 (Nat.le_zero.1 hn)
    subst this
    rfl
  | succ n ih =>
    intro input hn st p tok tl
    cases input with
    | nil => rfl
    | cons ch rest =>
      have hr : rest.length ≤ n := by simpa using hn
      rw [loop_on, loop, body_on_list]
      generalize body st p ch (rest.headD 0) tok tl = x
      cases x with
      | stop l e => rfl
      | cont st1 tok1 l sk =>
        cases sk with
        | false => exact ih rest hr _ _ _ _
        | true =>
          cases rest with
          | nil => rfl
          | cons nx rest1 => exact ih rest1 (by simp at hr; omega) _ _ _ _

/-- The function `tokenize` over `L`, taken at the lists of nodes, is
`tokenize`. -/
theorem tokenize_on_list (tl : List tok_node) (input : List Nat) :
    tokenize_on save_string free_tok_list tl input
      = (tokenize tl input).map (fun r => (r.tlist, r.err)) := by
  unfold tokenize_on tokenize
  cases input.getLast? with
  | none => rfl
  | some c =>
    simp only []
    split_ifs
    · rfl
    · simp only [Option.map_some', loop_on_list input.length input (Nat.le_refl _)]

theorem linked_nil_iff (mem : List Cell) (p : Option Nat) : linked mem p [] ↔ p = none := by
  unfold linked; exact Iff.rfl

theorem linked_cons_iff (mem : List Cell) (p : Option Nat) (a : Nat) (as : List Nat) :
    linked mem p (a :: as)
      ↔ p = some a ∧ ∃ c, mem[a]? = some c ∧ c.freed = false ∧ linked mem c.next as := by
  rw [linked]
  constructor
  · rintro ⟨hp, h⟩
    cases hc : mem[a]? with
    | none => rw [hc] at h; exact h.elim
    | some c => rw [hc] at h; exact ⟨hp, c, rfl, h⟩
  · rintro ⟨hp, c, hc, h⟩
    rw [hc]; exact ⟨hp, h⟩

/-- The nodes reached from a pointer are determined by it. -/
theorem linked_unique (mem : List Cell) :
    ∀ (xs ys : List Nat) (p : Option Nat), linked mem p xs → linked mem p ys → xs = ys := by
  intro xs
  induction xs with
  | nil =>
    intro ys p hx hy
    rw [linked_nil_iff] at hx
    cases ys with
    | nil => rfl
    | cons b bs =>
      rw [linked_cons_iff] at hy
      rw [hx] at hy
      cases hy.1
  | cons a as ih =>
    intro ys p hx hy
    rw [linked_cons_iff] at hx
    obtain ⟨hp, c, hc, _, hl⟩ := hx
    cases ys with
    | nil =>
      rw [linked_nil_iff] at hy
      rw [hy] at hp
      cases hp
    | cons b bs =>
      rw [linked_cons_iff] at hy
      obtain ⟨hp2, c2, hc2, _, hl2⟩ := hy
      rw [hp] at hp2
      cases hp2
      rw [hc] at hc2
      cases hc2
      rw [ih bs _ hl hl2]

theorem linked_suffix (mem : List Cell) (a : Nat) (ys : List Nat) :
    ∀ (xs : List Nat) (p : Option Nat), linked mem p (xs ++ a :: ys) →
      linked mem (some a) (a :: ys) := by
  intro xs
  induction xs with
  | nil =>
    intro p h
    have hp := ((linked_cons_iff mem p a ys).1 h).1
    rw [← hp]; exact h
  | cons x xs ih =>
    intro p h
    rw [List.cons_append, linked_cons_iff] at h
    obtain ⟨_, c, _, _, hl⟩ := h
    exact ih _ hl

/-- No node is reached twice. -/
theorem linked_nodup (mem : List Cell) :
    ∀ (ps : List Nat) (p : Option Nat), linked mem p ps → ps.Nodup := by
  intro ps
  induction ps with
  | nil => exact fun _ _ => List.nodup_nil
  | cons a as ih =>
    intro p h
    have h0 := h
    rw [linked_cons_iff] at h
    obtain ⟨hp, c, hc, hf, hl⟩ := h
    refine List.nodup_cons.2 ⟨fun hmem => ?_, ih _ hl⟩
    obtain ⟨s, t, hst⟩ := List.append_of_mem hmem
    rw [hst] at hl
    have h1 := linked_suffix mem a t s _ hl
    rw [hp] at h0
    have h2 := linked_unique mem _ _ _ h1 h0
    have h3 : t = as := by simpa using h2
    have h4 := congrArg List.length hst
    rw [← h3] at h4
    simp at h4
    omega

theorem linked_valid (mem : List Cell) :
    ∀ (ps : List Nat) (p : Option Nat), linked mem p ps →
      ∀ a ∈ ps, ∃ c, mem[a]? = some c ∧ c.freed = false := by
  intro ps
  induction ps with
  | nil => exact fun _ _ a ha => by cases ha
  | cons b bs ih =>
    intro p h a ha
    rw [linked_cons_iff] at h
    obtain ⟨_, c, hc, hf, hl⟩ := h
    rcases List.mem_cons.1 ha with rfl | ha
    · exact ⟨c, hc, hf⟩
    · exact ih _ hl a ha

/-- The last node reached has the link `NULL`. -/
theorem linked_last (mem : List Cell) :
    ∀ (ps : List Nat) (p : Option Nat), linked mem p ps → ∀ t, ps.getLast? = some t →
      ∃ c, mem[t]? = some c ∧ c.freed = false ∧ c.next = none := by
  intro ps
  induction ps with
  | nil => exact fun _ _ t ht => by cases ht
  | cons a as ih =>
    intro p h t ht
    rw [linked_cons_iff] at h
    obtain ⟨_, c, hc, hf, hl⟩ := h
    cases as with
    | nil =>
      simp only [List.getLast?_singleton, Option.some.injEq] at ht
      subst ht
      exact ⟨c, hc, hf, (linked_nil_iff _ _).1 hl⟩
    | cons b bs =>
      rw [List.getLast?_cons_cons] at ht
      exact ih _ hl t ht

theorem linked_head (mem : List Cell) (ps : List Nat) (p : Option Nat)
    (h : linked mem p ps) : p = ps.head? := by
  cases ps with
  | nil => exact (linked_nil_iff _ _).1 h
  | cons a as => exact ((linked_cons_iff _ _ _ _).1 h).1

theorem getElem?_set_append (mem : List Cell) (t : Nat) (x node : Cell) (a : Nat) (c : Cell)
    (h : mem[a]? = some c) :
    (mem.set t x ++ [node])[a]? = some (if a = t then x else c) := by
  have ha : a < mem.length := (List.getElem?_eq_some_iff.1 h).1
  rw [List.getElem?_append_left (by simpa using ha), List.getElem?_set]
  by_cases e : t = a
  · subst e; simp [ha]
  · have e2 : ¬ a = t := fun h => e h.symm
    simp [e, e2, h]

theorem getElem?_append_new (mem : List Cell) (node : Cell) :
    (mem ++ [node])[mem.length]? = some node := by
  simp

/-- A new node linked behind the last one is reached after all the others. -/
theorem linked_snoc (mem : List Cell) (node : Cell) (hn : node.next = none)
    (hf : node.freed = false) :
    ∀ (ps : List Nat) (p : Option Nat), linked mem p ps → ∀ (t : Nat) (c : Cell),
      ps.getLast? = some t → mem[t]? = some c →
      linked (mem.set t ⟨c.node, some mem.length, c.freed⟩ ++ [node]) p
        (ps ++ [mem.length]) := by
  intro ps
  induction ps with
  | nil => exact fun _ _ t c ht => by cases ht
  | cons a as ih =>
    intro p h t c ht hc
    have hnew : (mem.set t ⟨c.node, some mem.length, c.freed⟩ ++ [node])[mem.length]?
        = some node := by
      simp
    rw [linked_cons_iff] at h
    obtain ⟨hp, ca, hca, hfa, hl⟩ := h
    cases as with
    | nil =>
      simp only [List.getLast?_singleton, Option.some.injEq] at ht
      subst ht
      have e : ca = c := Option.some.inj (hca.symm.trans hc)
      subst e
      have hnone : ca.next = none := (linked_nil_iff _ _).1 hl
      rw [List.singleton_append, linked_cons_iff]
      refine ⟨hp, _, getElem?_set_append mem a _ node a ca hca, ?_, ?_⟩
      · simp [hfa]
      · simp only [if_true]
        rw [linked_cons_iff]
        exact ⟨rfl, node, hnew, hf, (linked_nil_iff _ _).2 hn⟩
    | cons b bs =>
      rw [List.getLast?_cons_cons] at ht
      have hb : ca.next = some b := ((linked_cons_iff _ _ _ _).1 hl).1
      obtain ⟨c1, hc1, _, hn1⟩ := linked_last mem _ _ hl t ht
      have hat : a ≠ t := by
        intro e
        subst e
        rw [hca] at hc1
        cases hc1
        rw [hb] at hn1
        cases hn1
      rw [List.cons_append, linked_cons_iff]
      refine ⟨hp, ca, ?_, hfa, ih _ hl t c ht hc⟩
      rw [getElem?_set_append mem t _ node a ca hca, if_neg hat]

theorem node_at_set_append (mem : List Cell) (t : Nat) (c node : Cell) (nx : Option Nat)
    (hc : mem[t]? = some c) (a : Nat) (ca : Cell) (ha : mem[a]? = some ca) :
    node_at (mem.set t ⟨c.node, nx, c.freed⟩ ++ [node]) a = node_at mem a := by
  unfold node_at
  rw [getElem?_set_append mem t _ node a ca ha, ha]
  by_cases e : a = t
  · subst e
    rw [ha] at hc
    cases hc
    simp
  · simp [e]

/-- A node that is not reached may be changed. -/
theorem linked_set_other (mem : List Cell) (t : Nat) (x : Cell) :
    ∀ (ps : List Nat) (p : Option Nat), (∀ a ∈ ps, a ≠ t) → linked mem p ps →
      linked (mem.set t x) p ps := by
  intro ps
  induction ps with
  | nil => exact fun p _ h => (linked_nil_iff _ _).2 ((linked_nil_iff _ _).1 h)
  | cons a as ih =>
    intro p hne h
    rw [linked_cons_iff] at h ⊢
    obtain ⟨hp, c, hc, hf, hl⟩ := h
    have hat : a ≠ t := hne a (List.mem_cons_self _ _)
    refine ⟨hp, c, ?_, hf, ih _ (fun b hb => hne b (List.mem_cons_of_mem _ hb)) hl⟩
    rw [List.getElem?_set_ne (fun e => hat e.symm)]
    exact hc

/-- The loop of `free_tok_list` on the nodes reached from `head` comes to its
end. -/
theorem free_loop_linked :
    ∀ (ps : List Nat) (mem : List Cell) (p : Option Nat) (fuel : Nat), linked mem p ps →
      ps.length < fuel → ∃ mem1, free_loop fuel mem p = some mem1 := by
  intro ps
  induction ps with
  | nil =>
    intro mem p fuel h _
    rw [(linked_nil_iff _ _).1 h]
    exact ⟨mem, by cases fuel <;> rfl⟩
  | cons a as ih =>
    intro mem p fuel h hlen
    have hnd := linked_nodup mem _ _ h
    rw [linked_cons_iff] at h
    obtain ⟨hp, c, hc, hf, hl⟩ := h
    obtain ⟨n, rfl⟩ : ∃ n, fuel = n + 1 := ⟨fuel - 1, by simp at hlen; omega⟩
    have hna : ∀ b ∈ as, b ≠ a := by
      intro b hb e
      subst e
      exact (List.nodup_cons.1 hnd).1 hb
    have hl1 := linked_set_other mem a ⟨c.node, c.next, true⟩ as _ hna hl
    obtain ⟨mem1, h1⟩ := ih _ _ n hl1 (by simp at hlen; omega)
    refine ⟨mem1, ?_⟩
    rw [hp, free_loop, hc]
    simp only [hf, Bool.false_eq_true, if_false]
    exact h1

theorem linked_length_le (mem : List Cell) (ps : List Nat) (p : Option Nat)
    (h : linked mem p ps) : ps.length ≤ mem.length := by
  have hnd := linked_nodup mem _ _ h
  have hsub : ps ⊆ List.range mem.length := by
    intro a ha
    obtain ⟨c, hc, _⟩ := linked_valid mem _ _ h a ha
    exact List.mem_range.2 (List.getElem?_eq_some_iff.1 hc).1
  have := (List.subperm_of_subset hnd hsub).length_le
  simpa using this

/-- The function `free_tok_list` on a handler whose nodes from `head` on are
live: it returns, and leaves the empty handler. -/
theorem free_tok_list_linked_empty (g : Tlist) (qs : List Nat)
    (h : linked g.mem g.head qs) :
    ∃ mem1, free_tok_list_linked g = some ⟨mem1, none, none, 0⟩ := by
  obtain ⟨mem1, h1⟩ := free_loop_linked qs g.mem g.head (g.mem.length + 1) h
    (Nat.lt_succ_of_le (linked_length_le _ _ _ h))
  exact ⟨mem1, by simp [free_tok_list_linked, h1]⟩

theorem Holds_save (tok : List Nat) (l : List tok_node) (oh : Option Tlist) (sp : Bool)
    (h : Holds l oh) :
    Holds (save_string tok l sp) (oh.bind (fun x => save_string_linked tok x sp)) := by
  obtain ⟨g, ps, rfl, hl, hcount, htail, hmap⟩ := h
  simp only [Option.some_bind]
  cases ps with
  | nil =>
    have hh : g.head = none := (linked_nil_iff _ _).1 hl
    refine ⟨⟨g.mem ++ [⟨⟨tok.takeWhile (fun c => c ≠ 0), sp⟩, none, false⟩],
      some g.mem.length, some g.mem.length, 1⟩, [g.mem.length],
      by simp only [save_string_linked, hh], ?_, rfl, rfl, ?_⟩
    · rw [linked_cons_iff]
      exact ⟨rfl, _, getElem?_append_new _ _, rfl, (linked_nil_iff _ _).2 rfl⟩
    · simp only [List.map_nil] at hmap
      subst hmap
      simp [node_at, save_string]
  | cons a as =>
    have hh : g.head = some a := ((linked_cons_iff _ _ _ _).1 hl).1
    obtain ⟨t, ht⟩ : ∃ t, (a :: as).getLast? = some t :=
      ⟨_, List.getLast?_eq_getLast _ (by simp)⟩
    obtain ⟨c, hc, hf, _⟩ := linked_last _ _ _ hl t ht
    rw [ht] at htail
    have hsave : save_string_linked tok g sp
        = some ⟨g.mem.set t ⟨c.node, some g.mem.length, c.freed⟩
            ++ [⟨⟨tok.takeWhile (fun c => c ≠ 0), sp⟩, none, false⟩],
            g.head, some g.mem.length, g.count + 1⟩ := by
      simp only [save_string_linked, hh, htail, hc, hf, Bool.false_eq_true, if_false]
    refine ⟨_, (a :: as) ++ [g.mem.length], hsave, ?_, ?_, ?_, ?_⟩
    · exact linked_snoc g.mem _ rfl rfl _ _ hl t c ht hc
    · simp [hcount]
    · exact (List.getLast?_concat (a :: as)).symm
    · rw [List.map_append, save_string, ← hmap]
      congr 1
      · apply List.map_congr_left
        intro b hb
        obtain ⟨cb, hcb, _⟩ := linked_valid _ _ _ hl b hb
        exact node_at_set_append g.mem t c _ _ hc b cb hcb
      · simp only [List.map_cons, List.map_nil, node_at]
        have := getElem?_append_new (g.mem.set t ⟨c.node, some g.mem.length, c.freed⟩)
          ⟨⟨tok.takeWhile (fun c => c ≠ 0), sp⟩, none, false⟩
        simp only [List.length_set] at this
        rw [this]

theorem Holds_free (l : List tok_node) (oh : Option Tlist) (h : Holds l oh) :
    Holds (free_tok_list l) (oh.bind free_tok_list_linked) := by
  obtain ⟨g, ps, rfl, hl, _, _, _⟩ := h
  obtain ⟨mem1, h1⟩ := free_tok_list_linked_empty g ps hl
  simp only [Option.some_bind]
  exact ⟨_, [], h1, (linked_nil_iff _ _).2 rfl, rfl, rfl, rfl⟩

/-- The function `tokenize` on an empty handler: it returns on every string
but the empty one, with the message of `tokenize`, and the handler it leaves
holds the nodes that `tokenize` leaves. -/
theorem tokenize_linked_holds (mem0 : List Cell) (input : List Nat) (hin : input ≠ []) :
    ∃ h r, tokenize_linked ⟨mem0, none, none, 0⟩ input = some (h, r.err)
      ∧ tokenize [] input = some r ∧ Holds r.tlist (some h) := by
  have h0 : Holds [] (some ⟨mem0, none, none, 0⟩) :=
    ⟨_, [], rfl, (linked_nil_iff _ _).2 rfl, rfl, rfl, rfl⟩
  obtain ⟨c, hc⟩ : ∃ c, input.getLast? = some c :=
    ⟨_, List.getLast?_eq_getLast _ hin⟩
  by_cases h10 : c = 10
  · have hrel := loop_on_rel Holds save_string free_tok_list
      (fun tok l spec => l.bind (fun x => save_string_linked tok x spec))
      (fun l => l.bind free_tok_list_linked)
      (fun tok a b sp hab => Holds_save tok a b sp hab)
      (fun a b hab => Holds_free a b hab)
      input.length input (Nat.le_refl _) Init_State 0 [] [] _ h0
    rw [loop_on_list input.length input (Nat.le_refl _)] at hrel
    obtain ⟨herr, g, ps, hg, hrest⟩ := hrel
    refine ⟨g, loop Init_State 0 input [] [], ?_, ?_, ⟨g, ps, rfl, hrest⟩⟩
    · simp only [tokenize_linked, tokenize_on, hc, h10, ne_eq, not_true_eq_false, if_false]
      simp only at hg herr
      generalize loop_on (fun tok l spec => l.bind (fun x => save_string_linked tok x spec))
        (fun l => l.bind free_tok_list_linked) Init_State 0 input [] (some _) = x at hg herr
      obtain ⟨x1, x2⟩ := x
      simp only at hg herr
      subst hg
      rw [← herr]
    · simp [tokenize, hc, h10]
  · refine ⟨_, ⟨[], some .no_newline⟩, ?_, ?_, h0⟩
    · simp [tokenize_linked, tokenize_on, hc, h10]
    · simp [tokenize, hc, h10]

/-- C24. After `tokenize` has run on an empty handler, on any string but the
empty one: `count` is the number of nodes reached from `head` by the `next`
links, `tail` is the last of them, reached after `count - 1` links, and its
link is `NULL`; `head` is `NULL` exactly when `count` is 0, and so is `tail`;
the nodes are those of the list `tokenize` leaves.  And on every handler
whose nodes from `head` on are live, `free_tok_list` returns with `head` and
`tail` `NULL` and `count` 0. -/
theorem tokenize_handler_invariant (mem0 : List Cell) (input : List Nat) (hin : input ≠ []) :
    ∃ h err, tokenize_linked ⟨mem0, none, none, 0⟩ input = some (h, err)
      ∧ (∃ ps, linked h.mem h.head ps ∧ h.count = ps.length ∧ h.tail = ps.getLast?
          ∧ ps[h.count - 1]? = h.tail
          ∧ (∀ t, h.tail = some t → ∃ c, h.mem[t]? = some c ∧ c.next = none)
          ∧ tokenize [] input = some ⟨ps.map (node_at h.mem), err⟩)
      ∧ (h.head = none ↔ h.count = 0) ∧ (h.tail = none ↔ h.count = 0)
      ∧ (∀ (g : Tlist) (qs : List Nat), linked g.mem g.head qs →
          ∃ mem1, free_tok_list_linked g = some ⟨mem1, none, none, 0⟩) := by
  obtain ⟨h, r, ht, hr, g, ps, hg, hl, hcount, htail, hmap⟩ :=
    tokenize_linked_holds mem0 input hin
  cases hg
  have hhead := linked_head _ _ _ hl
  refine ⟨h, r.err, ht, ⟨ps, hl, hcount, htail, ?_, ?_, ?_⟩, ?_, ?_,
    fun g qs hq => free_tok_list_linked_empty g qs hq⟩
  · rw [htail, hcount, List.getLast?_eq_getElem?]
  · intro t ht1
    rw [htail] at ht1
    obtain ⟨c, hc, _, hn⟩ := linked_last _ _ _ hl t ht1
    exact ⟨c, hc, hn⟩
  · rw [hr, hmap]
  · rw [hhead, hcount]
    cases ps <;> simp
  · rw [htail, hcount]
    cases ps <;> simp

theorem tokenize_handler_invariant_witness :
    bytes "ls | wc\n" ≠ []
      ∧ ∃ h err, tokenize_linked ⟨[], none, none, 0⟩ (bytes "ls | wc\n") = some (h, err)
      ∧ (∃ ps, linked h.mem h.head ps ∧ h.count = ps.length ∧ h.tail = ps.getLast?
          ∧ ps[h.count - 1]? = h.tail
          ∧ (∀ t, h.tail = some t → ∃ c, h.mem[t]? = some c ∧ c.next = none)
          ∧ tokenize [] (bytes "ls | wc\n") = some ⟨ps.map (node_at h.mem), err⟩)
      ∧ (h.head = none ↔ h.count = 0) ∧ (h.tail = none ↔ h.count = 0)
      ∧ (∀ (g : Tlist) (qs : List Nat), linked g.mem g.head qs →
          ∃ mem1, free_tok_list_linked g = some ⟨mem1, none, none, 0⟩) :=
  ⟨by decide, tokenize_handler_invariant [] (bytes "ls | wc\n") (by decide)⟩

/-- The handler after `ls | wc`: three nodes at the addresses 0, 1 and 2. -/
theorem tokenize_linked_example :
    tokenize_linked ⟨[], none, none, 0⟩ (bytes "ls | wc\n")
      = some (⟨[⟨wordTok (bytes "ls"), some 1, false⟩, ⟨pipeTok, some 2, false⟩,
          ⟨wordTok (bytes "wc"), none, false⟩], some 0, some 2, 3⟩, none) := by
  decide

/-- After a line that fails the nodes are freed and the handler is empty; the
next line starts on it. -/
theorem tokenize_linked_failure_example :
    tokenize_linked ⟨[], none, none, 0⟩ (bytes "ls |\n")
      = some (⟨[⟨wordTok (bytes "ls"), none, true⟩], none, none, 0⟩,
          some Diag.redirect_at_end) := by
  decide

theorem fd_get_pad (t : FdTable) (n fd : Nat) :
    fd_get (t ++ List.replicate n none) fd = fd_get t fd := by
  unfold fd_get
  by_cases h : fd < t.length
  · rw [List.getElem?_append_left h]
  · have h1 : t.length ≤ fd := Nat.le_of_not_lt h
    rw [List.getElem?_append_right h1, List.getElem?_eq_none h1]
    by_cases h2 : fd - t.length < n
    · rw [List.getElem?_replicate, if_pos h2]; rfl
    · rw [List.getElem?_eq_none (by simpa using Nat.le_of_not_lt h2)]

theorem fd_get_put (t : FdTable) (a b : Nat) (v : Option File) :
    fd_get (fd_put t a v) b = if b = a then v else fd_get t b := by
  unfold fd_put
  by_cases h : b = a
  · subst h
    rw [if_pos rfl]
    unfold fd_get
    rw [List.getElem?_set_self (by simp; omega)]
    rfl
  · rw [if_neg h, ← fd_get_pad t (a + 1 - t.length) b]
    unfold fd_get
    rw [List.getElem?_set_ne (fun e => h e.symm)]

theorem fd_get_close (t : FdTable) (a b : Nat) :
    fd_get (sys_close t a) b = if b = a then none else fd_get t b := by
  unfold sys_close fd_get
  by_cases h : b = a
  · subst h
    rw [if_pos rfl, List.getElem?_set]
    simp
    split_ifs <;> rfl
  · rw [if_neg h, List.getElem?_set_ne (fun e => h e.symm)]

theorem fd_get_lowest_free (t : FdTable) : fd_get t (lowest_free t) = none := by
  unfold fd_get lowest_free
  by_cases h : t.findIdx (fun x => x.isNone) < t.length
  · have := List.findIdx_getElem (w := h)
    rw [List.getElem?_eq_getElem h]
    simp only [Option.isNone_iff_eq_none] at this
    simp [this]
  · rw [List.getElem?_eq_none (Nat.le_of_not_lt h)]
    rfl

theorem fd_get_dup2 (t : FdTable) (a b c : Nat) :
    fd_get (sys_dup2 t a b) c
      = if c = b then (if fd_get t a = none then fd_get t b else fd_get t a)
        else fd_get t c := by
  unfold sys_dup2
  cases h : fd_get t a with
  | none =>
    simp only [if_true]
    split_ifs with e
    · rw [e]
    · rfl
  | some f =>
    simp only [if_false, reduceCtorEq]
    by_cases e : a = b
    · subst e
      rw [if_pos rfl]
      split_ifs with e2
      · rw [e2, h]
      · rfl
    · rw [if_neg e, fd_get_put]

/-- A call of `open` that succeeds: the descriptor returned was not open and
now refers to the file, the others are as before. -/
theorem fd_get_open (t : FdTable) (f : File) (c : Nat) :
    fd_get t (sys_open t f).2 = none
      ∧ fd_get (sys_open t f).1 c
        = if c = (sys_open t f).2 then some f else fd_get t c := by
  unfold sys_open
  exact ⟨fd_get_lowest_free t, fd_get_put _ _ _ _⟩

/-- A redirection on a table with the descriptor `k` (0 or 1) open: `open`,
`dup2` onto `k` and `close` leave the file at `k` and the other descriptors
as they were. -/
theorem fd_get_redirect (t : FdTable) (f : File) (k : Nat) (hk : fd_get t k ≠ none)
    (c : Nat) :
    fd_get (sys_close (sys_dup2 (sys_open t f).1 (sys_open t f).2 k) (sys_open t f).2) c
      = if c = k then some f else fd_get t c := by
  have hfree := (fd_get_open t f 0).1
  have hopen := fun c => (fd_get_open t f c).2
  have hne : (sys_open t f).2 ≠ k := fun e => hk (e ▸ hfree)
  rw [fd_get_close, fd_get_dup2]
  simp only [hopen, if_true]
  by_cases h1 : c = (sys_open t f).2
  · rw [if_pos h1, if_neg (fun e => hne (h1.symm.trans e)), h1, hfree]
  · rw [if_neg h1, if_neg h1]
    by_cases h2 : c = k
    · rw [if_pos h2, if_pos h2]; rfl
    · rw [if_neg h2, if_neg h2]

theorem fd_get_output_to_file (t : FdTable) (fname : List Nat) (append : Bool)
    (h1 : fd_get t 1 ≠ none) (c : Nat) :
    fd_get (output_to_file_fds t fname append) c
      = if c = 1 then some (File.opened fname Read_Write.WRITE append) else fd_get t c :=
  fd_get_redirect t _ 1 h1 c

theorem fd_get_file_to_input (t : FdTable) (fname : List Nat)
    (h0 : fd_get t 0 ≠ none) (c : Nat) :
    fd_get (file_to_input_fds t fname) c
      = if c = 0 then some (File.opened fname Read_Write.READ false) else fd_get t c :=
  fd_get_redirect t _ 0 h0 c

theorem fd_get_close_all (t : FdTable) (fds : List Nat) (c : Nat) :
    fd_get (close_all t fds) c = if c ∈ fds then none else fd_get t c := by
  unfold close_all
  induction fds generalizing t with
  | nil => simp
  | cons a as ih =>
    rw [List.foldl_cons, ih, fd_get_close]
    by_cases h1 : c ∈ as
    · simp [h1]
    · by_cases h2 : c = a
      · simp [h2]
      · simp [h1, h2]

theorem close_all_snoc (t : FdTable) (fds : List Nat) (r w : Nat) :
    close_all t (fds ++ [r, w]) = sys_close (sys_close (close_all t fds) r) w := by
  simp [close_all, List.foldl_append]

theorem mem_pipe_fds (pairs : List (Nat × Nat)) (fd : Nat) :
    fd ∈ pipe_fds pairs ↔ ∃ (j r w : Nat), pairs[j]? = some (r, w) ∧ (fd = r ∨ fd = w) := by
  unfold pipe_fds
  simp only [List.mem_flatMap, List.mem_cons, List.mem_singleton, List.not_mem_nil, or_false]
  constructor
  · rintro ⟨⟨r, w⟩, hp, h⟩
    obtain ⟨j, hj⟩ := List.getElem?_of_mem hp
    exact ⟨j, r, w, hj, h⟩
  · rintro ⟨j, r, w, hj, h⟩
    exact ⟨(r, w), List.getElem?_mem hj, h⟩

theorem pipe_fds_append (a b : List (Nat × Nat)) : pipe_fds (a ++ b) = pipe_fds a ++ pipe_fds b := by
  simp [pipe_fds]

/-- The loop that creates the pipes, when every `pipe` succeeds. -/
theorem create_pipes_spec (sys : Sys) (hpipe : ∀ i, sys.pipe_ok i = true) :
    ∀ (n lo : Nat) (t : FdTable),
      ∃ pairs : List (Nat × Nat), (create_pipes sys n lo t).2 = pairs.map some
        ∧ pairs.length = n ∧ PipesIn t (create_pipes sys n lo t).1 pairs lo := by
  intro n
  induction n with
  | zero =>
    intro lo t
    refine ⟨[], rfl, rfl, fun j r w h => ?_, fun fd _ => rfl⟩
    simp at h
  | succ n ih =>
    intro lo t
    obtain ⟨hr1, _⟩ := fd_get_open t (File.pipe_read lo) 0
    have hr2 := fun c => (fd_get_open t (File.pipe_read lo) c).2
    obtain ⟨hw1, _⟩ := fd_get_open (sys_open t (File.pipe_read lo)).1 (File.pipe_write lo) 0
    have hw2 := fun c =>
      (fd_get_open (sys_open t (File.pipe_read lo)).1 (File.pipe_write lo) c).2
    generalize hR : sys_open t (File.pipe_read lo) = R at hr1 hr2 hw1 hw2
    generalize hW : sys_open R.1 (File.pipe_write lo) = W at hw1 hw2
    obtain ⟨pairs, hp, hlen, hF1, hF2⟩ := ih (lo + 1) W.1
    have hcp : create_pipes sys (n + 1) lo t
        = ((create_pipes sys n (lo + 1) W.1).1,
            some (R.2, W.2) :: (create_pipes sys n (lo + 1) W.1).2) := by
      rw [create_pipes, if_pos (hpipe lo)]
      simp only [hR, hW]
    have hne : W.2 ≠ R.2 := by
      intro e
      have := hr2 R.2
      rw [if_pos rfl, ← e, hw1] at this
      cases this
    have hWr : fd_get W.1 R.2 = some (File.pipe_read lo) := by
      rw [hw2, if_neg (fun e => hne e.symm), hr2, if_pos rfl]
    have hWw : fd_get W.1 W.2 = some (File.pipe_write lo) := by
      rw [hw2, if_pos rfl]
    have hback : ∀ c, fd_get W.1 c = none → fd_get t c = none := by
      intro c hc
      rw [hw2] at hc
      by_cases e1 : c = W.2
      · rw [if_pos e1] at hc; cases hc
      · rw [if_neg e1, hr2] at hc
        by_cases e2 : c = R.2
        · rw [if_pos e2] at hc; cases hc
        · rw [if_neg e2] at hc; exact hc
    have hnot : ∀ c, fd_get W.1 c ≠ none → c ∉ pipe_fds pairs := by
      intro c hc hm
      obtain ⟨j, r, w, hj, hrw⟩ := (mem_pipe_fds pairs c).1 hm
      obtain ⟨_, _, h3, h4⟩ := hF1 j r w hj
      rcases hrw with rfl | rfl
      · exact hc h3
      · exact hc h4
    rw [hcp]
    refine ⟨(R.2, W.2) :: pairs, by simp [hp], by simp [hlen], ?_, ?_⟩
    · intro j r w hj
      cases j with
      | zero =>
        simp only [List.getElem?_cons_zero, Option.some.injEq, Prod.mk.injEq] at hj
        obtain ⟨rfl, rfl⟩ := hj
        refine ⟨?_, ?_, hr1, ?_⟩
        · rw [hF2 _ (hnot _ (by rw [hWr]; simp)), hWr]; rfl
        · rw [hF2 _ (hnot _ (by rw [hWw]; simp)), hWw]; rfl
        · have := hr2 W.2
          rw [if_neg hne] at this
          rw [← this]; exact hw1
      | succ j =>
        simp only [List.getElem?_cons_succ] at hj
        obtain ⟨h1, h2, h3, h4⟩ := hF1 j r w hj
        refine ⟨?_, ?_, hback _ h3, hback _ h4⟩
        · rw [h1]; congr 2; omega
        · rw [h2]; congr 2; omega
    · intro fd hfd
      have hfd1 : fd ≠ R.2 ∧ fd ≠ W.2 ∧ fd ∉ pipe_fds pairs := by
        have : pipe_fds ((R.2, W.2) :: pairs) = R.2 :: W.2 :: pipe_fds pairs := by
          simp [pipe_fds]
        rw [this] at hfd
        simp only [List.mem_cons, not_or] at hfd
        exact hfd
      show fd_get (create_pipes sys n (lo + 1) W.1).1 fd = fd_get t fd
      rw [hF2 fd hfd1.2.2, hw2, if_neg hfd1.2.1, hr2, if_neg hfd1.1]

/-- The descriptors of the pipes are neither 0 nor 1 when these two are open
in the table the pipes were created from. -/
theorem PipesIn_not_std {t0 T : FdTable} {pairs : List (Nat × Nat)} {lo : Nat}
    (h : PipesIn t0 T pairs lo) (k : Nat) (hk : fd_get t0 k ≠ none) :
    k ∉ pipe_fds pairs := by
  intro hm
  obtain ⟨j, r, w, hj, hrw⟩ := (mem_pipe_fds pairs k).1 hm
  obtain ⟨_, _, h3, h4⟩ := h.1 j r w hj
  rcases hrw with rfl | rfl
  · exact hk h3
  · exact hk h4

/-- The descriptors of a pipe are not among those of the pipes before it. -/
theorem PipesIn_not_before {t0 T : FdTable} {pairs : List (Nat × Nat)} {lo : Nat}
    (h : PipesIn t0 T pairs lo) (j r w : Nat) (hj : pairs[j]? = some (r, w)) (m : Nat)
    (hm : m ≤ j) : r ∉ pipe_fds (pairs.take m) ∧ w ∉ pipe_fds (pairs.take m) := by
  obtain ⟨h1, h2, _, _⟩ := h.1 j r w hj
  constructor
  · intro hmem
    obtain ⟨k, r1, w1, hk, hrw⟩ := (mem_pipe_fds _ r).1 hmem
    rw [List.getElem?_take] at hk
    split_ifs at hk with hkm
    obtain ⟨h3, h4, _, _⟩ := h.1 k r1 w1 hk
    rcases hrw with rfl | rfl
    · rw [h1] at h3
      simp only [Option.some.injEq, File.pipe_read.injEq] at h3
      omega
    · rw [h1] at h4
      cases h4
  · intro hmem
    obtain ⟨k, r1, w1, hk, hrw⟩ := (mem_pipe_fds _ w).1 hmem
    rw [List.getElem?_take] at hk
    split_ifs at hk with hkm
    obtain ⟨h3, h4, _, _⟩ := h.1 k r1 w1 hk
    rcases hrw with rfl | rfl
    · rw [h2] at h3
      cases h3
    · rw [h2] at h4
      simp only [Option.some.injEq, File.pipe_write.injEq] at h4
      omega

theorem parent_at_get (T : FdTable) (pairs : List (Nat × Nat)) (i c : Nat) :
    fd_get (parent_at T pairs i) c
      = if c ∈ pipe_fds (pairs.take (i - 1)) then none else fd_get T c :=
  fd_get_close_all _ _ _

/-- The lines of the child before `parse_cmd`: the descriptor 0 is the read
end of the pipe before, or as in the parent for the first child; the
descriptor 1 is the write end of the pipe after, or as in the parent for the
last child. -/
theorem child_wiring_spec {t0 T : FdTable} {pairs : List (Nat × Nat)}
    (hP : PipesIn t0 T pairs 0) (h0 : fd_get t0 0 ≠ none) (h1 : fd_get t0 1 ≠ none)
    (i : Nat) (hi : i ≤ pairs.length) :
    ∃ w, child_wiring (pairs.map some) (pairs.length + 1) i (parent_at T pairs i) = some w
      ∧ fd_get w 0 = (if i = 0 then fd_get t0 0 else some (File.pipe_read (i - 1)))
      ∧ fd_get w 1
          = (if i + 1 < pairs.length + 1 then some (File.pipe_write i) else fd_get t0 1) := by
  have hn0 := PipesIn_not_std hP 0 h0
  have hn1 := PipesIn_not_std hP 1 h1
  have hstd : ∀ k, fd_get t0 k ≠ none → fd_get (parent_at T pairs i) k = fd_get t0 k := by
    intro k hk
    have hk1 := PipesIn_not_std hP k hk
    rw [parent_at_get, if_neg, hP.2 k hk1]
    intro hm
    obtain ⟨j, r, w, hj, hrw⟩ := (mem_pipe_fds _ k).1 hm
    rw [List.getElem?_take] at hj
    split_ifs at hj
    exact hk1 ((mem_pipe_fds _ k).2 ⟨j, r, w, hj, hrw⟩)
  have hne : ∀ (j r w : Nat), pairs[j]? = some (r, w) → r ≠ 0 ∧ r ≠ 1 ∧ w ≠ 0 ∧ w ≠ 1 ∧ r ≠ w := by
    intro j r w hj
    have hr := (mem_pipe_fds pairs r).2 ⟨j, r, w, hj, Or.inl rfl⟩
    have hw := (mem_pipe_fds pairs w).2 ⟨j, r, w, hj, Or.inr rfl⟩
    obtain ⟨e1, e2, _, _⟩ := hP.1 j r w hj
    refine ⟨fun e => hn0 (e ▸ hr), fun e => hn1 (e ▸ hr), fun e => hn0 (e ▸ hw),
      fun e => hn1 (e ▸ hw), fun e => ?_⟩
    rw [e, e2] at e1
    cases e1
  have hfirst : ∃ t1, wire_stdin (pairs.map some) i (parent_at T pairs i) = some t1
      ∧ fd_get t1 0 = (if i = 0 then fd_get t0 0 else some (File.pipe_read (i - 1)))
      ∧ fd_get t1 1 = fd_get t0 1
      ∧ ∀ r w, pairs[i]? = some (r, w) → fd_get t1 w = some (File.pipe_write i) := by
    by_cases hi0 : i = 0
    · subst hi0
      refine ⟨_, by simp [wire_stdin], hstd 0 h0, hstd 1 h1, fun r w hj => ?_⟩
      have := hP.1 0 r w hj
      rw [parent_at_get]
      simp only [Nat.zero_sub, List.take_zero, pipe_fds, List.flatMap_nil, List.not_mem_nil,
        if_false]
      simpa using this.2.1
    · have hpos : 0 < i := Nat.pos_of_ne_zero hi0
      obtain ⟨⟨r, w⟩, hj⟩ : ∃ p, pairs[i - 1]? = some p :=
        ⟨pairs[i - 1], List.getElem?_eq_getElem (by omega)⟩
      obtain ⟨a1, a2, a3, a4, a5⟩ := hne _ r w hj
      obtain ⟨b1, b2, _, _⟩ := hP.1 _ r w hj
      obtain ⟨c1, c2⟩ := PipesIn_not_before hP (i - 1) r w hj (i - 1) (Nat.le_refl _)
      have hr : fd_get (parent_at T pairs i) r = some (File.pipe_read (i - 1)) := by
        rw [parent_at_get, if_neg c1, b1]; simp
      refine ⟨sys_close (sys_close (sys_dup2 (parent_at T pairs i) r 0) r) w, ?_, ?_, ?_, ?_⟩
      · rw [wire_stdin, if_pos hpos]
        simp [hj]
      · rw [if_neg hi0, fd_get_close, if_neg (Ne.symm a3), fd_get_close, if_neg (Ne.symm a1),
          fd_get_dup2, if_pos rfl, hr]
        rfl
      · rw [fd_get_close, if_neg (Ne.symm a4), fd_get_close, if_neg (Ne.symm a2),
          fd_get_dup2, if_neg (by decide), hstd 1 h1]
      · intro r2 w2 hj2
        obtain ⟨d1, d2, d3, d4, d5⟩ := hne _ r2 w2 hj2
        obtain ⟨e1, e2, _, _⟩ := hP.1 _ r2 w2 hj2
        obtain ⟨_, g2⟩ := PipesIn_not_before hP i r2 w2 hj2 (i - 1) (by omega)
        have hw2r : w2 ≠ r := by
          intro e
          rw [e, b1] at e2
          cases e2
        have hw2w : w2 ≠ w := by
          intro e
          rw [e, b2] at e2
          simp only [Nat.zero_add, Option.some.injEq, File.pipe_write.injEq] at e2
          omega
        rw [fd_get_close, if_neg hw2w, fd_get_close, if_neg hw2r, fd_get_dup2, if_neg d3,
          parent_at_get, if_neg g2, e2]
        simp
  obtain ⟨t1, hf1, hf2, hf3, hf4⟩ := hfirst
  unfold child_wiring
  rw [hf1, Option.some_bind, wire_stdout]
  by_cases hlast : i + 1 < pairs.length + 1
  · obtain ⟨⟨r, w⟩, hj⟩ : ∃ p, pairs[i]? = some p :=
      ⟨pairs[i], List.getElem?_eq_getElem (by omega)⟩
    obtain ⟨a1, a2, a3, a4, a5⟩ := hne _ r w hj
    have hw := hf4 r w hj
    refine ⟨sys_close (sys_dup2 (sys_close t1 r) w 1) w, ?_, ?_, ?_⟩
    · rw [if_pos hlast]
      simp [hj]
    · rw [fd_get_close, if_neg (Ne.symm a3), fd_get_dup2, if_neg (by decide), fd_get_close,
        if_neg (Ne.symm a1), hf2]
    · rw [if_pos hlast, fd_get_close, if_neg (Ne.symm a4), fd_get_dup2, if_pos rfl,
        fd_get_close, if_neg (Ne.symm a5), hw]
      rfl
  · exact ⟨t1, by rw [if_neg hlast], hf2, by rw [if_neg hlast, hf3]⟩

theorem pipe_fds_take_succ (pairs : List (Nat × Nat)) (j r w : Nat)
    (hj : pairs[j]? = some (r, w)) :
    pipe_fds (pairs.take (j + 1)) = pipe_fds (pairs.take j) ++ [r, w] := by
  rw [List.take_succ, hj, pipe_fds_append]
  simp [pipe_fds]

/-- The loop of the `fork`s when every `fork` succeeds: the children, each
from the table of the parent at its `fork`, and the parent with every pipe
closed. -/
theorem fork_loop_spec (sys : Sys) (env : Env) (hfork : ∀ i, sys.fork_ok i = true)
    (T : FdTable) (pairs : List (Nat × Nat)) :
    ∀ (cmds : List ListHandler) (i : Nat), i + cmds.length = pairs.length + 1 →
      fork_loop sys env (pairs.map some) (pairs.length + 1) cmds i (parent_at T pairs i)
        = some ⟨children_of env T pairs i cmds, some (close_all T (pipe_fds pairs))⟩ := by
  intro cmds
  induction cmds with
  | nil =>
    intro i hi
    simp only [List.length_nil, Nat.add_zero] at hi
    subst hi
    simp [fork_loop, children_of, parent_at]
  | cons cmd cmds ih =>
    intro i hi
    simp only [List.length_cons] at hi
    have hnext : close_prev (pairs.map some) i (parent_at T pairs i)
        = some (parent_at T pairs (i + 1)) := by
      unfold close_prev
      by_cases hi0 : i = 0
      · subst hi0; rfl
      · have hpos : 0 < i := Nat.pos_of_ne_zero hi0
        obtain ⟨⟨r, w⟩, hj⟩ : ∃ p, pairs[i - 1]? = some p :=
          ⟨pairs[i - 1], List.getElem?_eq_getElem (by omega)⟩
        rw [if_pos hpos]
        simp only [List.getElem?_map, hj, Option.map_some']
        have e : i + 1 - 1 = (i - 1) + 1 := by omega
        simp only [parent_at]
        rw [e, pipe_fds_take_succ pairs (i - 1) r w hj, close_all_snoc]
    rw [fork_loop, if_pos (hfork i), hnext]
    simp only []
    rw [ih (i + 1) (by omega)]
    rfl

theorem apply_events_append (t : FdTable) (a b : List Event) :
    apply_events t (a ++ b) = apply_events (apply_events t a) b := by
  simp [apply_events, List.foldl_append]

/-- The end of `parse_cmd` leaves the descriptors as they are. -/
theorem apply_events_launch (env : Env) (cmd : List (List Nat)) (evs : List Event)
    (h : launch env cmd = some evs) (t : FdTable) : apply_events t evs = t := by
  unfold launch at h
  cases cmd with
  | nil => cases h
  | cons c0 args =>
    simp only at h
    by_cases h47 : c0.headD 0 = 47
    · rw [if_pos h47] at h
      cases h
      cases env.exec_ok c0.tail <;> rfl
    · rw [if_neg h47] at h
      by_cases h46 : c0.headD 0 = 46
      · rw [if_pos h46] at h
        by_cases h2 : c0.tail.headD 0 = 47
        · rw [if_pos h2] at h
          cases h
          cases env.exec_ok c0 <;> rfl
        · rw [if_neg h2] at h
          cases h
          rfl
      · rw [if_neg h46] at h
        cases hb : env.bin_exists c0 with
        | none => rw [hb] at h; cases h
        | some b =>
          rw [hb] at h
          cases b with
          | false => cases h; rfl
          | true =>
            cases h
            cases env.exec_ok c0 <;> rfl

theorem last_output_cons (p : tok_node × tok_node) (ps : List (tok_node × tok_node)) :
    last_output (p :: ps)
      = match last_output ps with
        | some f => some f
        | none =>
          if p.1.token ≠ [60] then
            some (File.opened p.2.token Read_Write.WRITE (decide (p.1.token = [62, 62])))
          else none := by
  unfold last_output
  by_cases hp : p.1.token ≠ [60]
  · rw [List.filter_cons_of_pos (by simpa using hp), List.getLast?_cons, if_pos hp]
    cases (ps.filter (fun p => decide (p.1.token ≠ [60]))).getLast? <;> rfl
  · rw [List.filter_cons_of_neg (by simpa using hp), if_neg hp]
    cases (ps.filter (fun p => decide (p.1.token ≠ [60]))).getLast? <;> rfl

theorem last_input_cons (p : tok_node × tok_node) (ps : List (tok_node × tok_node)) :
    last_input (p :: ps)
      = match last_input ps with
        | some f => some f
        | none =>
          if p.1.token = [60] then some (File.opened p.2.token Read_Write.READ false)
          else none := by
  unfold last_input
  by_cases hp : p.1.token = [60]
  · rw [List.filter_cons_of_pos (by simpa using hp), List.getLast?_cons, if_pos hp]
    cases (ps.filter (fun p => decide (p.1.token = [60]))).getLast? <;> rfl
  · rw [List.filter_cons_of_neg (by simpa using hp), if_neg hp]
    cases (ps.filter (fun p => decide (p.1.token = [60]))).getLast? <;> rfl

/-- The redirections of `parse_cmd`, made one after the other on a table with
the descriptors 0 and 1 open: the descriptor 1 ends at the target of the last
output redirection, the descriptor 0 at the target of the last input
redirection, and every descriptor without a redirection is as before. -/
theorem apply_events_redirections (ps : List (tok_node × tok_node)) :
    ∀ (t : FdTable), fd_get t 0 ≠ none → fd_get t 1 ≠ none → ∀ (c : Nat),
      fd_get (apply_events t (ps.map redirection_event)) c
        = if c = 0 then (match last_input ps with | some f => some f | none => fd_get t 0)
          else if c = 1 then
            (match last_output ps with | some f => some f | none => fd_get t 1)
          else fd_get t c := by
  induction ps with
  | nil =>
    intro t _ _ c
    simp only [List.map_nil, apply_events, List.foldl_nil, last_input, last_output,
      List.filter_nil, List.getLast?_nil, Option.map_none']
    split_ifs with h1 h2
    · rw [h1]
    · rw [h2]
    · rfl
  | cons p ps ih =>
    intro t h0 h1 c
    rw [List.map_cons, apply_events, List.foldl_cons]
    show fd_get (apply_events (Event.apply t (redirection_event p)) (ps.map redirection_event)) c
      = _
    by_cases hp : p.1.token = [60]
    · have he : redirection_event p = Event.file_to_input p.2.token := by
        simp [redirection_event, hp]
      have hget := fd_get_file_to_input t p.2.token h0
      rw [he]
      show fd_get (apply_events (file_to_input_fds t p.2.token) _) c = _
      rw [ih _ (by rw [hget, if_pos rfl]; simp) (by rw [hget, if_neg (by decide)]; exact h1),
        last_input_cons, last_output_cons, hget, hget, hget]
      simp only [hp, ne_eq, not_true_eq_false, if_false, if_true]
      by_cases c0 : c = 0
      · simp only [c0, if_true]
        cases last_input ps <;> rfl
      · by_cases c1 : c = 1
        · simp only [c1, if_true]
          cases last_output ps <;> simp
        · simp [c0, c1]
    · have he : redirection_event p
          = Event.output_to_file p.2.token (decide (p.1.token = [62, 62])) := by
        simp [redirection_event, hp]
      have hget := fd_get_output_to_file t p.2.token (decide (p.1.token = [62, 62])) h1
      rw [he]
      show fd_get (apply_events (output_to_file_fds t p.2.token _) _) c = _
      rw [ih _ (by rw [hget, if_neg (by decide)]; exact h0) (by rw [hget, if_pos rfl]; simp),
        last_input_cons, last_output_cons, hget, hget, hget]
      simp only [hp, ne_eq, not_false_eq_true, if_false, if_true]
      by_cases c0 : c = 0
      · simp only [c0]
        cases last_input ps <;> simp
      · by_cases c1 : c = 1
        · simp only [c1, if_true]
          cases last_output ps <;> simp
        · simp [c0, c1]

/-- When the last node of a subsection is no redirect operator, no
redirection takes its target from what follows the subsection. -/
theorem redirection_pairs_after (seg after : List tok_node)
    (hlast : ∀ t, seg.getLast? = some t → ¬ is_redirect t) :
    redirection_pairs seg after = redirection_pairs seg [] := by
  unfold redirection_pairs
  cases seg with
  | nil => rfl
  | cons t rest =>
    simp only [List.cons_append, List.tail_cons, List.append_nil]
    induction rest generalizing t with
    | nil =>
      have ht := hlast t rfl
      cases after with
      | nil => rfl
      | cons a as => simp [ht]
    | cons u rest ih =>
      have := ih u (fun x hx => hlast x (by rw [List.getLast?_cons_cons]; exact hx))
      simp only [List.cons_append, List.zip_cons_cons, List.filter_cons]
      rw [this]

theorem children_of_get (env : Env) (T : FdTable) (pairs : List (Nat × Nat)) :
    ∀ (cmds : List ListHandler) (i k : Nat),
      (children_of env T pairs i cmds)[k]?
        = cmds[k]?.map (fun cmd =>
            run_child env (pairs.map some) (pairs.length + 1) (i + k)
              (parent_at T pairs (i + k)) cmd) := by
  intro cmds
  induction cmds with
  | nil => intro i k; simp [children_of]
  | cons cmd cmds ih =>
    intro i k
    cases k with
    | zero => simp [children_of]
    | succ k =>
      simp only [children_of, List.getElem?_cons_succ]
      rw [ih (i + 1) k]
      have e : i + 1 + k = i + (k + 1) := by omega
      rw [e]

theorem children_of_length (env : Env) (T : FdTable) (pairs : List (Nat × Nat)) :
    ∀ (cmds : List ListHandler) (i : Nat),
      (children_of env T pairs i cmds).length = cmds.length := by
  intro cmds
  induction cmds with
  | nil => intro i; rfl
  | cons cmd cmds ih => intro i; simp [children_of, ih]

/-- The handler of the subsection `i` of a pipeline is what
`get_next_subsection` gives on the subsection and what follows it. -/
theorem segment_handlers_get :
    ∀ (segs : List (List tok_node)), Segments segs → ∀ (i : Nat) (seg : List tok_node),
      segs[i]? = some seg →
      ∃ s rest after, seg = s :: rest ∧ ¬ is_pipe s ∧ (∀ t ∈ rest, ¬ is_pipe t)
        ∧ PipeOrEnd after
        ∧ (segment_handlers segs)[i]? = some (get_next_subsection (s :: rest ++ after)) := by
  intro segs
  induction segs with
  | nil => intro _ i seg h; simp at h
  | cons s0 ss ih =>
    intro hS i seg h
    cases i with
    | zero =>
      simp only [List.getElem?_cons_zero, Option.some.injEq] at h
      subst h
      obtain ⟨hne, hnp⟩ := hS s0 (List.mem_cons_self _ _)
      obtain ⟨a, rest, rfl⟩ := List.exists_cons_of_ne_nil hne
      have ha := hnp a (List.mem_cons_self _ _)
      have hrest : ∀ t ∈ rest, ¬ is_pipe t := fun u hu => hnp u (List.mem_cons_of_mem _ hu)
      obtain ⟨after, hj, hpe, _, _⟩ := join_pipes_cons (a :: rest) ss
      refine ⟨a, rest, after, rfl, ha, hrest, hpe, ?_⟩
      have hdrop : (join_pipes ((a :: rest) :: ss)).drop (a :: rest).length = after := by
        rw [hj, List.drop_left]
      simp only [segment_handlers, List.getElem?_cons_zero, Option.some.injEq]
      rw [hdrop, hj, get_next_subsection_seg a rest after ha hrest hpe]
      simp only [List.getLastD_cons, List.length_cons]
    | succ i =>
      simp only [List.getElem?_cons_succ] at h
      obtain ⟨s, rest, after, h1, h2, h3, h4, h5⟩ :=
        ih (fun u hu => hS u (List.mem_cons_of_mem _ hu)) i seg h
      exact ⟨s, rest, after, h1, h2, h3, h4, by
        simp only [segment_handlers, List.getElem?_cons_succ]; exact h5⟩

/-- What `execute` leaves on a pipeline of subsections when every `pipe` and
every `fork` succeeds: one child for each subsection, each from the table of
the parent at its `fork`, and the parent with every pipe closed. -/
theorem execute_join (sys : Sys) (env : Env) (t0 : FdTable) (segs : List (List tok_node))
    (hne : segs ≠ []) (hS : Segments segs) (hpipe : ∀ i, sys.pipe_ok i = true)
    (hfork : ∀ i, sys.fork_ok i = true) :
    ∃ T pairs, PipesIn t0 T pairs 0 ∧ pairs.length + 1 = segs.length
      ∧ execute sys env t0 (join_pipes segs)
          = some ⟨children_of env T pairs 0 (segment_handlers segs),
              some (close_all T (pipe_fds pairs))⟩ := by
  obtain ⟨cmds, hex, hcmds, hlen, _, _⟩ := execute_cmds_join segs hne hS
  obtain ⟨pairs, hp2, hplen, hP⟩ :=
    create_pipes_spec sys hpipe (count_pipes (join_pipes segs)) 0 t0
  have hl : pairs.length + 1 = segs.length := by
    rw [hplen, ← hlen, hcmds, segment_handlers_length]
  refine ⟨_, pairs, hP, hl, ?_⟩
  have hf := fork_loop_spec sys env hfork
    (create_pipes sys (count_pipes (join_pipes segs)) 0 t0).1 pairs (segment_handlers segs) 0
    (by rw [segment_handlers_length]; omega)
  have hpa : parent_at (create_pipes sys (count_pipes (join_pipes segs)) 0 t0).1 pairs 0
      = (create_pipes sys (count_pipes (join_pipes segs)) 0 t0).1 := by
    simp [parent_at, pipe_fds, close_all]
  rw [hpa] at hf
  simp only [execute, hex, hcmds, hp2]
  rw [← hplen] at hf ⊢
  exact hf

/-- The child of the subsection `i` of a pipeline: its descriptors 0 and 1
when `parse_cmd` is called, and what `parse_cmd` does: the redirections of
the subsection in order, then the end of `parse_cmd`, with the descriptors
the redirections leave. -/
theorem execute_child (sys : Sys) (env : Env) (t0 : FdTable) (segs : List (List tok_node))
    (hne : segs ≠ []) (hS : Segments segs) (hpipe : ∀ i, sys.pipe_ok i = true)
    (hfork : ∀ i, sys.fork_ok i = true) (h0 : fd_get t0 0 ≠ none) (h1 : fd_get t0 1 ≠ none) :
    ∃ ex, execute sys env t0 (join_pipes segs) = some ex
      ∧ ex.children.length = segs.length
      ∧ (∀ fd, (ex.parent.map (fun t => fd_get t fd)) = some (fd_get t0 fd))
      ∧ ∀ (i : Nat) (seg : List tok_node), segs[i]? = some seg →
          (∀ t, seg.getLast? = some t → ¬ is_redirect t) →
          (∀ p ∈ redirection_pairs seg [], redirection_opens env p = true) →
          ∃ c, ex.children[i]? = some (some c)
            ∧ fd_get c.wired 0 = (if i = 0 then fd_get t0 0 else some (File.pipe_read (i - 1)))
            ∧ fd_get c.wired 1
                = (if i + 1 < segs.length then some (File.pipe_write i) else fd_get t0 1)
            ∧ c.run = (launch env (leading_words seg)).map (fun evs =>
                ((redirection_pairs seg []).map redirection_event ++ evs,
                  apply_events c.wired ((redirection_pairs seg []).map redirection_event))) := by
  obtain ⟨T, pairs, hP, hl, hex⟩ := execute_join sys env t0 segs hne hS hpipe hfork
  refine ⟨_, hex, ?_, ?_, ?_⟩
  · simp only [children_of_length, segment_handlers_length]
  · intro fd
    simp only [Option.map_some', Option.some.injEq]
    rw [fd_get_close_all]
    by_cases hm : fd ∈ pipe_fds pairs
    · rw [if_pos hm]
      obtain ⟨j, r, w, hj, hrw⟩ := (mem_pipe_fds pairs fd).1 hm
      obtain ⟨_, _, h3, h4⟩ := hP.1 j r w hj
      rcases hrw with rfl | rfl
      · exact h3.symm
      · exact h4.symm
    · rw [if_neg hm, hP.2 fd hm]
  · intro i seg hseg hlast hopen
    have hi : i < segs.length := by
      by_contra hcon
      rw [List.getElem?_eq_none (Nat.le_of_not_lt hcon)] at hseg
      cases hseg
    obtain ⟨s, rest, after, rfl, hs, hrest, hpe, hh⟩ := segment_handlers_get segs hS i _ hseg
    obtain ⟨w, hw, hw0, hw1⟩ := child_wiring_spec hP h0 h1 i (by omega)
    have hpairs := redirection_pairs_after (s :: rest) after hlast
    have hparse := parse_cmd_seg env s rest after hs hrest hpe
      (fun t ht _ => hlast t ht) (by rw [hpairs]; exact hopen)
    rw [hpairs] at hparse
    refine ⟨⟨w, (parse_cmd env (get_next_subsection (s :: rest ++ after))).map
      (fun evs => (evs, apply_events w evs))⟩, ?_, hw0, ?_, ?_⟩
    · simp only [children_of_get, hh, Option.map_some', Nat.zero_add]
      rw [run_child, hw]
      rfl
    · rw [hw1, ← hl]
    · simp only []
      rw [hparse]
      cases hla : launch env (leading_words (s :: rest)) with
      | none => rfl
      | some evs =>
        simp only [Option.map_some', Option.some.injEq, Prod.mk.injEq, true_and]
        rw [apply_events_append, apply_events_launch env _ evs hla]

/-- C21. In a pipeline of subsections, with `pipe` and `fork` succeeding and
the descriptors 0 and 1 open in the shell: the child of a subsection `i`
without redirect operator goes from the lines before `parse_cmd` straight to
the end of `parse_cmd`, with its descriptors unchanged; its descriptor 0 is
the read end of the pipe `i - 1`, or what the shell has at 0 for the first
child; its descriptor 1 is the write end of the pipe `i`, or what the shell
has at 1 for the last child. -/
theorem execute_pipe_wiring (sys : Sys) (env : Env) (t0 : FdTable)
    (segs : List (List tok_node)) (hne : segs ≠ []) (hS : Segments segs)
    (hpipe : ∀ i, sys.pipe_ok i = true) (hfork : ∀ i, sys.fork_ok i = true)
    (h0 : fd_get t0 0 ≠ none) (h1 : fd_get t0 1 ≠ none) :
    ∃ ex, execute sys env t0 (join_pipes segs) = some ex
      ∧ ex.children.length = segs.length
      ∧ ∀ (i : Nat) (seg : List tok_node), segs[i]? = some seg →
          (∀ t ∈ seg, ¬ is_redirect t) →
          ∃ c, ex.children[i]? = some (some c)
            ∧ c.run = (launch env (leading_words seg)).map (fun evs => (evs, c.wired))
            ∧ fd_get c.wired 0
                = (if i = 0 then fd_get t0 0 else some (File.pipe_read (i - 1)))
            ∧ fd_get c.wired 1
                = (if i + 1 < segs.length then some (File.pipe_write i) else fd_get t0 1) := by
  obtain ⟨ex, hex, hlen, _, hch⟩ := execute_child sys env t0 segs hne hS hpipe hfork h0 h1
  refine ⟨ex, hex, hlen, fun i seg hseg hno => ?_⟩
  have hpairs : redirection_pairs seg [] = [] := by
    unfold redirection_pairs
    rw [List.filter_eq_nil_iff]
    intro p hp
    have := hno p.1 (List.of_mem_zip hp).1
    simpa using this
  obtain ⟨c, hc, hw0, hw1, hrun⟩ := hch i seg hseg
    (fun t ht => hno t (List.mem_of_mem_getLast? ht))
    (by rw [hpairs]; exact fun p hp => by cases hp)
  refine ⟨c, hc, ?_, hw0, hw1⟩
  rw [hrun, hpairs]
  rfl

theorem execute_pipe_wiring_witness :
    ∃ ex, execute sys_ok env_all_ok std_table
        (join_pipes [[wordTok (bytes "ls"), wordTok (bytes "-l")], [wordTok (bytes "sort")],
          [wordTok (bytes "wc")]]) = some ex
      ∧ ex.children.length = 3
      ∧ ∀ (i : Nat) (seg : List tok_node),
          [[wordTok (bytes "ls"), wordTok (bytes "-l")], [wordTok (bytes "sort")],
            [wordTok (bytes "wc")]][i]? = some seg →
          (∀ t ∈ seg, ¬ is_redirect t) →
          ∃ c, ex.children[i]? = some (some c)
            ∧ c.run = (launch env_all_ok (leading_words seg)).map (fun evs => (evs, c.wired))
            ∧ fd_get c.wired 0
                = (if i = 0 then fd_get std_table 0 else some (File.pipe_read (i - 1)))
            ∧ fd_get c.wired 1
                = (if i + 1 < 3 then some (File.pipe_write i) else fd_get std_table 1) :=
  execute_pipe_wiring sys_ok env_all_ok std_table
    [[wordTok (bytes "ls"), wordTok (bytes "-l")], [wordTok (bytes "sort")],
      [wordTok (bytes "wc")]] (by decide) (by decide) (fun _ => rfl) (fun _ => rfl)
    (by decide) (by decide)

/-- C22. In a pipeline of subsections, with `pipe` and `fork` succeeding and
the descriptors 0 and 1 open in the shell: the child of a subsection whose
last node is no redirect operator and whose targets can all be opened makes
the redirections in the order of the operators, after the lines that connect
the pipes, and then goes to the end of `parse_cmd`.  There its descriptor 1
is the target of the last `>` or `>>` when there is one, also for a child
that is not the last, and else the write end of its pipe or what the shell
has at 1; its descriptor 0 is the target of the last `<` when there is one,
and else the read end of the pipe before or what the shell has at 0; the
other descriptors are as the lines before `parse_cmd` left them. -/
theorem execute_redirections (sys : Sys) (env : Env) (t0 : FdTable)
    (segs : List (List tok_node)) (hne : segs ≠ []) (hS : Segments segs)
    (hpipe : ∀ i, sys.pipe_ok i = true) (hfork : ∀ i, sys.fork_ok i = true)
    (h0 : fd_get t0 0 ≠ none) (h1 : fd_get t0 1 ≠ none) :
    ∃ ex, execute sys env t0 (join_pipes segs) = some ex
      ∧ ∀ (i : Nat) (seg : List tok_node), segs[i]? = some seg →
          (∀ t, seg.getLast? = some t → ¬ is_redirect t) →
          (∀ p ∈ redirection_pairs seg [], redirection_opens env p = true) →
          ∃ c fds, ex.children[i]? = some (some c)
            ∧ c.run = (launch env (leading_words seg)).map (fun evs =>
                ((redirection_pairs seg []).map redirection_event ++ evs, fds))
            ∧ (∀ f, last_output (redirection_pairs seg []) = some f → fd_get fds 1 = some f)
            ∧ (last_output (redirection_pairs seg []) = none →
                fd_get fds 1
                  = (if i + 1 < segs.length then some (File.pipe_write i) else fd_get t0 1))
            ∧ (∀ f, last_input (redirection_pairs seg []) = some f → fd_get fds 0 = some f)
            ∧ (last_input (redirection_pairs seg []) = none →
                fd_get fds 0
                  = (if i = 0 then fd_get t0 0 else some (File.pipe_read (i - 1))))
            ∧ (∀ fd, 2 ≤ fd → fd_get fds fd = fd_get c.wired fd) := by
  obtain ⟨ex, hex, _, _, hch⟩ := execute_child sys env t0 segs hne hS hpipe hfork h0 h1
  refine ⟨ex, hex, fun i seg hseg hlast hopen => ?_⟩
  obtain ⟨c, hc, hw0, hw1, hrun⟩ := hch i seg hseg hlast hopen
  have hc0 : fd_get c.wired 0 ≠ none := by
    rw [hw0]; split_ifs
    · exact h0
    · simp
  have hc1 : fd_get c.wired 1 ≠ none := by
    rw [hw1]; split_ifs
    · simp
    · exact h1
  have hget := apply_events_redirections (redirection_pairs seg []) c.wired hc0 hc1
  refine ⟨c, _, hc, hrun, ?_, ?_, ?_, ?_, ?_⟩
  · intro f hf
    rw [hget, if_neg (by decide), if_pos rfl, hf]
  · intro hf
    rw [hget, if_neg (by decide), if_pos rfl, hf, hw1]
  · intro f hf
    rw [hget, if_pos rfl, hf]
  · intro hf
    rw [hget, if_pos rfl, hf, hw0]
  · intro fd hfd
    rw [hget, if_neg (by omega), if_neg (by omega)]

theorem execute_redirections_witness :
    ∃ ex, execute sys_ok env_all_ok std_table
        (join_pipes [[wordTok (bytes "a"), ⟨bytes ">", true⟩, wordTok (bytes "f"),
            ⟨bytes ">>", true⟩, wordTok (bytes "g")],
          [wordTok (bytes "b"), ⟨bytes "<", true⟩, wordTok (bytes "h")]]) = some ex
      ∧ ∀ (i : Nat) (seg : List tok_node),
          [[wordTok (bytes "a"), ⟨bytes ">", true⟩, wordTok (bytes "f"),
            ⟨bytes ">>", true⟩, wordTok (bytes "g")],
            [wordTok (bytes "b"), ⟨bytes "<", true⟩, wordTok (bytes "h")]][i]? = some seg →
          (∀ t, seg.getLast? = some t → ¬ is_redirect t) →
          (∀ p ∈ redirection_pairs seg [], redirection_opens env_all_ok p = true) →
          ∃ c fds, ex.children[i]? = some (some c)
            ∧ c.run = (launch env_all_ok (leading_words seg)).map (fun evs =>
                ((redirection_pairs seg []).map redirection_event ++ evs, fds))
            ∧ (∀ f, last_output (redirection_pairs seg []) = some f → fd_get fds 1 = some f)
            ∧ (last_output (redirection_pairs seg []) = none →
                fd_get fds 1
                  = (if i + 1 < 2 then some (File.pipe_write i) else fd_get std_table 1))
            ∧ (∀ f, last_input (redirection_pairs seg []) = some f → fd_get fds 0 = some f)
            ∧ (last_input (redirection_pairs seg []) = none →
                fd_get fds 0
                  = (if i = 0 then fd_get std_table 0 else some (File.pipe_read (i - 1))))
            ∧ (∀ fd, 2 ≤ fd → fd_get fds fd = fd_get c.wired fd) :=
  execute_redirections sys_ok env_all_ok std_table
    [[wordTok (bytes "a"), ⟨bytes ">", true⟩, wordTok (bytes "f"),
        ⟨bytes ">>", true⟩, wordTok (bytes "g")],
      [wordTok (bytes "b"), ⟨bytes "<", true⟩, wordTok (bytes "h")]]
    (by decide) (by decide) (fun _ => rfl) (fun _ => rfl) (by decide) (by decide)

/-- The pipeline `a > f >> g | b < h`: the first child writes to `g`, opened
for appending, and not to the pipe; the second reads from `h`. -/
theorem execute_redirections_example :
    execute sys_ok env_all_ok std_table
        (join_pipes [[wordTok (bytes "a"), ⟨bytes ">", true⟩, wordTok (bytes "f"),
            ⟨bytes ">>", true⟩, wordTok (bytes "g")],
          [wordTok (bytes "b"), ⟨bytes "<", true⟩, wordTok (bytes "h")]])
      = some ⟨[some ⟨[some (File.inherited 0), some (File.pipe_write 0),
                  some (File.inherited 2), none, none],
                some ([Event.output_to_file (bytes "f") false,
                    Event.output_to_file (bytes "g") true, Event.bin_exists (bytes "a"),
                    Event.execvp (bytes "a") [bytes "a"]],
                  [some (File.inherited 0),
                    some (File.opened (bytes "g") Read_Write.WRITE true),
                    some (File.inherited 2), none, none])⟩,
              some ⟨[some (File.pipe_read 0), some (File.inherited 1),
                  some (File.inherited 2), none, none],
                some ([Event.file_to_input (bytes "h"), Event.bin_exists (bytes "b"),
                    Event.execvp (bytes "b") [bytes "b"]],
                  [some (File.opened (bytes "h") Read_Write.READ false),
                    some (File.inherited 1), some (File.inherited 2), none, none])⟩],
          some [some (File.inherited 0), some (File.inherited 1), some (File.inherited 2),
            none, none]⟩ := by
  decide

/-- C23. The pipeline `a | b | c`, with the three standard descriptors open
in the shell: at the call of `execvp` the first child still has both ends of
the second pipe open, at the descriptors 5 and 6, besides the write end of
the first pipe at its descriptor 1.  The second and the third child have no
descriptor of a pipe but 0 and 1.  The parent, in every pipeline with `pipe`
and `fork` succeeding, returns with its descriptors as they were at the
call: every pipe is closed. -/
theorem execute_pipe_descriptors :
    execute sys_ok env_all_ok std_table
        (join_pipes [[wordTok (bytes "a")], [wordTok (bytes "b")], [wordTok (bytes "c")]])
      = some ⟨[some ⟨[some (File.inherited 0), some (File.pipe_write 0),
                  some (File.inherited 2), none, none, some (File.pipe_read 1),
                  some (File.pipe_write 1)],
                some ([Event.bin_exists (bytes "a"), Event.execvp (bytes "a") [bytes "a"]],
                  [some (File.inherited 0), some (File.pipe_write 0),
                    some (File.inherited 2), none, none, some (File.pipe_read 1),
                    some (File.pipe_write 1)])⟩,
              some ⟨[some (File.pipe_read 0), some (File.pipe_write 1),
                  some (File.inherited 2), none, none, none, none],
                some ([Event.bin_exists (bytes "b"), Event.execvp (bytes "b") [bytes "b"]],
                  [some (File.pipe_read 0), some (File.pipe_write 1),
                    some (File.inherited 2), none, none, none, none])⟩,
              some ⟨[some (File.pipe_read 1), some (File.inherited 1),
                  some (File.inherited 2), none, none, none, none],
                some ([Event.bin_exists (bytes "c"), Event.execvp (bytes "c") [bytes "c"]],
                  [some (File.pipe_read 1), some (File.inherited 1),
                    some (File.inherited 2), none, none, none, none])⟩],
          some [some (File.inherited 0), some (File.inherited 1), some (File.inherited 2),
            none, none, none, none]⟩
      ∧ (∀ (sys : Sys) (env : Env) (t0 : FdTable) (segs : List (List tok_node)),
          segs ≠ [] → Segments segs → (∀ i, sys.pipe_ok i = true) →
          (∀ i, sys.fork_ok i = true) →
          ∃ ex t, execute sys env t0 (join_pipes segs) = some ex ∧ ex.parent = some t
            ∧ ∀ fd, fd_get t fd = fd_get t0 fd) := by
  refine ⟨by decide, fun sys env t0 segs hne hS hpipe hfork => ?_⟩
  obtain ⟨T, pairs, hP, _, hex⟩ := execute_join sys env t0 segs hne hS hpipe hfork
  refine ⟨_, _, hex, rfl, fun fd => ?_⟩
  rw [fd_get_close_all]
  by_cases hm : fd ∈ pipe_fds pairs
  · rw [if_pos hm]
    obtain ⟨j, r, w, hj, hrw⟩ := (mem_pipe_fds pairs fd).1 hm
    obtain ⟨_, _, h3, h4⟩ := hP.1 j r w hj
    rcases hrw with rfl | rfl
    · exact h3.symm
    · exact h4.symm
  · rw [if_neg hm, hP.2 fd hm]

end MyCLI
